import Mathlib

/-!
# Allow/deny list synchroniser: embedding and properties

A shallow embedding of the Go packages `internal/format` and `internal/sync`.

Modelling conventions
* A Go `string` is a list of Unicode characters (`Str`); the embedding covers
  valid UTF-8 text, for which Go's byte-wise comparison of strings coincides
  with the code-point-wise lexicographic order used here, and for which the
  byte loops of the source (which only ever test for ASCII delimiters) see the
  same delimiters as a character loop.
* A Go slice of strings is a `List Str`; a `nil` slice and an empty slice are
  both `[]`, except where a slice is handed to `encoding/json`, which tells them
  apart: there the slice is an `Option (List Str)` and `none` is the `nil` slice.
* A Go map used as a set is a list used as a set; a `map[string]any` is an
  association list.
* A function that mutates files takes the file system and returns the new one;
  a Go `error` result is an `Except Err`.
-/

namespace AllowDenySync

/-! ## Definitions -/

/-- A Go string, as its sequence of characters. -/
abbrev Str := List Char

/-- Go `unicode.IsSpace`: the Latin-1 spaces `\t \n \v \f \r`, space, U+0085, U+00A0,
and the characters above Latin-1 that have the Unicode property White_Space. -/
def isSpace (c : Char) : Bool :=
  let n := c.toNat
  (9 ≤ n && n ≤ 13) || n == 32 || n == 0x85 || n == 0xA0 || n == 0x1680 ||
  (0x2000 ≤ n && n ≤ 0x200A) || n == 0x2028 || n == 0x2029 || n == 0x202F ||
  n == 0x205F || n == 0x3000

/-- Go `strings.TrimSpace`: drop leading and trailing white space. -/
def TrimSpace (s : Str) : Str :=
  (s.dropWhile isSpace).rdropWhile isSpace

/-- Go `sort.Strings`: ascending order. The order on `Str` is lexicographic by
code point; the sorted arrangement of a list is unique, so the (unstable) library
sort is determined by it. -/
def sortStrings (l : List Str) : List Str :=
  l.insertionSort (fun a b => a ≤ b)

/-- The `for _, v := range values` loop of `Normalize`, with its two loop
variables: the set `seen` and the slice `out`. -/
def normalizeLoop : List Str → List Str → List Str → List Str
  | [], _, out => out
  | v :: rest, seen, out =>
    let v := TrimSpace v
    if v = [] then normalizeLoop rest seen out
    else if v ∈ seen then normalizeLoop rest seen out
    else normalizeLoop rest (v :: seen) (out ++ [v])

/-- `format.Normalize(values, doSort)`. -/
def Normalize (values : List Str) (doSort : Bool) : List Str :=
  let out := normalizeLoop values [] []
  if doSort then sortStrings out else out

/-- The trimmed, non-empty entries of a list, in order (specification side). -/
def trimmedNonEmpty (values : List Str) : List Str :=
  (values.map TrimSpace).filter (fun v => decide (v ≠ []))

/-- Remove every repetition after the first occurrence (specification side). -/
def keepFirst : List Str → List Str
  | [] => []
  | x :: xs => x :: (keepFirst xs).filter (fun y => decide (y ≠ x))

/-! ### Documents, files and errors -/

/-- A decoded JSON value, as `encoding/json` hands it over in an `any`. An object is
kept as an association list without regard to the order of its entries: the order of
the list stands for the iteration order of the Go map, which Go leaves unspecified. The
code never inspects a number, whose payload is kept as an integer. -/
inductive JSON where
  | null
  | bool (b : Bool)
  | num (x : Int)
  | str (s : Str)
  | arr (items : List JSON)
  | obj (fields : List (Str × JSON))

instance : Inhabited JSON := ⟨JSON.null⟩

/-- The fields of a `map[string]any`. -/
abbrev Obj := List (Str × JSON)

/-- What the program takes from outside the repository during one call: the library
`encoding/json`, that is the decoder (`none` for a syntax error) and the output of
`json.MarshalIndent(v, "", "  ")`, and the order in which a `for ... range` loop walks
the entries of a map. Go leaves that order unspecified and varies it from one loop to
the next, so it is any rearrangement of the entries, and two calls that are compared are
given two values of this structure that agree in the library. Within one call `Run`
reads every client once, and the loops over two equal maps are given one order. -/
structure JSONLib where
  unmarshal : Str → Option JSON
  marshalIndent : JSON → Str
  rangeOrder : Obj → Obj
  rangeOrder_perm : ∀ fields, (rangeOrder fields).Perm fields

/-- Two calls with the same library `encoding/json`, whatever the order of their loops
over maps. -/
def sameLibrary (J J' : JSONLib) : Prop :=
  J'.unmarshal = J.unmarshal ∧ J'.marshalIndent = J.marshalIndent

/-- What a file holds: a text, or the bytes that `json.MarshalIndent` made of a
document followed by a line feed. The decoder gives back the document from the latter;
this is the one property of `encoding/json` the embedding relies on. -/
inductive FileData where
  | text (s : Str)
  | json (d : JSON)

/-- The outcome of opening a path for reading: no such file, another I/O error, or
the content. -/
inductive FileState where
  | absent
  | unreadable
  | present (data : FileData)

/-- The file system: the file that every path names, the state of every file, and
whether `ensureDir` followed by `os.WriteFile` succeeds at a path. Two path strings may
name one file (`x.txt` and `./x.txt`, a link and its target): `ident` resolves a path to
the file it names, and the state is kept per file, so the paths that name one file are
read and written as one. A write of a regular file does not change what the paths name;
a write that fails leaves the file as it was, and a file that has been written can be
read. -/
structure FS where
  ident : Str → Str
  store : Str → FileState
  writable : Str → Bool

/-- The outcome of opening a path: the state of the file that the path names. -/
def FS.file (fs : FS) (path : Str) : FileState :=
  fs.store (fs.ident path)

/-- Errors, with the arguments of the `fmt.Errorf` call that builds them. -/
inductive Err where
  | notExist (path : Str)
  | ioError (path : Str)
  | jsonDecode
  | unknownFormat (name : Str)
  | emptyKey
  | pathNotObject (key : Str) (upTo : Str)
  | notStringArray (key : Str)
  | notAnObject (key : Str)
  | client (name : Str) (what : Str) (cause : Err)
  | clientRequires (name : Str) (what : Str)
  | sourceRequired
  | sourceNotFound (source : Str)
  | tooLong
  | unknownMode (mode : Str)
  deriving DecidableEq

deriving instance DecidableEq for Except

/-- The content of a file read as text (`string(b)`). -/
def fileText (J : JSONLib) : FileData → Str
  | .text s => s
  | .json d => J.marshalIndent d ++ ['\n']

/-- The content of a file decoded by `json.Unmarshal` into an `any`. -/
def fileJSON (J : JSONLib) : FileData → Option JSON
  | .text s => J.unmarshal s
  | .json d => some d

/-- `os.ReadFile(path)` / `os.Open(path)`. -/
def readFile (fs : FS) (path : Str) : Except Err FileData :=
  match fs.file path with
  | .absent => .error (.notExist path)
  | .unreadable => .error (.ioError path)
  | .present d => .ok d

/-- `ensureDir(path)` followed by `os.WriteFile(path, data, 0o644)`. -/
def writeFile (fs : FS) (path : Str) (data : FileData) : Except Err FS :=
  if fs.writable path then
    .ok { ident := fs.ident,
          store := fun i => if i = fs.ident path then .present data else fs.store i,
          writable := fs.writable }
  else .error (.ioError path)

/-! ### Strings -/

/-- The double quote. -/
abbrev dquote : Char := Char.ofNat 34

/-- The single quote. -/
abbrev squote : Char := Char.ofNat 39

/-- The backslash. -/
abbrev backslash : Char := Char.ofNat 92

/-- Go `strings.Split(s, sep)` for a one-character separator: the pieces between the
separators, at least one piece. -/
def splitOn (sep : Char) : Str → List Str
  | [] => [[]]
  | c :: cs =>
    if c = sep then [] :: splitOn sep cs
    else match splitOn sep cs with
      | [] => [[c]]
      | p :: ps => (c :: p) :: ps

/-- Go `strings.Join(parts, sep)`. -/
def joinWith (sep : Str) : List Str → Str
  | [] => []
  | [x] => x
  | x :: y :: rest => x ++ sep ++ joinWith sep (y :: rest)

/-- Go `strings.HasPrefix(s, pre)`. -/
def hasPrefix (s pre : Str) : Bool :=
  pre.isPrefixOf s

/-- Go `strings.Contains(s, sub)`. -/
def containsStr (s sub : Str) : Bool :=
  s.tails.any (fun t => sub.isPrefixOf t)

/-- Go `strings.ReplaceAll(s, old, new)` for a non-empty `old`: scan from the left,
replace each occurrence and continue after it. The counter is the number of characters
of the current occurrence still to be skipped. -/
def replaceAllFrom (old new : Str) : Nat → Str → Str
  | _, [] => []
  | skip + 1, _ :: rest => replaceAllFrom old new skip rest
  | 0, c :: rest =>
    if old.isPrefixOf (c :: rest) then new ++ replaceAllFrom old new (old.length - 1) rest
    else c :: replaceAllFrom old new 0 rest

/-- Go `strings.ReplaceAll(s, old, new)` for a non-empty `old`. -/
def replaceAll (s old new : Str) : Str :=
  replaceAllFrom old new 0 s

/-- Go `strings.ToLower`, exact on every character whose lower case is an ASCII
character (the letters `A` to `Z`, U+0130 and the Kelvin sign U+212A); any other
character has a lower case outside ASCII and is left as it is, which is all that a
comparison with the ASCII format names observes. -/
def toLower (s : Str) : Str :=
  s.map (fun c =>
    if 65 ≤ c.toNat ∧ c.toNat ≤ 90 then Char.ofNat (c.toNat + 32)
    else if c.toNat = 0x130 then 'i'
    else if c.toNat = 0x212A then 'k'
    else c)

/-! ### The dotted-path accessor (`getJSONPath`, `setJSONPath`) -/

/-- Reading `obj[part]` from a Go map. -/
def lookupKey (k : Str) : Obj → Option JSON
  | [] => none
  | (k', v) :: rest => if k' = k then some v else lookupKey k rest

/-- The assignment `obj[part] = v` on a Go map. -/
def insertKey (k : Str) (v : JSON) : Obj → Obj
  | [] => [(k, v)]
  | (k', v') :: rest => if k' = k then (k, v) :: rest else (k', v') :: insertKey k v rest

/-- The loop of `getJSONPath`: `done` are the segments already walked (`parts[:i]`),
the second list the segments still to walk, `cur` the value reached. -/
def getWalk (key : Str) : List Str → List Str → JSON → Except Err (Option JSON)
  | _, [], cur => .ok (some cur)
  | done, part :: rest, cur =>
    match cur with
    | .obj fields =>
      match lookupKey part fields with
      | none => .ok none
      | some next => getWalk key (done ++ [part]) rest next
    | _ => .error (.pathNotObject key (joinWith ['.'] done))

/-- `getJSONPath(root, key)`: an error, not found (`none`) or the value found. -/
def getJSONPath (root : Obj) (key : Str) : Except Err (Option JSON) :=
  if key = [] then .error .emptyKey
  else getWalk key [] (splitOn '.' key) (.obj root)

/-- The loop of `setJSONPath` and the final assignment, returning the updated map
that the Go code reaches by mutation. `done` are the segments already walked. -/
def setWalk (key : Str) (value : JSON) : List Str → List Str → Obj → Except Err Obj
  | _, [], cur => .ok cur
  | _, [last], cur => .ok (insertKey last value cur)
  | done, part :: rest, cur =>
    match lookupKey part cur with
    | none =>
      match setWalk key value (done ++ [part]) rest [] with
      | .ok child => .ok (insertKey part (.obj child) cur)
      | .error e => .error e
    | some (.obj fields) =>
      match setWalk key value (done ++ [part]) rest fields with
      | .ok child => .ok (insertKey part (.obj child) cur)
      | .error e => .error e
    | some _ => .error (.pathNotObject key (joinWith ['.'] (done ++ [part])))

/-- `setJSONPath(root, key, value)`. -/
def setJSONPath (root : Obj) (key : Str) (value : JSON) : Except Err Obj :=
  if key = [] then .error .emptyKey
  else setWalk key value [] (splitOn '.' key) root

/-- The loop of `toStringSlice` over a `[]any`: the strings, or `none` at the first
item that is not a string. -/
def stringItems : List JSON → Option (List Str)
  | [] => some []
  | .str s :: rest =>
    match stringItems rest with
    | some out => some (s :: out)
    | none => none
  | _ :: _ => none

/-- `toStringSlice(val)`. -/
def toStringSlice : JSON → Option (List Str)
  | .arr items => stringItems items
  | _ => none

/-! ### The JSON adapters -/

/-- `readJSONObject(path, missingOK)`; `none` is the `nil` map returned for a missing
file that is tolerated. -/
def readJSONObject (J : JSONLib) (fs : FS) (path : Str) (missingOK : Bool) :
    Except Err (Option Obj) :=
  match readFile fs path with
  | .error e =>
    match e with
    | .notExist _ => if missingOK then .ok none else .error e
    | _ => .error e
  | .ok data =>
    match fileJSON J data with
    | some (.obj fields) => .ok (some fields)
    | some .null => .ok (some [])
    | _ => .error .jsonDecode

/-- `ReadJSONKey(path, missingOK, key)`. -/
def ReadJSONKey (J : JSONLib) (fs : FS) (path : Str) (missingOK : Bool) (key : Str) :
    Except Err (List Str) :=
  match readJSONObject J fs path missingOK with
  | .error e => .error e
  | .ok none => .ok []
  | .ok (some root) =>
    match getJSONPath root key with
    | .error e => .error e
    | .ok none => .ok []
    | .ok (some val) =>
      match toStringSlice val with
      | some list => .ok list
      | none => .error (.notStringArray key)

/-- The body of the `for k, v := range obj` loop of `ReadJSONBoolMap` over the entries in
the order in which the loop visits them. -/
def splitBoolMap : Obj → List Str × List Str
  | [] => ([], [])
  | (k, v) :: rest =>
    let r := splitBoolMap rest
    match v with
    | .bool true => (k :: r.1, r.2)
    | .bool false => (r.1, k :: r.2)
    | _ => r

/-- `ReadJSONBoolMap(path, missingOK, key)`. -/
def ReadJSONBoolMap (J : JSONLib) (fs : FS) (path : Str) (missingOK : Bool) (key : Str) :
    Except Err (List Str × List Str) :=
  match readJSONObject J fs path missingOK with
  | .error e => .error e
  | .ok none => .ok ([], [])
  | .ok (some root) =>
    match getJSONPath root key with
    | .error e => .error e
    | .ok none => .ok ([], [])
    | .ok (some (.obj fields)) => .ok (splitBoolMap (J.rangeOrder fields))
    | .ok (some _) => .error (.notAnObject key)

/-- The map `out` that `WriteJSONBoolMap` builds: the allow entries with `true`, then
the deny entries with `false`. -/
def boolMapOf (allow deny : List Str) : Obj :=
  deny.foldl (fun out v => insertKey v (.bool false) out)
    (allow.foldl (fun out v => insertKey v (.bool true) out) [])

/-- The second half of both JSON writers: set the key, then serialise the root. -/
def writeJSONValue (J : JSONLib) (fs : FS) (path : Str) (key : Str) (value : JSON) :
    Except Err FS :=
  match readJSONObject J fs path true with
  | .error e => .error e
  | .ok root? =>
    match setJSONPath (root?.getD []) key value with
    | .error e => .error e
    | .ok root => writeFile fs path (.json (.obj root))

/-- `WriteJSONBoolMap(path, key, allow, deny)`. -/
def WriteJSONBoolMap (J : JSONLib) (fs : FS) (path : Str) (key : Str)
    (allow deny : List Str) : Except Err FS :=
  writeJSONValue J fs path key (.obj (boolMapOf allow deny))

/-- A Go `[]string` as `encoding/json` serialises it: `null` for the `nil` slice
(`none`), an array of strings otherwise. -/
def sliceJSON : Option (List Str) → JSON
  | none => .null
  | some values => .arr (values.map JSON.str)

/-- `WriteJSONKey(path, key, values)`; `none` is the `nil` slice. -/
def WriteJSONKey (J : JSONLib) (fs : FS) (path : Str) (key : Str)
    (values : Option (List Str)) : Except Err FS :=
  writeJSONValue J fs path key (sliceJSON values)

/-! ### The list formats (`NewlineFormat`, `JSONArrayFormat`) -/

/-- The closed set of list formats behind the `ListFormat` interface. -/
inductive ListFormat where
  | newline
  | jsonArray
  deriving DecidableEq

/-- `format.New(name)`. -/
def ListFormat.new (name : Str) : Except Err ListFormat :=
  let n := toLower name
  if n = "newline".toList ∨ n = "lines".toList ∨ n = "txt".toList then .ok .newline
  else if n = "json".toList ∨ n = "json-array".toList ∨ n = "jsonarray".toList then
    .ok .jsonArray
  else .error (.unknownFormat name)

/-- The tolerance of a missing file shared by all readers. -/
def readOrMissing (fs : FS) (path : Str) (missingOK : Bool) : Except Err (Option FileData) :=
  match readFile fs path with
  | .error e =>
    match e with
    | .notExist _ => if missingOK then .ok none else .error e
    | _ => .error e
  | .ok data => .ok (some data)

/-- The line loop of `NewlineFormat.Read`. -/
def newlineEntries (content : Str) : List Str :=
  ((splitOn '\n' content).map TrimSpace).filter
    (fun v => !(decide (v = []) || hasPrefix v ['#']))

/-- The elements of an array decoded into a `[]string`: a string is stored, `null`
leaves the empty string, anything else is a type error. -/
def decodeStringItems : List JSON → Option (List Str)
  | [] => some []
  | .str s :: rest =>
    match decodeStringItems rest with
    | some out => some (s :: out)
    | none => none
  | .null :: rest =>
    match decodeStringItems rest with
    | some out => some ([] :: out)
    | none => none
  | _ :: _ => none

/-- `json.Unmarshal(b, &out)` for `out []string`, from the decoded value: `null`
leaves the slice `nil`, an array is decoded element by element. -/
def decodeStringSlice : JSON → Option (List Str)
  | .null => some []
  | .arr items => decodeStringItems items
  | _ => none

/-- `Read(path, missingOK)` of a list format. -/
def ListFormat.read (J : JSONLib) (f : ListFormat) (fs : FS) (path : Str)
    (missingOK : Bool) : Except Err (List Str) :=
  match readOrMissing fs path missingOK with
  | .error e => .error e
  | .ok none => .ok []
  | .ok (some data) =>
    match f with
    | .newline => .ok (newlineEntries (fileText J data))
    | .jsonArray =>
      match (fileJSON J data).bind decodeStringSlice with
      | some out => .ok out
      | none => .error .jsonDecode

/-- The content `NewlineFormat.Write` and `WriteCodexRules` produce from their lines:
joined by line feeds, with a final line feed unless the result is empty. -/
def linesContent (lines : List Str) : Str :=
  let content := joinWith ['\n'] lines
  if content = [] then content else content ++ ['\n']

/-- The bytes `Write` of a list format produces for a slice; `none` is the `nil` slice. -/
def ListFormat.content (f : ListFormat) (values : Option (List Str)) : FileData :=
  match f with
  | .newline => .text (linesContent (values.getD []))
  | .jsonArray => .json (sliceJSON values)

/-- `Write(path, values)` of a list format; `none` is the `nil` slice. -/
def ListFormat.write (f : ListFormat) (fs : FS) (path : Str)
    (values : Option (List Str)) : Except Err FS :=
  writeFile fs path (f.content values)

/-! ### The rule-file codec -/

/-- The constant `codexManagedMarker`. -/
def codexManagedMarker : Str := "# syncd-managed".toList

/-- The test `strings.HasPrefix(strings.TrimSpace(line), codexManagedMarker)`. -/
def isMarkerLine (line : Str) : Bool :=
  hasPrefix (TrimSpace line) codexManagedMarker

/-- One line as `bufio.ScanLines` returns it: without one trailing carriage return. -/
def dropCR (line : Str) : Str :=
  if line.getLast? = some '\r' then line.dropLast else line

/-- The lines a `bufio.Scanner` yields for a content in which no line reaches the token
limit (see `scanErr`): the pieces between line feeds, the empty piece after a final line
feed left out, each without one trailing carriage return. -/
def scanLines (content : Str) : List Str :=
  let pieces := splitOn '\n' content
  let pieces := if pieces.getLast? = some [] then pieces.dropLast else pieces
  pieces.map dropCR

/-- The number of bytes of a character in UTF-8. -/
def utf8Size (c : Char) : Nat :=
  if c.toNat < 0x80 then 1 else if c.toNat < 0x800 then 2 else if c.toNat < 0x10000 then 3
  else 4

/-- Go `len(s)`: the number of bytes of a string. -/
def byteLen (s : Str) : Nat :=
  (s.map utf8Size).sum

/-- The constant `bufio.MaxScanTokenSize`, 64 KiB. -/
def maxScanTokenSize : Nat := 65536

/-- The result of `scanner.Err()` after the loop `for scanner.Scan()`: the error
`bufio.ErrTooLong` when a piece between line feeds has `maxScanTokenSize` bytes or more,
for the buffer of the scanner, which does not grow beyond that size, is then full before
the end of the line is seen; no error otherwise. -/
def scanErr (content : Str) : Option Err :=
  if (splitOn '\n' content).any (fun piece => decide (maxScanTokenSize ≤ byteLen piece))
  then some .tooLong else none

/-- The character class `\s` of Go regular expressions. -/
def reSpace (c : Char) : Bool :=
  c = '\t' || c = '\n' || c.toNat = 12 || c = '\r' || c = ' '

/-- Leftmost match of an anchored matcher: the result at the first position of the
text from which the anchored matcher succeeds. -/
def findLeftmost (m : Str → Option Str) : Str → Option Str
  | [] => m []
  | c :: rest =>
    match m (c :: rest) with
    | some r => some r
    | none => findLeftmost m rest

/-- Remove a literal prefix. -/
def stripLiteral : Str → Str → Option Str
  | [], s => some s
  | _ :: _, [] => none
  | p :: ps, c :: cs => if p = c then stripLiteral ps cs else none

/-- The part `(.*?)\]` of the pattern expression: the shortest run of characters other
than a line feed that is followed by a closing bracket. -/
def captureToBracket : Str → Option Str
  | [] => none
  | c :: rest =>
    if c = ']' then some []
    else if c = '\n' then none
    else (captureToBracket rest).map (fun r => c :: r)

/-- The expression `pattern\s*=\s*\[(.*?)\]` anchored at the start of the text; the
result is the captured group. -/
def matchPatternAt (s : Str) : Option Str :=
  match stripLiteral "pattern".toList s with
  | none => none
  | some r1 =>
    match r1.dropWhile reSpace with
    | [] => none
    | c :: r2 =>
      if c = '=' then
        match r2.dropWhile reSpace with
        | [] => none
        | c :: r3 => if c = '[' then captureToBracket r3 else none
      else none

/-- The alternatives `(allow|forbidden|prompt)\"`, tried in this order. -/
def matchDecisionWord (s : Str) : Option Str :=
  if ("allow".toList ++ [dquote]).isPrefixOf s then some "allow".toList
  else if ("forbidden".toList ++ [dquote]).isPrefixOf s then some "forbidden".toList
  else if ("prompt".toList ++ [dquote]).isPrefixOf s then some "prompt".toList
  else none

/-- The expression `decision\s*=\s*\"(allow|forbidden|prompt)\"` anchored at the start
of the text; the result is the captured group. -/
def matchDecisionAt (s : Str) : Option Str :=
  match stripLiteral "decision".toList s with
  | none => none
  | some r1 =>
    match r1.dropWhile reSpace with
    | [] => none
    | c :: r2 =>
      if c = '=' then
        match r2.dropWhile reSpace with
        | [] => none
        | c :: r3 => if c = dquote then matchDecisionWord r3 else none
      else none

/-- `codexRulePatternRe.FindStringSubmatch(line)[1]`, when there is a match. -/
def findPattern (line : Str) : Option Str :=
  findLeftmost matchPatternAt line

/-- `codexRuleDecisionRe.FindStringSubmatch(line)[1]`, when there is a match. -/
def findDecision (line : Str) : Option Str :=
  findLeftmost matchDecisionAt line

/-- Where the index `i` of `parseQuotedList` stands: at the top of the outer loop
(skipping blanks and commas), inside a quoted item, right after a backslash inside an
item, or in the loop after the label `nextItem`. -/
inductive QuoteState where
  | between
  | inItem (sb : Str)
  | escaped (sb : Str)
  | afterItem

/-- The scan of `parseQuotedList` as one pass over the characters; `none` is the
result `nil, false`. -/
def quotedScan : Str → QuoteState → List Str → Option (List Str)
  | [], .between, out => some out
  | [], .afterItem, out => some out
  | [], .inItem _, _ => none
  | [], .escaped _, _ => none
  | c :: rest, .between, out =>
    if c = ' ' ∨ c = '\t' ∨ c = ',' then quotedScan rest .between out
    else if c = dquote then quotedScan rest (.inItem []) out
    else none
  | c :: rest, .inItem sb, out =>
    if c = backslash then quotedScan rest (.escaped sb) out
    else if c = dquote then quotedScan rest .afterItem (out ++ [sb])
    else quotedScan rest (.inItem (sb ++ [c])) out
  | c :: rest, .escaped sb, out => quotedScan rest (.inItem (sb ++ [c])) out
  | c :: rest, .afterItem, out =>
    if c = dquote then quotedScan rest (.inItem []) out
    else if c = ',' then quotedScan rest .between out
    else quotedScan rest .afterItem out

/-- `parseQuotedList(raw)`. -/
def parseQuotedList (raw : Str) : Option (List Str) :=
  quotedScan raw .between []

/-- `parseCodexRuleLine(line)`: the pattern and the decision, or `none` for `ok = false`. -/
def parseCodexRuleLine (line : Str) : Option (List Str × Str) :=
  if !containsStr line "prefix_rule".toList then none
  else
    match findPattern line, findDecision line with
    | some raw, some decision =>
      match parseQuotedList raw with
      | some pattern => some (pattern, decision)
      | none => none
    | _, _ => none

/-- The loop variables of `splitCommandPattern`. -/
structure SplitState where
  out : List Str
  sb : Str
  inQuote : Bool
  escape : Bool

/-- The closure `flush` of `splitCommandPattern`. -/
def SplitState.flush (st : SplitState) : SplitState :=
  if st.sb = [] then st else { st with out := st.out ++ [st.sb], sb := [] }

/-- One turn of the `for _, r := range value` loop of `splitCommandPattern`. -/
def SplitState.step (st : SplitState) (r : Char) : SplitState :=
  if st.escape then { st with sb := st.sb ++ [r], escape := false }
  else if r = backslash then { st with escape := true }
  else if r = dquote ∨ r = squote then { st with inQuote := !st.inQuote }
  else if !st.inQuote ∧ (r = ' ' ∨ r = '\t' ∨ r = '\n') then st.flush
  else { st with sb := st.sb ++ [r] }

/-- `splitCommandPattern(value)`. -/
def splitCommandPattern (value : Str) : List Str :=
  ((value.foldl SplitState.step ⟨[], [], false, false⟩).flush).out

/-- `escapeCodexString(value)`: every pair of backslashes becomes four backslashes,
then every double quote becomes two backslashes and a double quote. -/
def escapeCodexString (value : Str) : Str :=
  let value := replaceAll value [backslash, backslash]
    [backslash, backslash, backslash, backslash]
  replaceAll value [dquote] [backslash, backslash, dquote]

/-- `codexRuleLine(cmd, decision)`. -/
def codexRuleLine (cmd : Str) (decision : Str) : Str :=
  let quoted := (splitCommandPattern cmd).map
    (fun p => [dquote] ++ escapeCodexString p ++ [dquote])
  "prefix_rule(pattern=[".toList ++ joinWith ", ".toList quoted ++
    "], decision=".toList ++ [dquote] ++ decision ++ [dquote] ++ ")".toList

/-- The loop variables of `ReadCodexRules`. -/
structure RuleReadState where
  allow : List Str
  deny : List Str
  expectManaged : Bool

/-- One turn of the `for scanner.Scan()` loop of `ReadCodexRules`. -/
def RuleReadState.step (st : RuleReadState) (line : Str) : RuleReadState :=
  if isMarkerLine line then { st with expectManaged := true }
  else if !st.expectManaged then st
  else
    match parseCodexRuleLine line with
    | none => { st with expectManaged := false }
    | some (pattern, decision) =>
      let joined := joinWith [' '] pattern
      if decision = "allow".toList then
        { st with allow := st.allow ++ [joined], expectManaged := false }
      else if decision = "forbidden".toList then
        { st with deny := st.deny ++ [joined], expectManaged := false }
      else { st with expectManaged := false }

/-- The allow and deny lists `ReadCodexRules` extracts from the lines of a file. -/
def readRuleLines (lines : List Str) : List Str × List Str :=
  let st := lines.foldl RuleReadState.step ⟨[], [], false⟩
  (st.allow, st.deny)

/-- `ReadCodexRules(path, missingOK)`. -/
def ReadCodexRules (J : JSONLib) (fs : FS) (path : Str) (missingOK : Bool) :
    Except Err (List Str × List Str) :=
  match readOrMissing fs path missingOK with
  | .error e => .error e
  | .ok none => .ok ([], [])
  | .ok (some data) =>
    match scanErr (fileText J data) with
    | some e => .error e
    | none => .ok (readRuleLines (scanLines (fileText J data)))

/-- The loop of `readCodexRuleFileKeepingNonManaged`: `skipNext` and the lines still
to scan; the result is `kept`. -/
def keepNonManaged : Bool → List Str → List Str
  | _, [] => []
  | true, _ :: rest => keepNonManaged false rest
  | false, line :: rest =>
    if isMarkerLine line then keepNonManaged true rest
    else line :: keepNonManaged false rest

/-- `readCodexRuleFileKeepingNonManaged(path)`. -/
def readCodexRuleFileKeepingNonManaged (J : JSONLib) (fs : FS) (path : Str) :
    Except Err (List Str) :=
  match readOrMissing fs path true with
  | .error e => .error e
  | .ok none => .ok []
  | .ok (some data) =>
    match scanErr (fileText J data) with
    | some e => .error e
    | none => .ok (keepNonManaged false (scanLines (fileText J data)))

/-- The marker and rule line pairs `WriteCodexRules` appends for a list of commands. -/
def managedPairs (cmds : List Str) (decision : Str) : List Str :=
  cmds.flatMap (fun cmd => [codexManagedMarker, codexRuleLine cmd decision])

/-- The slice `lines` that `WriteCodexRules` joins and writes. -/
def codexLines (kept allow deny : List Str) : List Str :=
  kept ++ managedPairs allow "allow".toList ++ managedPairs deny "forbidden".toList

/-- `WriteCodexRules(path, allow, deny)`. -/
def WriteCodexRules (J : JSONLib) (fs : FS) (path : Str) (allow deny : List Str) :
    Except Err FS :=
  match readCodexRuleFileKeepingNonManaged J fs path with
  | .error e => .error e
  | .ok kept => writeFile fs path (.text (linesContent (codexLines kept allow deny)))

/-! ### The policy merger (`sync.Run`) -/

/-- `config.Client`. -/
structure Client where
  name : Str
  allowPath : Str
  denyPath : Str
  format : Str
  allowKey : Str
  denyKey : Str
  missingOK : Bool

/-- `config.Config`; `sort` is the optional `*bool`. -/
structure Config where
  mode : Str
  source : Str
  sort : Option Bool
  clients : List Client

/-- `sync.Policy`. -/
structure Policy where
  allow : List Str
  deny : List Str
  deriving DecidableEq

/-- `sync.ClientSnapshot`. -/
structure ClientSnapshot where
  client : Client
  policy : Policy

/-- `sync.Options`. -/
structure Options where
  dryRun : Bool

/-- The path selection shared by the three single-file formats: the allow path, or
the deny path when the allow path is empty. -/
def primaryPath (c : Client) : Str :=
  if c.allowPath = [] then c.denyPath else c.allowPath

/-- Wrap the error of a step as `fmt.Errorf("client %s <what>: %w", name, err)`. -/
def wrapErr {α : Type} (name what : Str) : Except Err α → Except Err α
  | .ok a => .ok a
  | .error e => .error (.client name what e)

/-- The body of the read loop of `Run` up to the snapshot: the raw allow and deny
lists of one client. -/
def readClient (J : JSONLib) (fs : FS) (c : Client) : Except Err (List Str × List Str) :=
  let fmt := toLower c.format
  if fmt = "json-object".toList then
    let path := primaryPath c
    if path = [] then
      .error (.clientRequires c.name "json-object requires allow_path or deny_path".toList)
    else if c.allowKey = [] ∧ c.denyKey = [] then
      .error (.clientRequires c.name "json-object requires allow_key or deny_key".toList)
    else
      match (if c.allowKey = [] then .ok []
             else wrapErr c.name "allow".toList (ReadJSONKey J fs path c.missingOK c.allowKey)) with
      | .error e => .error e
      | .ok allow =>
        match (if c.denyKey = [] then .ok []
               else wrapErr c.name "deny".toList
                 (ReadJSONKey J fs path c.missingOK c.denyKey)) with
        | .error e => .error e
        | .ok deny => .ok (allow, deny)
  else if fmt = "json-bool-map".toList then
    let path := primaryPath c
    if path = [] then
      .error (.clientRequires c.name "json-bool-map requires allow_path or deny_path".toList)
    else if c.allowKey = [] then
      .error (.clientRequires c.name "json-bool-map requires allow_key".toList)
    else wrapErr c.name "allow/deny".toList (ReadJSONBoolMap J fs path c.missingOK c.allowKey)
  else if fmt = "codex-rules".toList then
    let path := primaryPath c
    if path = [] then
      .error (.clientRequires c.name "codex-rules requires allow_path or deny_path".toList)
    else wrapErr c.name "rules".toList (ReadCodexRules J fs path c.missingOK)
  else
    match ListFormat.new c.format with
    | .error e => .error (.client c.name [] e)
    | .ok fmtter =>
      match wrapErr c.name "allow".toList (fmtter.read J fs c.allowPath c.missingOK) with
      | .error e => .error e
      | .ok allow =>
        match wrapErr c.name "deny".toList (fmtter.read J fs c.denyPath c.missingOK) with
        | .error e => .error e
        | .ok deny => .ok (allow, deny)

/-- The read loop of `Run`: the snapshots of the clients, in order, or the first error. -/
def readSnapshots (J : JSONLib) (fs : FS) (sortLists : Bool) :
    List Client → Except Err (List ClientSnapshot)
  | [] => .ok []
  | c :: rest =>
    match readClient J fs c with
    | .error e => .error e
    | .ok (allow, deny) =>
      match readSnapshots J fs sortLists rest with
      | .error e => .error e
      | .ok snaps =>
        .ok (⟨c, ⟨Normalize allow sortLists, Normalize deny sortLists⟩⟩ :: snaps)

/-- The search of the authoritative branch: the policy of the first snapshot whose
client has the name `source`. -/
def findSource (source : Str) : List ClientSnapshot → Option Policy
  | [] => none
  | snap :: rest => if snap.client.name = source then some snap.policy
                    else findSource source rest

/-- The `switch mode` of `Run`. -/
def mergeSnapshots (mode source : Str) (sortLists : Bool) (snaps : List ClientSnapshot) :
    Except Err Policy :=
  if mode = "union".toList then
    .ok ⟨Normalize (snaps.flatMap (fun snap => snap.policy.allow)) sortLists,
         Normalize (snaps.flatMap (fun snap => snap.policy.deny)) sortLists⟩
  else if mode = "authoritative".toList then
    if source = [] then .error .sourceRequired
    else
      match findSource source snaps with
      | some policy => .ok policy
      | none => .error (.sourceNotFound source)
  else .error (.unknownMode mode)

/-- The outcome of one write inside the write loop: no error and the new file system,
or the wrapped error `fmt.Errorf("client %s <what>: %w", name, err)` and the file
system as it was before this write. -/
def writeStep (name what : Str) (fs : FS) : Except Err FS → Option Err × FS
  | .ok fs1 => (none, fs1)
  | .error e => (some (.client name what e), fs)

/-- The body of the write loop of `Run` for one client: the error that makes `Run`
return, if any, and the file system after the writes that were done. -/
def writeClient (J : JSONLib) (merged : Policy) (c : Client) (fs : FS) : Option Err × FS :=
  let fmt := toLower c.format
  if fmt = "json-object".toList then
    let path := primaryPath c
    if path = [] then
      (some (.clientRequires c.name "json-object requires allow_path or deny_path".toList), fs)
    else
      match (if c.allowKey = [] then (none, fs)
             else writeStep c.name "allow write".toList fs
               (WriteJSONKey J fs path c.allowKey (some merged.allow))) with
      | (some e, fs1) => (some e, fs1)
      | (none, fs1) =>
        if c.denyKey = [] then (none, fs1)
        else writeStep c.name "deny write".toList fs1
          (WriteJSONKey J fs1 path c.denyKey (some merged.deny))
  else if fmt = "json-bool-map".toList then
    let path := primaryPath c
    if path = [] then
      (some (.clientRequires c.name
        "json-bool-map requires allow_path or deny_path".toList), fs)
    else if c.allowKey = [] then
      (some (.clientRequires c.name "json-bool-map requires allow_key".toList), fs)
    else writeStep c.name "allow/deny write".toList fs
      (WriteJSONBoolMap J fs path c.allowKey merged.allow merged.deny)
  else if fmt = "codex-rules".toList then
    let path := primaryPath c
    if path = [] then
      (some (.clientRequires c.name "codex-rules requires allow_path or deny_path".toList), fs)
    else writeStep c.name "rules write".toList fs
      (WriteCodexRules J fs path merged.allow merged.deny)
  else
    match ListFormat.new c.format with
    | .error e => (some (.client c.name [] e), fs)
    | .ok fmtter =>
      match writeStep c.name "allow write".toList fs
          (fmtter.write fs c.allowPath (some merged.allow)) with
      | (some e, fs1) => (some e, fs1)
      | (none, fs1) =>
        writeStep c.name "deny write".toList fs1
          (fmtter.write fs1 c.denyPath (some merged.deny))

/-- The write loop of `Run`: the clients are written in order; the first error stops
the loop and leaves the file system as written so far. -/
def writeSnapshots (J : JSONLib) (merged : Policy) :
    List ClientSnapshot → FS → Option Err × FS
  | [], fs => (none, fs)
  | snap :: rest, fs =>
    match writeClient J merged snap.client fs with
    | (some e, fs1) => (some e, fs1)
    | (none, fs1) => writeSnapshots J merged rest fs1

/-- `sync.Run(cfg, opts)` on a file system: the returned policy or error, and the
file system afterwards. Every error return of the source returns the empty policy. -/
def Run (J : JSONLib) (cfg : Config) (opts : Options) (fs : FS) : Except Err Policy × FS :=
  let mode := if cfg.mode = [] then "union".toList else cfg.mode
  let sortLists := cfg.sort.getD true
  match readSnapshots J fs sortLists cfg.clients with
  | .error e => (.error e, fs)
  | .ok snapshots =>
    match mergeSnapshots mode cfg.source sortLists snapshots with
    | .error e => (.error e, fs)
    | .ok merged =>
      if opts.dryRun then (.ok merged, fs)
      else
        match writeSnapshots J merged snapshots fs with
        | (some e, fs1) => (.error e, fs1)
        | (none, fs1) => (.ok merged, fs1)

/-! ### Specification side of the dotted-path accessor -/

/-- Whether a value is an object. -/
def JSON.isObject : JSON → Bool
  | .obj _ => true
  | _ => false

/-- The value a sequence of segments resolves to from a value: each segment is looked
up in the object reached by the segments before it; nothing is reached through an
absent segment or through a value that is not an object. -/
def resolve : JSON → List Str → Option JSON
  | v, [] => some v
  | .obj fields, seg :: rest =>
    match lookupKey seg fields with
    | some next => resolve next rest
    | none => none
  | _, _ :: _ => none

/-- A proper prefix of the segments that resolves to an existing value that is not an
object. -/
def offendingPrefix (v : JSON) (parts pre : List Str) : Prop :=
  pre <+: parts ∧ pre ≠ parts ∧ ∃ w, resolve v pre = some w ∧ w.isObject = false

/-- Some segment is absent from the object reached by the segments before it. -/
def absentSegment (v : JSON) (parts : List Str) : Prop :=
  ∃ pre seg fields, pre ++ [seg] <+: parts ∧ resolve v pre = some (.obj fields) ∧
    lookupKey seg fields = none

/-! ### Specification side of the merge -/

/-- The raw allow and deny lists `Run` reads for a client (empty when the read fails). -/
def rawLists (J : JSONLib) (fs : FS) (c : Client) : List Str × List Str :=
  match readClient J fs c with
  | .ok r => r
  | .error _ => ([], [])

/-- A client's own normalized policy. -/
def ownPolicy (J : JSONLib) (fs : FS) (sortLists : Bool) (c : Client) : Policy :=
  ⟨Normalize (rawLists J fs c).1 sortLists, Normalize (rawLists J fs c).2 sortLists⟩

/-- The union of the clients' policies in the words of the specification: the
concatenation, in client-declaration order, of every client's own normalized list,
normalized again. -/
def unionPolicy (J : JSONLib) (fs : FS) (sortLists : Bool) (clients : List Client) : Policy :=
  ⟨Normalize (clients.flatMap (fun c => (ownPolicy J fs sortLists c).allow)) sortLists,
   Normalize (clients.flatMap (fun c => (ownPolicy J fs sortLists c).deny)) sortLists⟩

/-- Every client's read succeeds. -/
def readsSucceed (J : JSONLib) (fs : FS) (clients : List Client) : Prop :=
  ∀ c ∈ clients, ∃ r, readClient J fs c = .ok r

/-- The snapshots `Run` holds after a read phase without error. -/
def snapshotsOf (J : JSONLib) (fs : FS) (sortLists : Bool) (clients : List Client) :
    List ClientSnapshot :=
  clients.map (fun c => ⟨c, ownPolicy J fs sortLists c⟩)

/-- The key of an entry of a Boolean map with the value `true`. -/
def trueKey (kv : Str × JSON) : Option Str :=
  match kv.2 with
  | .bool true => some kv.1
  | _ => none

/-- The key of an entry of a Boolean map with the value `false`. -/
def falseKey (kv : Str × JSON) : Option Str :=
  match kv.2 with
  | .bool false => some kv.1
  | _ => none

/-- Two outcomes of reading a client that differ at most in the order of the entries of
the lists: the same error, or allow lists and deny lists that are rearrangements of each
other. -/
def sameUpToOrder :
    Except Err (List Str × List Str) → Except Err (List Str × List Str) → Prop
  | .ok a, .ok b => a.1.Perm b.1 ∧ a.2.Perm b.2
  | .error e, .error e2 => e = e2
  | _, _ => False

/-! ### Specification side of the rule file -/

/-- A character that may occur in a plain token: no white space, no quote character,
no backslash and no closing bracket. -/
def plainChar (c : Char) : Bool :=
  !isSpace c && c != dquote && c != squote && c != backslash && c != ']'

/-- A plain token: not empty and made of plain characters. -/
def plainToken (t : Str) : Bool :=
  decide (t ≠ []) && t.all plainChar

/-- A command that consists of plain tokens separated by single spaces. -/
def plainCommand (cmd : Str) : Bool :=
  (splitOn ' ' cmd).all plainToken

/-- The lines of a rule file that are not part of a managed pair, in the words of the
specification: a line is part of a managed pair when it is a marker line or when the
line immediately before it is a marker line. The flag tells whether the previous line
was a marker line. -/
def freeLines : Bool → List Str → List Str
  | _, [] => []
  | afterMarker, line :: rest =>
    if isMarkerLine line then freeLines true rest
    else if afterMarker then freeLines false rest
    else line :: freeLines false rest

/-- A token between double quotes, as `codexRuleLine` writes a token that needs no
escaping. -/
def quoteToken (t : Str) : Str :=
  [dquote] ++ t ++ [dquote]

/-- The end of a rule line, after the closing bracket of the pattern. -/
def ruleLineEnd (decision : Str) : Str :=
  ", decision=".toList ++ [dquote] ++ decision ++ [dquote] ++ ")".toList

/-- No marker line is immediately followed by another marker line. -/
def noMarkerPair : List Str → Bool
  | [] => true
  | [_] => true
  | a :: b :: rest => !(isMarkerLine a && isMarkerLine b) && noMarkerPair (b :: rest)

/-- A line the scanner can return: shorter than the token limit of 64 KiB. -/
def fitsScanner (line : Str) : Prop :=
  byteLen line < maxScanTokenSize

instance (line : Str) : Decidable (fitsScanner line) :=
  inferInstanceAs (Decidable (byteLen line < maxScanTokenSize))

/-- The command a line stands for as a rule line with the decision `wanted`: the tokens
of its quoted pattern joined by single spaces, if the line parses as a rule line and has
that decision. -/
def ruleOf (wanted : Str) (line : Str) : Option Str :=
  match parseCodexRuleLine line with
  | some (pattern, decision) => if decision = wanted then some (joinWith [' '] pattern) else none
  | none => none

/-- The commands, in file order, of the lines that immediately follow a marker line and
parse as a rule line with the decision `wanted`. The flag tells whether the previous
line was a marker line. -/
def rulesAfterMarker (wanted : Str) : Bool → List Str → List Str
  | _, [] => []
  | afterMarker, line :: rest =>
    (if afterMarker then (ruleOf wanted line).toList else []) ++
      rulesAfterMarker wanted (isMarkerLine line) rest

/-- The commands, in file order, of the lines that immediately follow a marker line, are
not themselves marker lines, and parse as a rule line with the decision `wanted`. The
flag tells whether the previous line was a marker line. -/
def managedRules (wanted : Str) : Bool → List Str → List Str
  | _, [] => []
  | afterMarker, line :: rest =>
    (if afterMarker = true ∧ isMarkerLine line = false then (ruleOf wanted line).toList
     else []) ++ managedRules wanted (isMarkerLine line) rest

/-! ### Specification side of the line-delimited format -/

/-- What a line of a line-delimited file contributes: its form without leading and
trailing white space, unless that form is empty or starts with `#`. -/
def keptEntry (line : Str) : Option Str :=
  let v := TrimSpace line
  if v = [] ∨ v.head? = some '#' then none else some v

/-! ### Specification side of the tokenizer -/

/-- A token as it is written into a command: between double quotes when it contains a
blank character, as it is otherwise. The predicate tells which characters are blank. -/
def quoteIfBlank (blank : Char → Bool) (t : Str) : Str :=
  if t.any blank then [dquote] ++ t ++ [dquote] else t

/-! ### Double quotes in a rule line -/

/-- The text ends with an equals sign followed by nothing but white space of the
class `\s`: what the decision expression requires before its opening double quote. -/
def endsAssign (x : Str) : Prop :=
  ∃ x' ws, x = x' ++ '=' :: ws ∧ ∀ c ∈ ws, reSpace c = true

/-- No double quote of the part `part` of a line, with the text `left` before the part
and the text `right` after it, can serve as the opening double quote of a match of the
decision expression with a decision other than `d`. -/
def quotesSafe (d left right part : Str) : Prop :=
  ∀ x y, part = x ++ dquote :: y → endsAssign (left ++ x) →
    ∀ w, matchDecisionWord (y ++ right) = some w → w = d

/-! ### Specification side of the write phase -/

/-- The single-file formats: the formats `Run` handles itself, through one path. -/
def singleFile (c : Client) : Bool :=
  decide (toLower c.format = "json-object".toList) ||
  decide (toLower c.format = "json-bool-map".toList) ||
  decide (toLower c.format = "codex-rules".toList)

/-- The paths a client is read from and written to: the primary path for a single-file
format, the allow path and the deny path for a list format. -/
def clientPaths (c : Client) : List Str :=
  if singleFile c then [primaryPath c] else [c.allowPath, c.denyPath]

/-- The step from one file system to another changes no file other than those the
paths name, and leaves what every path names as it is. -/
def onlyWrites (fs fs' : FS) (paths : List Str) : Prop :=
  fs'.ident = fs.ident ∧
  ∀ q, (∀ p ∈ paths, fs.ident q ≠ fs.ident p) → fs'.file q = fs.file q

/-- Two dot-paths of which neither segment sequence is a prefix of the other. -/
def keysUnrelated (k k' : Str) : Prop :=
  ¬ splitOn '.' k <+: splitOn '.' k' ∧ ¬ splitOn '.' k' <+: splitOn '.' k

/-- An entry the line-delimited format can hold: no line feed in it and no `#` at its
start. -/
def lineEntry (e : Str) : Bool :=
  !e.contains '\n' && !hasPrefix e ['#']

/-- The condition under which the adapter of a client gives back, after normalization,
the merged policy it has written: both keys set and unrelated for `json-object`; sorted
lists without a common entry for `json-bool-map`; plain commands whose rule lines are
shorter than the token limit of the scanner for `codex-rules`; an allow path and a deny
path that name two files for a list format and, for the line-delimited one, entries it
can hold. The first argument tells which file a path names. -/
def roundTrips (ident : Str → Str) (sortLists : Bool) (merged : Policy) (c : Client) : Prop :=
  if toLower c.format = "json-object".toList then
    c.allowKey ≠ [] ∧ c.denyKey ≠ [] ∧ keysUnrelated c.allowKey c.denyKey
  else if toLower c.format = "json-bool-map".toList then
    sortLists = true ∧ ∀ e ∈ merged.allow, e ∉ merged.deny
  else if toLower c.format = "codex-rules".toList then
    (∀ cmd ∈ merged.allow, plainCommand cmd = true) ∧
    (∀ cmd ∈ merged.deny, plainCommand cmd = true) ∧
    (∀ cmd ∈ merged.allow, fitsScanner (codexRuleLine cmd "allow".toList)) ∧
    (∀ cmd ∈ merged.deny, fitsScanner (codexRuleLine cmd "forbidden".toList))
  else
    ident c.allowPath ≠ ident c.denyPath ∧
    (ListFormat.new c.format = .ok .newline →
      (∀ e ∈ merged.allow, lineEntry e = true) ∧ (∀ e ∈ merged.deny, lineEntry e = true))

/-! ### Example data -/

/-- The document `{"permissions":{"allow":["A","B"],"deny":["X"]}}` of the tests. -/
def permissionsDoc : Obj :=
  [("permissions".toList, .obj [("allow".toList, .arr [.str "A".toList, .str "B".toList]),
                                ("deny".toList, .arr [.str "X".toList])])]

/-- The document `permissionsDoc` with the allow list replaced by `["C"]`. -/
def permissionsDocSet : Obj :=
  [("permissions".toList, .obj [("allow".toList, .arr [.str "C".toList]),
                                ("deny".toList, .arr [.str "X".toList])])]

/-- A stand-in for `encoding/json` in the concrete scenarios below: in none of them a
file is read in another format than the one it holds, so neither function of the
library is applied. The loops over maps visit the entries in the order of the list. -/
def noJSON : JSONLib := ⟨fun _ => none, fun _ => [], id, fun _ => List.Perm.refl _⟩

/-- A file system with one file, readable and writable, in which every path names a
file of its own. -/
def oneFile (path : Str) (data : FileData) : FS :=
  ⟨id, fun p => if p = path then .present data else .absent, fun _ => true⟩

/-- The document `{"autoApprove":{"mkdir":true,"del":false}}`. -/
def autoApproveDoc : JSON :=
  .obj [("autoApprove".toList, .obj [("mkdir".toList, .bool true), ("del".toList, .bool false)])]

/-- Write a Boolean map at a key of a file and read the key back. -/
def boolMapWriteRead (fs : FS) (path key : Str) (allow deny : List Str) :
    Except Err (List Str × List Str) :=
  match WriteJSONBoolMap noJSON fs path key allow deny with
  | .error e => .error e
  | .ok fs' => ReadJSONBoolMap noJSON fs' path false key

/-- A rule file with a free line and one managed pair whose rule has the decision
`prompt`. -/
def promptRuleFile : FS :=
  oneFile "default.rules".toList
    (.text (linesContent ["# keep me".toList, codexManagedMarker,
      codexRuleLine "foo".toList "prompt".toList]))

/-- The lines of a rule file in which a marker line follows a marker line: two marker
lines, then the rule line that allows `rm`. -/
def twoMarkerLines : List Str :=
  [codexManagedMarker, codexManagedMarker, codexRuleLine "rm".toList "allow".toList]

/-- The rule file with the lines `twoMarkerLines`. -/
def twoMarkerFile : FS :=
  oneFile "default.rules".toList (.text (linesContent twoMarkerLines))

/-- A client of the line-delimited format that tolerates missing files. -/
def lineClient (name allowPath denyPath : Str) : Client :=
  ⟨name, allowPath, denyPath, "newline".toList, [], [], true⟩

/-- Two clients `A` and `B` of the line-delimited format. -/
def clientsAB : List Client :=
  [lineClient "A".toList "a.allow".toList "a.deny".toList,
   lineClient "B".toList "b.allow".toList "b.deny".toList]

/-- The files of the clients `A` and `B`: the allow list `x` for `A`, the allow list
`y`, `x` for `B`, no deny file; every path can be written or none can. -/
def filesAB (canWrite : Bool) : FS :=
  ⟨id, fun p =>
    if p = "a.allow".toList then .present (.text "x\n".toList)
    else if p = "b.allow".toList then .present (.text "y\nx\n".toList)
    else .absent,
   fun _ => canWrite⟩

/-- The configuration: union of `A` and `B`, sorting disabled. -/
def unionAB : Config :=
  ⟨"union".toList, [], some false, clientsAB⟩

/-- A client of the line-delimited format that does not tolerate missing files. -/
def strictClient (name allowPath denyPath : Str) : Client :=
  ⟨name, allowPath, denyPath, "newline".toList, [], [], false⟩

/-- The configuration of the authoritative example: clients `a` and `b`, source `a`. -/
def authoritativeAB : Config :=
  ⟨"authoritative".toList, "a".toList, some true,
   [strictClient "a".toList "a.allow".toList "a.deny".toList,
    strictClient "b".toList "b.allow".toList "b.deny".toList]⟩

/-- The files of the authoritative example: `a` allows `A` and denies `X`; `b` allows
`B` and denies `Y` when its files are there. -/
def filesAuthoritative (withB : Bool) : FS :=
  ⟨id, fun p =>
    if p = "a.allow".toList then .present (.text "A\n".toList)
    else if p = "a.deny".toList then .present (.text "X\n".toList)
    else if p = "b.allow".toList ∧ withB = true then .present (.text "B\n".toList)
    else if p = "b.deny".toList ∧ withB = true then .present (.text "Y\n".toList)
    else .absent,
   fun _ => true⟩

/-- A client of the JSON-array format and a client of the line-delimited format. -/
def commentClients : List Client :=
  [⟨"j".toList, "j.allow".toList, "j.deny".toList, "json".toList, [], [], true⟩,
   lineClient "n".toList "n.allow".toList "n.deny".toList]

/-- The configuration: union of the two clients `commentClients`, sorting enabled. -/
def commentUnion : Config :=
  ⟨"union".toList, [], some true, commentClients⟩

/-- The files: the JSON-array client allows the one entry `#x`; no other file exists. -/
def commentFiles : FS :=
  oneFile "j.allow".toList (.json (.arr [.str "#x".toList]))

/-- The client of the test `TestRunWrites`: format `json-object`, one file, the keys
`permissions.allow` and `permissions.deny`. -/
def settingsClient : Client :=
  ⟨"a".toList, "settings.json".toList, "settings.json".toList, "json-object".toList,
   "permissions.allow".toList, "permissions.deny".toList, false⟩

/-- The configuration of the test `TestRunWrites`. -/
def settingsUnion : Config :=
  ⟨"union".toList, [], some true, [settingsClient]⟩

/-- A file `settings.json` that holds the empty object. -/
def emptySettings : FS :=
  oneFile "settings.json".toList (.json (.obj []))

/-- The files of the authoritative example, none of which can be written. -/
def filesAuthoritativeReadOnly : FS :=
  ⟨id, (filesAuthoritative true).store, fun _ => false⟩

/-- The clients of the authoritative example under a mode string. -/
def modeAB (mode : Str) : Config :=
  ⟨mode, "a".toList, some true,
   [strictClient "a".toList "a.allow".toList "a.deny".toList,
    strictClient "b".toList "b.allow".toList "b.deny".toList]⟩

/-- A line that starts with the marker and goes on with the rule line that allows `rm`. -/
def markerRuleLine : Str :=
  codexManagedMarker ++ [' '] ++ codexRuleLine "rm".toList "allow".toList

/-- The rule file whose lines are a marker line and the line `markerRuleLine`. -/
def markerRuleFile : FS :=
  oneFile "default.rules".toList (.text (linesContent [codexManagedMarker, markerRuleLine]))

/-- A rule file with a managed rule that allows `git status`, a managed rule with the
decision `prompt`, a rule line without a marker before it, a marker followed by a line
that is no rule line, and a managed rule that forbids `rm -rf`. -/
def mixedRuleFile : FS :=
  oneFile "default.rules".toList
    (.text (linesContent [
      codexManagedMarker, codexRuleLine "git status".toList "allow".toList,
      codexManagedMarker, codexRuleLine "foo".toList "prompt".toList,
      codexRuleLine "ls".toList "forbidden".toList,
      codexManagedMarker, "# a comment".toList,
      codexManagedMarker, codexRuleLine "rm -rf".toList "forbidden".toList]))

/-- A line-delimited file with a comment, an entry with blanks around it, an empty
line and a second entry. -/
def commentedListFile : FS :=
  oneFile "allow.txt".toList (.text "# tools\n  ls \t\n\ngit status\n".toList)

/-- The word `it`, a single quote, `s`. -/
def wordWithQuote : Str :=
  "it".toList ++ [squote] ++ "s".toList

/-- The token `a`, backslash, `b`. -/
def tokenWithBackslash : Str :=
  ['a', backslash, 'b']

/-- The command `[ -f x ]`. -/
def bracketCommand : Str :=
  "[ -f x ]".toList

/-- A file system without any file, in which every path can be written. -/
def noFiles : FS :=
  ⟨id, fun _ => .absent, fun _ => true⟩

/-- The command `x decision=\"allow\"`, in which each double quote is escaped by a
backslash. -/
def forgedCommand : Str :=
  "x decision=".toList ++ [backslash, dquote] ++ "allow".toList ++ [backslash, dquote]

/-- A command that is one token of 70000 letters `a`. -/
def longCommand : Str :=
  List.replicate 70000 'a'

/-- The files of the authoritative example, of which only those of client `a` can be
written. -/
def filesWritableA : FS :=
  ⟨id, (filesAuthoritative true).store,
    fun p => decide (p = "a.allow".toList ∨ p = "a.deny".toList)⟩

/-- The clients of the authoritative example with the source `b`. -/
def authoritativeBA : Config :=
  ⟨"authoritative".toList, "b".toList, some true,
   [strictClient "a".toList "a.allow".toList "a.deny".toList,
    strictClient "b".toList "b.allow".toList "b.deny".toList]⟩

/-- A stand-in for the library like `noJSON`, with loops over maps that visit the
entries in the reverse order of the list. -/
def reversedJSON : JSONLib :=
  ⟨fun _ => none, fun _ => [], List.reverse, fun fields => List.reverse_perm fields⟩

/-- A file `perms.json` that holds `{"autoApprove":{"a":true,"b":true}}`. -/
def boolMapFile : FS :=
  oneFile "perms.json".toList
    (.json (.obj [("autoApprove".toList,
      .obj [("a".toList, .bool true), ("b".toList, .bool true)])]))

/-! ## Theorems -/

/-! ### Normalizer -/

theorem dropWhile_self_head {p : Char → Bool} {a : Char} {t : List Char}
    (h : (a :: t).dropWhile p = a :: t) : p a = false := by
  by_contra hp
  simp only [Bool.not_eq_false] at hp
  rw [List.dropWhile_cons, if_pos hp] at h
  have hlen := (List.dropWhile_sublist p (l := t)).length_le
  rw [h] at hlen
  simp at hlen

theorem dropWhile_rdropWhile_fixed (p : Char → Bool) (l : List Char)
    (h : l.dropWhile p = l) : (l.rdropWhile p).dropWhile p = l.rdropWhile p := by
  cases hq : l.rdropWhile p with
  | nil => rfl
  | cons b u =>
    obtain ⟨r, hr⟩ := List.rdropWhile_prefix p l
    rw [hq] at hr
    rw [← hr] at h
    have hb : p b = false := dropWhile_self_head (t := u ++ r) (by simpa using h)
    simp [List.dropWhile_cons, hb]

theorem trimSpace_idem (s : Str) : TrimSpace (TrimSpace s) = TrimSpace s := by
  unfold TrimSpace
  rw [dropWhile_rdropWhile_fixed isSpace _ (List.dropWhile_idempotent isSpace s),
    List.rdropWhile_idempotent]

theorem trimSpace_head_not_space (s : Str) (c : Char)
    (h : (TrimSpace s).head? = some c) : isSpace c = false := by
  have hfix : (TrimSpace s).dropWhile isSpace = TrimSpace s :=
    dropWhile_rdropWhile_fixed isSpace _ (List.dropWhile_idempotent isSpace s)
  cases ht : TrimSpace s with
  | nil => simp [ht] at h
  | cons a t =>
    rw [ht] at h hfix
    simp only [List.head?_cons, Option.some.injEq] at h
    subst h
    exact dropWhile_self_head hfix

theorem trimSpace_last_not_space (s : Str) (c : Char)
    (h : (TrimSpace s).getLast? = some c) : isSpace c = false := by
  have hne : TrimSpace s ≠ [] := by
    intro h0
    simp [h0] at h
  have hlast := List.rdropWhile_last_not isSpace (s.dropWhile isSpace) hne
  rw [List.getLast?_eq_getLast _ hne] at h
  simp only [Option.some.injEq] at h
  have h2 : (List.rdropWhile isSpace (List.dropWhile isSpace s)).getLast hne = c := h
  rw [h2] at hlast
  simpa using hlast

theorem mem_keepFirst (l : List Str) (x : Str) : x ∈ keepFirst l ↔ x ∈ l := by
  induction l with
  | nil => simp [keepFirst]
  | cons a t ih =>
    simp only [keepFirst, List.mem_cons, List.mem_filter, ih, decide_eq_true_eq]
    by_cases hx : x = a <;> simp [hx]

theorem nodup_keepFirst (l : List Str) : (keepFirst l).Nodup := by
  induction l with
  | nil => simp [keepFirst]
  | cons a t ih =>
    simp only [keepFirst, List.nodup_cons, List.mem_filter, decide_eq_true_eq]
    exact ⟨fun h => h.2 rfl, ih.filter _⟩

theorem keepFirst_of_nodup (l : List Str) (h : l.Nodup) : keepFirst l = l := by
  induction l with
  | nil => rfl
  | cons a t ih =>
    rw [List.nodup_cons] at h
    simp only [keepFirst, ih h.2, List.cons.injEq, true_and]
    rw [List.filter_eq_self]
    intro y hy
    simp only [decide_eq_true_eq]
    rintro rfl
    exact h.1 hy

theorem normalizeLoop_eq (xs : List Str) : ∀ seen out : List Str,
    (∀ x, x ∈ seen ↔ x ∈ out) →
    normalizeLoop xs seen out
      = out ++ (keepFirst (trimmedNonEmpty xs)).filter (fun y => decide (y ∉ out)) := by
  induction xs with
  | nil => intro seen out _; simp [normalizeLoop, trimmedNonEmpty, keepFirst]
  | cons v rest ih =>
    intro seen out hso
    have hcons : trimmedNonEmpty (v :: rest)
        = if TrimSpace v = [] then trimmedNonEmpty rest
          else TrimSpace v :: trimmedNonEmpty rest := by
      unfold trimmedNonEmpty
      by_cases h0 : TrimSpace v = [] <;> simp [List.filter_cons, h0]
    rw [hcons]
    unfold normalizeLoop
    simp only []
    by_cases h0 : TrimSpace v = []
    · rw [if_pos h0, if_pos h0]
      exact ih seen out hso
    · rw [if_neg h0, if_neg h0]
      by_cases h1 : TrimSpace v ∈ seen
      · rw [if_pos h1, ih seen out hso]
        have h1o : TrimSpace v ∈ out := (hso _).1 h1
        simp only [keepFirst, List.filter_cons, h1o, not_true_eq_false, decide_False,
          Bool.false_eq_true, if_false, List.filter_filter]
        congr 1
        apply List.filter_congr
        intro y _
        by_cases hy : y ∈ out
        · simp [hy]
        · have : y ≠ TrimSpace v := fun e => hy (e ▸ h1o)
          simp [hy, this]
      · rw [if_neg h1]
        have h1o : TrimSpace v ∉ out := fun h => h1 ((hso _).2 h)
        rw [ih (TrimSpace v :: seen) (out ++ [TrimSpace v])
          (by intro x; simp [hso x, or_comm])]
        simp only [keepFirst, List.filter_cons, h1o, not_false_eq_true, decide_True,
          if_true, List.filter_filter, List.append_assoc, List.singleton_append]
        congr 2
        apply List.filter_congr
        intro y _
        by_cases hy : y ∈ out <;> by_cases hv : y = TrimSpace v <;> simp [hy, hv]

theorem normalize_unsorted (xs : List Str) :
    Normalize xs false = keepFirst (trimmedNonEmpty xs) := by
  unfold Normalize
  simp only [Bool.false_eq_true, if_false]
  rw [normalizeLoop_eq xs [] [] (by simp)]
  simp

theorem normalize_sorted (xs : List Str) :
    Normalize xs true = sortStrings (keepFirst (trimmedNonEmpty xs)) := by
  have h := normalize_unsorted xs
  unfold Normalize at h ⊢
  simp only [Bool.false_eq_true, if_false] at h
  simp only [if_true, h]

/-- The order used by `sortStrings` on a few strings: a proper prefix comes first, and
characters compare by code point (upper case before lower case). -/
theorem sortStrings_example :
    sortStrings ["b".toList, "ab".toList, "a".toList, "Z".toList]
      = ["Z".toList, "a".toList, "ab".toList, "b".toList] ∧
    Normalize [" b ".toList, "a".toList, [], "b".toList, "\t".toList] false
      = ["b".toList, "a".toList] ∧
    Normalize [" b ".toList, "a".toList, [], "b".toList, "\t".toList] true
      = ["a".toList, "b".toList] := by
  decide

theorem mem_trimmedNonEmpty (xs : List Str) (e : Str) :
    e ∈ trimmedNonEmpty xs ↔ e ≠ [] ∧ ∃ v ∈ xs, TrimSpace v = e := by
  unfold trimmedNonEmpty
  simp only [List.mem_filter, List.mem_map, decide_eq_true_eq]
  tauto

theorem trimmedNonEmpty_fixed (l : List Str)
    (h : ∀ e ∈ l, TrimSpace e = e ∧ e ≠ []) : trimmedNonEmpty l = l := by
  unfold trimmedNonEmpty
  have hmap : l.map TrimSpace = l := by
    conv_rhs => rw [← List.map_id l]
    exact List.map_congr_left (fun e he => (h e he).1)
  rw [hmap, List.filter_eq_self]
  intro e he
  simpa using (h e he).2

theorem sortStrings_perm (l : List Str) : (sortStrings l).Perm l :=
  List.perm_insertionSort _ l

theorem sortStrings_sorted (l : List Str) :
    (sortStrings l).Sorted (fun a b => a ≤ b) :=
  List.sorted_insertionSort _ l

theorem mem_normalize (xs : List Str) (s : Bool) (e : Str) :
    e ∈ Normalize xs s ↔ e ≠ [] ∧ ∃ v ∈ xs, TrimSpace v = e := by
  cases s
  · rw [normalize_unsorted, mem_keepFirst, mem_trimmedNonEmpty]
  · rw [normalize_sorted, (sortStrings_perm _).mem_iff, mem_keepFirst, mem_trimmedNonEmpty]

theorem nodup_normalize (xs : List Str) (s : Bool) : (Normalize xs s).Nodup := by
  cases s
  · rw [normalize_unsorted]; exact nodup_keepFirst _
  · rw [normalize_sorted, (sortStrings_perm _).nodup_iff]; exact nodup_keepFirst _

theorem normalize_entry_trimmed (xs : List Str) (s : Bool) (e : Str)
    (he : e ∈ Normalize xs s) : TrimSpace e = e ∧ e ≠ [] := by
  obtain ⟨hne, v, _, hv⟩ := (mem_normalize xs s e).1 he
  exact ⟨by rw [← hv, trimSpace_idem], hne⟩

theorem normalize_normalize (xs : List Str) (s : Bool) :
    Normalize (Normalize xs s) s = Normalize xs s := by
  have hfix : trimmedNonEmpty (Normalize xs s) = Normalize xs s :=
    trimmedNonEmpty_fixed _ (normalize_entry_trimmed xs s)
  have hkeep : keepFirst (Normalize xs s) = Normalize xs s :=
    keepFirst_of_nodup _ (nodup_normalize xs s)
  cases s
  · rw [normalize_unsorted (Normalize xs false), hfix, hkeep]
  · rw [normalize_sorted (Normalize xs true), hfix, hkeep]
    conv_lhs => rw [normalize_sorted xs]
    conv_rhs => rw [normalize_sorted xs]
    exact List.Sorted.insertionSort_eq (sortStrings_sorted _)

/-- C6. `Normalize` is idempotent: normalising an already normalised list, with the
same sort flag, returns it unchanged. -/
theorem normalize_idempotent (xs : List Str) (s : Bool) :
    Normalize (Normalize xs s) s = Normalize xs s :=
  normalize_normalize xs s

/-- C7. For either sort flag the output of `Normalize` has no duplicates, every entry is
non-empty, not made of white space only, starts and ends with a character that is not
white space, and the entries are exactly the non-empty trimmed input entries. -/
theorem normalize_invariant (xs : List Str) (s : Bool) :
    (Normalize xs s).Nodup ∧
    (∀ e ∈ Normalize xs s, e ≠ [] ∧ e.all isSpace = false ∧
      (∀ c, e.head? = some c → isSpace c = false) ∧
      (∀ c, e.getLast? = some c → isSpace c = false)) ∧
    (∀ e, e ∈ Normalize xs s ↔ e ≠ [] ∧ ∃ v ∈ xs, TrimSpace v = e) := by
  refine ⟨nodup_normalize xs s, ?_, mem_normalize xs s⟩
  intro e he
  obtain ⟨htrim, hne⟩ := normalize_entry_trimmed xs s e he
  have hhead : ∀ c, e.head? = some c → isSpace c = false := by
    intro c hc
    rw [← htrim] at hc
    exact trimSpace_head_not_space e c hc
  have hlast : ∀ c, e.getLast? = some c → isSpace c = false := by
    intro c hc
    rw [← htrim] at hc
    exact trimSpace_last_not_space e c hc
  refine ⟨hne, ?_, hhead, hlast⟩
  cases e with
  | nil => exact absurd rfl hne
  | cons a t => simp [List.all_cons, hhead a rfl]

/-- C8. Without sorting, `Normalize` returns the trimmed non-empty entries in input order
with every repetition after the first occurrence removed; with sorting it returns a
rearrangement of that same list in strictly ascending lexicographic order. -/
theorem normalize_order (xs : List Str) :
    Normalize xs false = keepFirst (trimmedNonEmpty xs) ∧
    (Normalize xs true).Perm (keepFirst (trimmedNonEmpty xs)) ∧
    (Normalize xs true).Sorted (fun a b => a < b) := by
  refine ⟨normalize_unsorted xs, ?_, ?_⟩
  · rw [normalize_sorted]; exact sortStrings_perm _
  · have hs : (Normalize xs true).Sorted (fun a b => a ≤ b) := by
      rw [normalize_sorted]; exact sortStrings_sorted _
    exact hs.lt_of_le (nodup_normalize xs true)

/-! ### The dotted-path accessor -/

theorem lookupKey_insertKey_self (k : Str) (v : JSON) (o : Obj) :
    lookupKey k (insertKey k v o) = some v := by
  induction o with
  | nil => simp [insertKey, lookupKey]
  | cons kv rest ih =>
    obtain ⟨k', v'⟩ := kv
    by_cases h : k' = k
    · simp [insertKey, lookupKey, h]
    · simp [insertKey, lookupKey, h, ih]

theorem lookupKey_insertKey_ne (k q : Str) (v : JSON) (o : Obj) (h : q ≠ k) :
    lookupKey q (insertKey k v o) = lookupKey q o := by
  induction o with
  | nil => simp [insertKey, lookupKey, h.symm]
  | cons kv rest ih =>
    obtain ⟨k', v'⟩ := kv
    by_cases hk : k' = k
    · subst hk
      simp [insertKey, lookupKey, h.symm]
    · by_cases hq : k' = q
      · subst hq
        simp [insertKey, lookupKey, h]
      · simp [insertKey, lookupKey, hk, hq, ih]

/-- What `setWalk` does on a path of at least two segments. -/
theorem setWalk_cons_cons (key : Str) (value : JSON) (done : List Str) (p p2 : Str)
    (rest : List Str) (cur : Obj) :
    setWalk key value done (p :: p2 :: rest) cur =
      match lookupKey p cur with
      | none =>
        match setWalk key value (done ++ [p]) (p2 :: rest) [] with
        | .ok child => .ok (insertKey p (.obj child) cur)
        | .error e => .error e
      | some (.obj fields) =>
        match setWalk key value (done ++ [p]) (p2 :: rest) fields with
        | .ok child => .ok (insertKey p (.obj child) cur)
        | .error e => .error e
      | some _ => .error (.pathNotObject key (joinWith ['.'] (done ++ [p]))) := by
  rw [setWalk]
  intro h
  cases h

/-- A successful `setWalk` on at least two segments replaces the first segment by an
object that is the result of walking the rest from the object found there (the empty
object when the segment was absent). -/
theorem setWalk_ok_cons (key : Str) (value : JSON) (done : List Str) (p p2 : Str)
    (rest : List Str) (cur cur' : Obj)
    (h : setWalk key value done (p :: p2 :: rest) cur = .ok cur') :
    ∃ start child, (lookupKey p cur = none ∧ start = [] ∨ lookupKey p cur = some (.obj start)) ∧
      setWalk key value (done ++ [p]) (p2 :: rest) start = .ok child ∧
      cur' = insertKey p (.obj child) cur := by
  rw [setWalk_cons_cons] at h
  cases hl : lookupKey p cur with
  | none =>
    rw [hl] at h
    simp only at h
    cases hc : setWalk key value (done ++ [p]) (p2 :: rest) [] with
    | error e => rw [hc] at h; cases h
    | ok child =>
      rw [hc] at h
      simp only [Except.ok.injEq] at h
      exact ⟨[], child, Or.inl ⟨rfl, rfl⟩, hc, h.symm⟩
  | some v =>
    rw [hl] at h
    cases v with
    | obj fields =>
      simp only at h
      cases hc : setWalk key value (done ++ [p]) (p2 :: rest) fields with
      | error e => rw [hc] at h; cases h
      | ok child =>
        rw [hc] at h
        simp only [Except.ok.injEq] at h
        exact ⟨fields, child, Or.inr rfl, hc, h.symm⟩
    | null => cases h
    | bool b => cases h
    | num x => cases h
    | str s => cases h
    | arr items => cases h

theorem getWalk_obj_cons (key : Str) (done : List Str) (q : Str) (rest : List Str)
    (fields : Obj) :
    getWalk key done (q :: rest) (.obj fields) =
      match lookupKey q fields with
      | none => .ok none
      | some next => getWalk key (done ++ [q]) rest next := by
  rw [getWalk]

/-- Get after set on the segment lists: the value set is found. -/
theorem getWalk_setWalk_same (key key' : Str) (value : JSON) (ps : List Str) :
    ∀ (done done' : List Str) (cur cur' : Obj), ps ≠ [] →
      setWalk key value done ps cur = .ok cur' →
      getWalk key' done' ps (.obj cur') = .ok (some value) := by
  induction ps with
  | nil => intro _ _ _ _ h; exact absurd rfl h
  | cons p prest ih =>
    intro done done' cur cur' _ hset
    cases prest with
    | nil =>
      rw [setWalk] at hset
      simp only [Except.ok.injEq] at hset
      subst hset
      rw [getWalk_obj_cons, lookupKey_insertKey_self]
      simp [getWalk]
    | cons p2 rest =>
      obtain ⟨start, child, _, hchild, hcur⟩ := setWalk_ok_cons key value done p p2 rest cur cur' hset
      subst hcur
      rw [getWalk_obj_cons, lookupKey_insertKey_self]
      exact ih (done ++ [p]) (done' ++ [p]) start child (by simp) hchild

/-- The frame of set on the segment lists: a walk along segments that neither extend
nor are extended by the segments set gives the same result before and after. -/
theorem getWalk_setWalk_frame (key key' : Str) (value : JSON) (ps : List Str) :
    ∀ (qs done done' : List Str) (cur cur' : Obj),
      ¬ ps <+: qs → ¬ qs <+: ps →
      setWalk key value done ps cur = .ok cur' →
      getWalk key' done' qs (.obj cur') = getWalk key' done' qs (.obj cur) := by
  induction ps with
  | nil => intro qs _ _ _ _ h; exact absurd (List.nil_prefix) h
  | cons p prest ih =>
    intro qs done done' cur cur' hpq hqp hset
    cases qs with
    | nil => exact absurd (List.nil_prefix) hqp
    | cons q qrest =>
      by_cases hq : q = p
      · subst hq
        have hpq' : ¬ prest <+: qrest := fun h => hpq ((List.prefix_cons_inj q).2 h)
        have hqp' : ¬ qrest <+: prest := fun h => hqp ((List.prefix_cons_inj q).2 h)
        cases prest with
        | nil => exact absurd (List.nil_prefix) hpq'
        | cons p2 rest =>
          obtain ⟨start, child, hstart, hchild, hcur⟩ :=
            setWalk_ok_cons key value done q p2 rest cur cur' hset
          subst hcur
          rw [getWalk_obj_cons, getWalk_obj_cons, lookupKey_insertKey_self]
          have hframe := ih qrest (done ++ [q]) (done' ++ [q]) start child hpq' hqp' hchild
          simp only
          rw [hframe]
          rcases hstart with ⟨hnone, hs⟩ | hsome
          · rw [hnone, hs]
            cases qrest with
            | nil => exact absurd (List.nil_prefix) hqp'
            | cons q2 qrest2 => simp [getWalk_obj_cons, lookupKey]
          · rw [hsome]
      · have hcur : ∃ w, cur' = insertKey p w cur := by
          cases prest with
          | nil =>
            rw [setWalk] at hset
            simp only [Except.ok.injEq] at hset
            exact ⟨value, hset.symm⟩
          | cons p2 rest =>
            obtain ⟨_, child, _, _, hc⟩ := setWalk_ok_cons key value done p p2 rest cur cur' hset
            exact ⟨_, hc⟩
        obtain ⟨w, hw⟩ := hcur
        subst hw
        rw [getWalk_obj_cons, getWalk_obj_cons, lookupKey_insertKey_ne p q w cur hq]

theorem splitOn_ne_nil (sep : Char) (s : Str) : splitOn sep s ≠ [] := by
  induction s with
  | nil => simp [splitOn]
  | cons c cs ih =>
    unfold splitOn
    by_cases h : c = sep
    · simp [h]
    · simp only [h, if_false]
      cases hs : splitOn sep cs with
      | nil => simp
      | cons a b => simp

/-- Get after set on documents. -/
theorem getJSONPath_setJSONPath_same (root root' : Obj) (k : Str) (value : JSON)
    (h : setJSONPath root k value = .ok root') :
    getJSONPath root' k = .ok (some value) := by
  unfold setJSONPath at h
  unfold getJSONPath
  by_cases hk : k = []
  · simp [hk] at h
  · rw [if_neg hk] at h ⊢
    exact getWalk_setWalk_same k k value _ [] [] root root' (splitOn_ne_nil _ _) h

/-- The frame of set on documents. -/
theorem getJSONPath_setJSONPath_frame (root root' : Obj) (k k' : Str) (value : JSON)
    (hk : ¬ splitOn '.' k <+: splitOn '.' k') (hk' : ¬ splitOn '.' k' <+: splitOn '.' k)
    (h : setJSONPath root k value = .ok root') :
    getJSONPath root' k' = getJSONPath root k' := by
  unfold setJSONPath at h
  unfold getJSONPath
  by_cases hk0 : k = []
  · simp [hk0] at h
  · rw [if_neg hk0] at h
    by_cases hk1 : k' = []
    · simp [hk1]
    · rw [if_neg hk1, if_neg hk1]
      exact getWalk_setWalk_frame k k' value _ _ [] [] root root' hk hk' h

/-! ### Files -/

theorem writeFile_ok (fs fs' : FS) (path : Str) (data : FileData)
    (h : writeFile fs path data = .ok fs') :
    fs'.file path = .present data ∧
      (∀ q, fs.ident q ≠ fs.ident path → fs'.file q = fs.file q) ∧
      fs'.writable = fs.writable := by
  unfold writeFile at h
  by_cases hw : fs.writable path = true
  · rw [if_pos hw] at h
    simp only [Except.ok.injEq] at h
    subst h
    refine ⟨by simp [FS.file], ?_, rfl⟩
    intro q hq
    simp [FS.file, hq]
  · rw [if_neg hw] at h
    cases h

/-- A write does not change which file a path names. -/
theorem writeFile_ident (fs fs' : FS) (path : Str) (data : FileData)
    (h : writeFile fs path data = .ok fs') : fs'.ident = fs.ident := by
  unfold writeFile at h
  by_cases hw : fs.writable path = true
  · rw [if_pos hw] at h
    simp only [Except.ok.injEq] at h
    subst h
    rfl
  · rw [if_neg hw] at h
    cases h

/-- A write at a path is seen at every path that names the same file. -/
theorem writeFile_alias (fs fs' : FS) (path : Str) (data : FileData)
    (h : writeFile fs path data = .ok fs') :
    ∀ q, fs.ident q = fs.ident path → fs'.file q = .present data := by
  unfold writeFile at h
  by_cases hw : fs.writable path = true
  · rw [if_pos hw] at h
    simp only [Except.ok.injEq] at h
    subst h
    intro q hq
    simp [FS.file, hq]
  · rw [if_neg hw] at h
    cases h

theorem readJSONObject_present_obj (J : JSONLib) (fs : FS) (path : Str) (missingOK : Bool)
    (root : Obj) (h : fs.file path = .present (.json (.obj root))) :
    readJSONObject J fs path missingOK = .ok (some root) := by
  simp [readJSONObject, readFile, h, fileJSON]

theorem writeJSONValue_ok (J : JSONLib) (fs fs' : FS) (path key : Str) (value : JSON)
    (h : writeJSONValue J fs path key value = .ok fs') :
    ∃ start root, readJSONObject J fs path true = .ok start ∧
      setJSONPath (start.getD []) key value = .ok root ∧
      writeFile fs path (.json (.obj root)) = .ok fs' := by
  unfold writeJSONValue at h
  cases hr : readJSONObject J fs path true with
  | error e => rw [hr] at h; cases h
  | ok start =>
    rw [hr] at h
    simp only at h
    cases hs : setJSONPath (start.getD []) key value with
    | error e => rw [hs] at h; cases h
    | ok root =>
      rw [hs] at h
      exact ⟨start, root, rfl, hs, h⟩

/-- After a successful write of a value at a key, the file holds a document in which
the key has that value and every unrelated key reads as in the document the write
started from. -/
theorem writeJSONValue_result (J : JSONLib) (fs fs' : FS) (path key : Str) (value : JSON)
    (h : writeJSONValue J fs path key value = .ok fs') :
    ∃ start root, readJSONObject J fs path true = .ok start ∧
      fs'.file path = .present (.json (.obj root)) ∧
      getJSONPath root key = .ok (some value) ∧
      (∀ k', ¬ splitOn '.' key <+: splitOn '.' k' → ¬ splitOn '.' k' <+: splitOn '.' key →
        getJSONPath root k' = getJSONPath (start.getD []) k') ∧
      (∀ q, fs.ident q ≠ fs.ident path → fs'.file q = fs.file q) ∧ fs'.writable = fs.writable := by
  obtain ⟨start, root, hread, hset, hwrite⟩ := writeJSONValue_ok J fs fs' path key value h
  obtain ⟨hfile, hother, hw⟩ := writeFile_ok fs fs' path _ hwrite
  exact ⟨start, root, hread, hfile, getJSONPath_setJSONPath_same _ _ _ _ hset,
    fun k' h1 h2 => getJSONPath_setJSONPath_frame _ _ _ k' _ h1 h2 hset, hother, hw⟩

theorem toStringSlice_sliceJSON (values : List Str) :
    toStringSlice (sliceJSON (some values)) = some values := by
  unfold sliceJSON toStringSlice
  simp only
  induction values with
  | nil => rfl
  | cons v rest ih => simp only [List.map_cons, stringItems, ih]

theorem readJSONKey_of_value (J : JSONLib) (fs : FS) (path key : Str) (missingOK : Bool)
    (root : Obj) (values : List Str)
    (hfile : fs.file path = .present (.json (.obj root)))
    (hget : getJSONPath root key = .ok (some (sliceJSON (some values)))) :
    ReadJSONKey J fs path missingOK key = .ok values := by
  unfold ReadJSONKey
  rw [readJSONObject_present_obj J fs path missingOK root hfile]
  simp only [hget, toStringSlice_sliceJSON]

/-- Writing two unrelated keys of one file, one after the other, and reading both. -/
theorem readJSONKey_after_two_writes (J : JSONLib) (fs fs1 fs2 : FS) (path k k' : Str)
    (first second : List Str) (missingOK : Bool)
    (hk : ¬ splitOn '.' k <+: splitOn '.' k') (hk' : ¬ splitOn '.' k' <+: splitOn '.' k)
    (h1 : WriteJSONKey J fs path k (some first) = .ok fs1)
    (h2 : WriteJSONKey J fs1 path k' (some second) = .ok fs2) :
    ReadJSONKey J fs2 path missingOK k = .ok first ∧
      ReadJSONKey J fs2 path missingOK k' = .ok second := by
  obtain ⟨_, r1, _, hfile1, hget1, _, _, _⟩ := writeJSONValue_result J fs fs1 path k _ h1
  obtain ⟨start2, r2, hread2, hfile2, hget2, hframe2, _, _⟩ :=
    writeJSONValue_result J fs1 fs2 path k' _ h2
  rw [readJSONObject_present_obj J fs1 path true r1 hfile1] at hread2
  simp only [Except.ok.injEq] at hread2
  subst hread2
  refine ⟨readJSONKey_of_value J fs2 path k missingOK r2 first hfile2 ?_,
    readJSONKey_of_value J fs2 path k' missingOK r2 second hfile2 hget2⟩
  rw [hframe2 k hk' hk]
  exact hget1

/-- Two unrelated keys of one file written by one call and read by another. -/
theorem readJSONKey_after_two_writes_any (J J' : JSONLib) (fs fs1 fs2 : FS) (path k k' : Str)
    (first second : List Str) (missingOK : Bool)
    (hk : ¬ splitOn '.' k <+: splitOn '.' k') (hk' : ¬ splitOn '.' k' <+: splitOn '.' k)
    (h1 : WriteJSONKey J fs path k (some first) = .ok fs1)
    (h2 : WriteJSONKey J fs1 path k' (some second) = .ok fs2) :
    ReadJSONKey J' fs2 path missingOK k = .ok first ∧
      ReadJSONKey J' fs2 path missingOK k' = .ok second := by
  obtain ⟨_, r1, _, hfile1, hget1, _, _, _⟩ := writeJSONValue_result J fs fs1 path k _ h1
  obtain ⟨start2, r2, hread2, hfile2, hget2, hframe2, _, _⟩ :=
    writeJSONValue_result J fs1 fs2 path k' _ h2
  rw [readJSONObject_present_obj J fs1 path true r1 hfile1] at hread2
  simp only [Except.ok.injEq] at hread2
  subst hread2
  refine ⟨readJSONKey_of_value J' fs2 path k missingOK r2 first hfile2 ?_,
    readJSONKey_of_value J' fs2 path k' missingOK r2 second hfile2 hget2⟩
  rw [hframe2 k hk' hk]
  exact hget1

/-- C10. Setting a value at a dot-path leaves every unrelated path untouched: when
neither segment sequence is a prefix of the other and the set succeeds, get at the other
path gives the same result (value, not found or error) on the new document as on the
old one; in particular, writing a list at one key of a file and then a list at an
unrelated key of the same file, both lists are read back. -/
theorem setJSONPath_frame (root root' : Obj) (k k' : Str) (value : JSON)
    (hk : ¬ splitOn '.' k <+: splitOn '.' k') (hk' : ¬ splitOn '.' k' <+: splitOn '.' k)
    (hset : setJSONPath root k value = .ok root') :
    getJSONPath root' k' = getJSONPath root k' ∧
    ∀ (J : JSONLib) (fs fs1 fs2 : FS) (path : Str) (allow deny : List Str) (missingOK : Bool),
      WriteJSONKey J fs path k (some allow) = .ok fs1 →
      WriteJSONKey J fs1 path k' (some deny) = .ok fs2 →
      ReadJSONKey J fs2 path missingOK k = .ok allow ∧
        ReadJSONKey J fs2 path missingOK k' = .ok deny :=
  ⟨getJSONPath_setJSONPath_frame root root' k k' value hk hk' hset,
    fun J fs fs1 fs2 path allow deny missingOK h1 h2 =>
      readJSONKey_after_two_writes J fs fs1 fs2 path k k' allow deny missingOK hk hk' h1 h2⟩

theorem setJSONPath_frame_witness :
    (¬ splitOn '.' "permissions.allow".toList <+: splitOn '.' "permissions.deny".toList) ∧
    (¬ splitOn '.' "permissions.deny".toList <+: splitOn '.' "permissions.allow".toList) ∧
    setJSONPath permissionsDoc "permissions.allow".toList (.arr [.str "C".toList])
      = .ok permissionsDocSet ∧
    getJSONPath permissionsDocSet "permissions.deny".toList
      = getJSONPath permissionsDoc "permissions.deny".toList ∧
    getJSONPath permissionsDoc "permissions.deny".toList
      = .ok (some (.arr [.str "X".toList])) :=
  ⟨by decide, by decide, by rfl,
    (setJSONPath_frame permissionsDoc permissionsDocSet "permissions.allow".toList
      "permissions.deny".toList (.arr [.str "C".toList]) (by decide) (by decide) (by rfl)).1,
    by rfl⟩

/-! ### The Boolean-map adapter -/

theorem lookupKey_foldl_insert (b : JSON) (e : Str) (l : List Str) :
    ∀ o : Obj, lookupKey e (l.foldl (fun out v => insertKey v b out) o)
      = if e ∈ l then some b else lookupKey e o := by
  induction l with
  | nil => intro o; simp
  | cons v rest ih =>
    intro o
    rw [List.foldl_cons, ih]
    by_cases hr : e ∈ rest
    · simp [hr]
    · by_cases hv : e = v
      · subst hv
        simp [hr, lookupKey_insertKey_self]
      · simp [hr, hv, lookupKey_insertKey_ne v e b o hv]

theorem lookupKey_boolMapOf (allow deny : List Str) (e : Str) :
    lookupKey e (boolMapOf allow deny)
      = if e ∈ deny then some (.bool false)
        else if e ∈ allow then some (.bool true) else none := by
  unfold boolMapOf
  rw [lookupKey_foldl_insert, lookupKey_foldl_insert]
  simp [lookupKey]

theorem keys_insertKey (k : Str) (v : JSON) (o : Obj) :
    (insertKey k v o).map Prod.fst
      = if k ∈ o.map Prod.fst then o.map Prod.fst else o.map Prod.fst ++ [k] := by
  induction o with
  | nil => simp [insertKey]
  | cons kv rest ih =>
    obtain ⟨k', v'⟩ := kv
    by_cases h : k' = k
    · simp [insertKey, h]
    · have h' : ¬ k = k' := fun e => h e.symm
      simp only [insertKey, h, if_false, List.map_cons, ih, List.mem_cons, h', false_or]
      by_cases hm : k ∈ rest.map Prod.fst
      · simp [hm]
      · simp [hm]

theorem nodupKeys_insertKey (k : Str) (v : JSON) (o : Obj)
    (h : (o.map Prod.fst).Nodup) : ((insertKey k v o).map Prod.fst).Nodup := by
  rw [keys_insertKey]
  by_cases hm : k ∈ o.map Prod.fst
  · rw [if_pos hm]; exact h
  · rw [if_neg hm]
    exact List.Nodup.append h (List.nodup_singleton k)
      (by
        intro x hx hx'
        simp only [List.mem_singleton] at hx'
        subst hx'
        exact hm hx)

theorem nodupKeys_foldl_insert (b : JSON) (l : List Str) :
    ∀ o : Obj, (o.map Prod.fst).Nodup →
      ((l.foldl (fun out v => insertKey v b out) o).map Prod.fst).Nodup := by
  induction l with
  | nil => intro o h; exact h
  | cons v rest ih =>
    intro o h
    exact ih _ (nodupKeys_insertKey v b o h)

theorem nodupKeys_boolMapOf (allow deny : List Str) :
    ((boolMapOf allow deny).map Prod.fst).Nodup :=
  nodupKeys_foldl_insert _ deny _ (nodupKeys_foldl_insert _ allow [] List.nodup_nil)

theorem lookupKey_some_mem_keys (e : Str) (v : JSON) (o : Obj)
    (h : lookupKey e o = some v) : e ∈ o.map Prod.fst := by
  induction o with
  | nil => simp [lookupKey] at h
  | cons kv rest ih =>
    obtain ⟨k', v'⟩ := kv
    by_cases hk : k' = e
    · simp [hk]
    · simp only [lookupKey, hk, if_false] at h
      simp [ih h]

theorem mem_splitBoolMap (o : Obj) (h : (o.map Prod.fst).Nodup) (e : Str) :
    (e ∈ (splitBoolMap o).1 ↔ lookupKey e o = some (.bool true)) ∧
    (e ∈ (splitBoolMap o).2 ↔ lookupKey e o = some (.bool false)) := by
  induction o with
  | nil => simp [splitBoolMap, lookupKey]
  | cons kv rest ih =>
    obtain ⟨k, v⟩ := kv
    simp only [List.map_cons, List.nodup_cons] at h
    obtain ⟨ih1, ih2⟩ := ih h.2
    have hnot : ∀ w, lookupKey k rest ≠ some w :=
      fun w hw => h.1 (lookupKey_some_mem_keys k w rest hw)
    by_cases hk : k = e
    · subst hk
      have h1 : k ∉ (splitBoolMap rest).1 := fun hm => hnot _ (ih1.1 hm)
      have h2 : k ∉ (splitBoolMap rest).2 := fun hm => hnot _ (ih2.1 hm)
      cases v with
      | bool b => cases b <;> simp [splitBoolMap, lookupKey, h1, h2]
      | null => simp [splitBoolMap, lookupKey, h1, h2]
      | num x => simp [splitBoolMap, lookupKey, h1, h2]
      | str x => simp [splitBoolMap, lookupKey, h1, h2]
      | arr x => simp [splitBoolMap, lookupKey, h1, h2]
      | obj x => simp [splitBoolMap, lookupKey, h1, h2]
    · have hk' : ¬ e = k := fun x => hk x.symm
      cases v with
      | bool b => cases b <;> simp [splitBoolMap, lookupKey, hk, hk', ih1, ih2]
      | null => simp [splitBoolMap, lookupKey, hk, ih1, ih2]
      | num x => simp [splitBoolMap, lookupKey, hk, ih1, ih2]
      | str x => simp [splitBoolMap, lookupKey, hk, ih1, ih2]
      | arr x => simp [splitBoolMap, lookupKey, hk, ih1, ih2]
      | obj x => simp [splitBoolMap, lookupKey, hk, ih1, ih2]

theorem splitBoolMap_sublist (o : Obj) :
    (splitBoolMap o).1.Sublist (o.map Prod.fst) ∧ (splitBoolMap o).2.Sublist (o.map Prod.fst) := by
  induction o with
  | nil => simp [splitBoolMap]
  | cons kv rest ih =>
    obtain ⟨k, v⟩ := kv
    obtain ⟨ih1, ih2⟩ := ih
    cases v with
    | bool b =>
      cases b
      · exact ⟨by simpa [splitBoolMap] using ih1.cons k, by simpa [splitBoolMap] using ih2.cons₂ k⟩
      · exact ⟨by simpa [splitBoolMap] using ih1.cons₂ k, by simpa [splitBoolMap] using ih2.cons k⟩
    | null => exact ⟨by simpa [splitBoolMap] using ih1.cons k, by simpa [splitBoolMap] using ih2.cons k⟩
    | num x => exact ⟨by simpa [splitBoolMap] using ih1.cons k, by simpa [splitBoolMap] using ih2.cons k⟩
    | str x => exact ⟨by simpa [splitBoolMap] using ih1.cons k, by simpa [splitBoolMap] using ih2.cons k⟩
    | arr x => exact ⟨by simpa [splitBoolMap] using ih1.cons k, by simpa [splitBoolMap] using ih2.cons k⟩
    | obj x => exact ⟨by simpa [splitBoolMap] using ih1.cons k, by simpa [splitBoolMap] using ih2.cons k⟩

theorem lookupKey_eq_some_iff (o : Obj) (h : (o.map Prod.fst).Nodup) (e : Str) (v : JSON) :
    lookupKey e o = some v ↔ (e, v) ∈ o := by
  induction o with
  | nil => simp [lookupKey]
  | cons kv rest ih =>
    obtain ⟨k, w⟩ := kv
    simp only [List.map_cons, List.nodup_cons] at h
    by_cases hk : k = e
    · subst hk
      simp only [lookupKey, if_true, Option.some.injEq, List.mem_cons, Prod.mk.injEq, true_and]
      constructor
      · intro hw; exact Or.inl hw.symm
      · rintro (hw | hm)
        · exact hw.symm
        · exact absurd (List.mem_map.2 ⟨(k, v), hm, rfl⟩) h.1
    · have hk' : ¬ e = k := fun x => hk x.symm
      simp only [lookupKey, hk, if_false, ih h.2, List.mem_cons, Prod.mk.injEq, hk', false_and,
        false_or]

/-- The value under a key does not depend on the order of the entries of a map. -/
theorem lookupKey_perm (o o' : Obj) (h : (o.map Prod.fst).Nodup) (hp : o'.Perm o) (e : Str) :
    lookupKey e o' = lookupKey e o := by
  have h' : (o'.map Prod.fst).Nodup := (hp.map Prod.fst).nodup_iff.2 h
  cases hl : lookupKey e o with
  | none =>
    cases hl' : lookupKey e o' with
    | none => rfl
    | some v =>
      have := (lookupKey_eq_some_iff o h e v).2 (hp.mem_iff.1 ((lookupKey_eq_some_iff o' h' e v).1 hl'))
      rw [hl] at this
      cases this
  | some v =>
    exact (lookupKey_eq_some_iff o' h' e v).2 (hp.mem_iff.2 ((lookupKey_eq_some_iff o h e v).1 hl))

/-- What `ReadJSONBoolMap` returns, in whatever order its loop walks the map, after a
successful `WriteJSONBoolMap` at the same key: as deny the deny entries written, as
allow the allow entries written that are not deny entries, each entry once. -/
theorem readJSONBoolMap_after_write_any (J J' : JSONLib) (fs fs' : FS) (path key : Str)
    (allow deny : List Str) (missingOK : Bool)
    (h : WriteJSONBoolMap J fs path key allow deny = .ok fs') :
    ∃ ra rd, ReadJSONBoolMap J' fs' path missingOK key = .ok (ra, rd) ∧
      (∀ e, e ∈ ra ↔ e ∈ allow ∧ e ∉ deny) ∧ (∀ e, e ∈ rd ↔ e ∈ deny) ∧
      ra.Nodup ∧ rd.Nodup := by
  obtain ⟨_, root, _, hfile, hget, _, _, _⟩ := writeJSONValue_result J fs fs' path key _ h
  have hperm := J'.rangeOrder_perm (boolMapOf allow deny)
  have hkeys0 := nodupKeys_boolMapOf allow deny
  have hkeys : ((J'.rangeOrder (boolMapOf allow deny)).map Prod.fst).Nodup :=
    (hperm.map Prod.fst).nodup_iff.2 hkeys0
  obtain ⟨hs1, hs2⟩ := splitBoolMap_sublist (J'.rangeOrder (boolMapOf allow deny))
  refine ⟨(splitBoolMap (J'.rangeOrder (boolMapOf allow deny))).1,
    (splitBoolMap (J'.rangeOrder (boolMapOf allow deny))).2,
    ?_, ?_, ?_, hkeys.sublist hs1, hkeys.sublist hs2⟩
  · unfold ReadJSONBoolMap
    rw [readJSONObject_present_obj J' fs' path missingOK root hfile]
    simp only [hget]
  · intro e
    rw [(mem_splitBoolMap _ hkeys e).1, lookupKey_perm _ _ hkeys0 hperm, lookupKey_boolMapOf]
    by_cases hd : e ∈ deny <;> by_cases ha : e ∈ allow <;> simp [hd, ha]
  · intro e
    rw [(mem_splitBoolMap _ hkeys e).2, lookupKey_perm _ _ hkeys0 hperm, lookupKey_boolMapOf]
    by_cases hd : e ∈ deny <;> by_cases ha : e ∈ allow <;> simp [hd, ha]

theorem readJSONBoolMap_after_write (J : JSONLib) (fs fs' : FS) (path key : Str)
    (allow deny : List Str) (missingOK : Bool)
    (h : WriteJSONBoolMap J fs path key allow deny = .ok fs') :
    ∃ ra rd, ReadJSONBoolMap J fs' path missingOK key = .ok (ra, rd) ∧
      (∀ e, e ∈ ra ↔ e ∈ allow ∧ e ∉ deny) ∧ (∀ e, e ∈ rd ↔ e ∈ deny) ∧
      ra.Nodup ∧ rd.Nodup :=
  readJSONBoolMap_after_write_any J J fs fs' path key allow deny missingOK h

/-- C5 (as stated, refuted). Writing the entry `rm` both as allowed and as denied at
the key `autoApprove` and reading the key back returns no allow entry at all: the
allow list read is not the allow list written. -/
theorem boolMap_write_allow_lost :
    boolMapWriteRead (oneFile "settings.json".toList (.json autoApproveDoc))
      "settings.json".toList "autoApprove".toList ["rm".toList] ["rm".toList]
      = .ok ([], ["rm".toList]) := by
  rfl

/-- C5 (amended). A Boolean-map write replaces the whole map under the key: whatever
the document held before, after a successful `WriteJSONBoolMap` the read at the same key
succeeds and returns as deny exactly the deny entries written and as allow exactly the
allow entries written that are not among the deny entries (as sets); so when the two
lists have no common entry both lists are read back, and nothing stored under the key
before is returned unless it is in the new lists. -/
theorem writeJSONBoolMap_full_replacement (J : JSONLib) (fs fs' : FS) (path key : Str)
    (allow deny : List Str) (missingOK : Bool)
    (h : WriteJSONBoolMap J fs path key allow deny = .ok fs') :
    ∃ ra rd, ReadJSONBoolMap J fs' path missingOK key = .ok (ra, rd) ∧
      (∀ e, e ∈ rd ↔ e ∈ deny) ∧ (∀ e, e ∈ ra ↔ e ∈ allow ∧ e ∉ deny) ∧
      ((∀ e ∈ allow, e ∉ deny) → ∀ e, e ∈ ra ↔ e ∈ allow) := by
  obtain ⟨ra, rd, hread, hallow, hdeny, _, _⟩ :=
    readJSONBoolMap_after_write J fs fs' path key allow deny missingOK h
  refine ⟨ra, rd, hread, hdeny, hallow, ?_⟩
  intro hdisj e
  rw [hallow]
  exact ⟨fun x => x.1, fun x => ⟨x, hdisj e x⟩⟩

theorem writeJSONBoolMap_full_replacement_witness :
    ∃ fs', WriteJSONBoolMap noJSON (oneFile "settings.json".toList (.json autoApproveDoc))
        "settings.json".toList "autoApprove".toList ["git status".toList] ["rm".toList]
        = .ok fs' ∧
      ∃ ra rd, ReadJSONBoolMap noJSON fs' "settings.json".toList false "autoApprove".toList
          = .ok (ra, rd) ∧
        (∀ e, e ∈ rd ↔ e ∈ ["rm".toList]) ∧
        (∀ e, e ∈ ra ↔ e ∈ ["git status".toList] ∧ e ∉ ["rm".toList]) ∧
        ((∀ e ∈ ["git status".toList], e ∉ ["rm".toList]) →
          ∀ e, e ∈ ra ↔ e ∈ ["git status".toList]) :=
  ⟨_, rfl, writeJSONBoolMap_full_replacement noJSON
    (oneFile "settings.json".toList (.json autoApproveDoc)) _ "settings.json".toList
    "autoApprove".toList ["git status".toList] ["rm".toList] false rfl⟩

/-! ### Lines and joins -/

theorem splitOn_of_not_mem (sep : Char) (x : Str) (h : sep ∉ x) : splitOn sep x = [x] := by
  induction x with
  | nil => rfl
  | cons c cs ih =>
    simp only [List.mem_cons, not_or] at h
    have hc : ¬ c = sep := fun e => h.1 e.symm
    simp [splitOn, hc, ih h.2]

theorem splitOn_append_sep (sep : Char) (x rest : Str) (h : sep ∉ x) :
    splitOn sep (x ++ sep :: rest) = x :: splitOn sep rest := by
  induction x with
  | nil => simp [splitOn]
  | cons c cs ih =>
    simp only [List.mem_cons, not_or] at h
    have hc : ¬ c = sep := fun e => h.1 e.symm
    simp [splitOn, hc, ih h.2]

theorem splitOn_joinWith (sep : Char) (parts : List Str) (hne : parts ≠ [])
    (h : ∀ x ∈ parts, sep ∉ x) : splitOn sep (joinWith [sep] parts) = parts := by
  induction parts with
  | nil => exact absurd rfl hne
  | cons x rest ih =>
    cases rest with
    | nil => simpa [joinWith] using splitOn_of_not_mem sep x (h x (by simp))
    | cons y rest2 =>
      have hx : sep ∉ x := h x (by simp)
      have hrest := ih (by simp) (fun z hz => h z (List.mem_cons_of_mem _ hz))
      simp only [joinWith, List.append_assoc, List.singleton_append]
      rw [splitOn_append_sep sep x _ hx, hrest]

theorem joinWith_splitOn (sep : Char) (s : Str) : joinWith [sep] (splitOn sep s) = s := by
  induction s with
  | nil => rfl
  | cons c cs ih =>
    unfold splitOn
    by_cases h : c = sep
    · simp only [h, if_true]
      cases hs : splitOn sep cs with
      | nil => exact absurd hs (splitOn_ne_nil sep cs)
      | cons a b =>
        rw [hs] at ih
        simp [joinWith, ih]
    · simp only [h, if_false]
      cases hs : splitOn sep cs with
      | nil => exact absurd hs (splitOn_ne_nil sep cs)
      | cons a b =>
        rw [hs] at ih
        cases b with
        | nil => simpa [joinWith] using ih
        | cons b1 b2 =>
          simp only [joinWith, List.append_assoc, List.cons_append] at ih ⊢
          rw [ih]

theorem not_mem_of_mem_splitOn (sep : Char) (s : Str) :
    ∀ x ∈ splitOn sep s, sep ∉ x := by
  induction s with
  | nil => simp [splitOn]
  | cons c cs ih =>
    unfold splitOn
    by_cases h : c = sep
    · simp only [h, if_true, List.mem_cons]
      rintro x (rfl | hx)
      · simp
      · exact ih x hx
    · simp only [h, if_false]
      cases hs : splitOn sep cs with
      | nil => exact absurd hs (splitOn_ne_nil sep cs)
      | cons a b =>
        rw [hs] at ih
        simp only [List.mem_cons]
        rintro x (rfl | hx)
        · have ha := ih a (by simp)
          simp only [List.mem_cons, not_or]
          exact ⟨fun e => h e.symm, ha⟩
        · exact ih x (List.mem_cons_of_mem _ hx)

theorem joinWith_append_empty (sep : Str) (parts : List Str) (hne : parts ≠ []) :
    joinWith sep (parts ++ [[]]) = joinWith sep parts ++ sep := by
  induction parts with
  | nil => exact absurd rfl hne
  | cons x rest ih =>
    cases rest with
    | nil => simp [joinWith]
    | cons y rest2 =>
      have hrest := ih (by simp)
      have hstep : joinWith sep ((x :: y :: rest2) ++ [[]])
          = x ++ sep ++ joinWith sep ((y :: rest2) ++ [[]]) := rfl
      rw [hstep, hrest]
      simp [joinWith]

theorem joinWith_eq_nil (sep : Str) (hsep : sep ≠ []) (parts : List Str)
    (h : joinWith sep parts = []) : parts = [] ∨ parts = [[]] := by
  cases parts with
  | nil => exact Or.inl rfl
  | cons x rest =>
    cases rest with
    | nil => simp only [joinWith] at h; subst h; exact Or.inr rfl
    | cons y rest2 =>
      simp only [joinWith, List.append_eq_nil] at h
      exact absurd h.1.2 hsep

/-- The lines a scanner reads from the content written for a list of lines without
line feeds: the same lines, each without one trailing carriage return (and no line at
all when the content is empty). -/
theorem scanLines_linesContent (lines : List Str) (h : ∀ x ∈ lines, '\n' ∉ x) :
    scanLines (linesContent lines)
      = if joinWith ['\n'] lines = [] then [] else lines.map dropCR := by
  unfold linesContent scanLines
  by_cases hj : joinWith ['\n'] lines = []
  · simp [hj, splitOn]
  · simp only [hj, if_false]
    have hne : lines ≠ [] := by
      rintro rfl
      exact hj rfl
    have hsplit : splitOn '\n' (joinWith ['\n'] lines ++ ['\n']) = lines ++ [[]] := by
      rw [← joinWith_append_empty ['\n'] lines hne]
      apply splitOn_joinWith '\n' (lines ++ [[]]) (by simp)
      intro x hx
      rcases List.mem_append.1 hx with hx | hx
      · exact h x hx
      · simp only [List.mem_singleton] at hx
        subst hx
        simp
    rw [hsplit]
    simp

/-! ### Plain tokens through the rule-line writer and parser -/

theorem reSpace_isSpace (c : Char) (h : reSpace c = true) : isSpace c = true := by
  unfold reSpace at h
  simp only [Bool.or_eq_true, decide_eq_true_eq] at h
  rcases h with (((h | h) | h) | h) | h
  · subst h; decide
  · subst h; decide
  · unfold isSpace; simp [h]
  · subst h; decide
  · subst h; decide

theorem plainChar_spec (c : Char) (h : plainChar c = true) :
    isSpace c = false ∧ reSpace c = false ∧ c ≠ dquote ∧ c ≠ squote ∧ c ≠ backslash ∧
      c ≠ ']' ∧ c ≠ ' ' ∧ c ≠ '\t' ∧ c ≠ '\n' := by
  unfold plainChar at h
  simp only [Bool.and_eq_true, Bool.not_eq_true', bne_iff_ne, ne_eq] at h
  obtain ⟨⟨⟨⟨h1, h2⟩, h3⟩, h4⟩, h5⟩ := h
  have hre : reSpace c = false := by
    by_contra hc
    simp only [Bool.not_eq_false] at hc
    rw [reSpace_isSpace c hc] at h1
    cases h1
  refine ⟨h1, hre, h2, h3, h4, h5, ?_, ?_, ?_⟩
  · rintro rfl; revert h1; decide
  · rintro rfl; revert h1; decide
  · rintro rfl; revert h1; decide

theorem plainToken_spec (t : Str) (h : plainToken t = true) :
    t ≠ [] ∧ ∀ c ∈ t, plainChar c = true := by
  unfold plainToken at h
  simp only [Bool.and_eq_true, decide_eq_true_eq, List.all_eq_true] at h
  exact h

theorem split_fold_plain (t : Str) (h : ∀ c ∈ t, plainChar c = true) :
    ∀ (out : List Str) (sb : Str),
      t.foldl SplitState.step ⟨out, sb, false, false⟩ = ⟨out, sb ++ t, false, false⟩ := by
  induction t with
  | nil => intro out sb; simp
  | cons c cs ih =>
    intro out sb
    obtain ⟨_, _, h1, h2, h3, _, h4, h5, h6⟩ := plainChar_spec c (h c (by simp))
    have hstep : SplitState.step ⟨out, sb, false, false⟩ c = ⟨out, sb ++ [c], false, false⟩ := by
      simp [SplitState.step, h1, h2, h3, h4, h5, h6]
    rw [List.foldl_cons, hstep, ih (fun d hd => h d (List.mem_cons_of_mem _ hd))]
    simp

theorem split_fold_tokens (toks : List Str) (hne : toks ≠ [])
    (h : ∀ t ∈ toks, plainToken t = true) :
    ∀ out : List Str,
      (((joinWith [' '] toks).foldl SplitState.step ⟨out, [], false, false⟩).flush).out
        = out ++ toks := by
  induction toks with
  | nil => exact absurd rfl hne
  | cons t rest ih =>
    intro out
    obtain ⟨htne, htc⟩ := plainToken_spec t (h t (by simp))
    cases rest with
    | nil =>
      simp only [joinWith]
      rw [split_fold_plain t htc]
      simp [SplitState.flush, htne]
    | cons t2 rest2 =>
      simp only [joinWith, List.foldl_append, List.foldl_cons, List.foldl_nil]
      rw [split_fold_plain t htc]
      have hstep : SplitState.step ⟨out, [] ++ t, false, false⟩ ' ' = ⟨out ++ [t], [], false, false⟩ := by
        have e1 : ¬ ' ' = backslash := by decide
        have e2 : ¬ ' ' = dquote := by decide
        have e3 : ¬ ' ' = squote := by decide
        simp [SplitState.step, SplitState.flush, htne, e1, e2, e3]
      rw [hstep, ih (by simp) (fun u hu => h u (List.mem_cons_of_mem _ hu))]
      simp

/-- The tokenizer gives back plain tokens that were joined by single spaces. -/
theorem splitCommandPattern_plain (toks : List Str) (hne : toks ≠ [])
    (h : ∀ t ∈ toks, plainToken t = true) :
    splitCommandPattern (joinWith [' '] toks) = toks := by
  unfold splitCommandPattern
  rw [split_fold_tokens toks hne h []]
  simp

theorem replaceAllFrom_absent (o : Char) (os new : Str) (t : Str) (h : ∀ c ∈ t, c ≠ o) :
    replaceAllFrom (o :: os) new 0 t = t := by
  induction t with
  | nil => rfl
  | cons c cs ih =>
    have hc : ¬ o = c := fun e => h c (by simp) e.symm
    simp [replaceAllFrom, List.isPrefixOf, hc, ih (fun d hd => h d (List.mem_cons_of_mem _ hd))]

theorem escapeCodexString_plain (t : Str) (h : ∀ c ∈ t, plainChar c = true) :
    escapeCodexString t = t := by
  unfold escapeCodexString replaceAll
  simp only
  rw [replaceAllFrom_absent backslash _ _ t (fun c hc => (plainChar_spec c (h c hc)).2.2.2.2.1),
    replaceAllFrom_absent dquote _ _ t (fun c hc => (plainChar_spec c (h c hc)).2.2.1)]

theorem quotedScan_item (t : Str) (h : ∀ c ∈ t, plainChar c = true) :
    ∀ (rest sb : Str) (out : List Str),
      quotedScan (t ++ rest) (.inItem sb) out = quotedScan rest (.inItem (sb ++ t)) out := by
  induction t with
  | nil => intro rest sb out; simp
  | cons c cs ih =>
    intro rest sb out
    obtain ⟨_, _, h1, _, h3, _, _, _, _⟩ := plainChar_spec c (h c (by simp))
    rw [List.cons_append, quotedScan]
    simp only [h1, h3, if_false]
    rw [ih (fun d hd => h d (List.mem_cons_of_mem _ hd))]
    simp

theorem quotedScan_quoteToken (t : Str) (h : ∀ c ∈ t, plainChar c = true)
    (rest : Str) (out : List Str) :
    quotedScan (quoteToken t ++ rest) .between out
      = quotedScan rest .afterItem (out ++ [t]) := by
  have e1 : ¬ dquote = ' ' := by decide
  have e2 : ¬ dquote = '\t' := by decide
  have e3 : ¬ dquote = ',' := by decide
  have e4 : ¬ dquote = backslash := by decide
  unfold quoteToken
  simp only [List.append_assoc, List.singleton_append, List.cons_append, List.nil_append]
  rw [quotedScan]
  simp only [e1, e2, e3, or_self, if_false, if_true]
  rw [quotedScan_item t h]
  rw [quotedScan]
  simp [e4]

/-- The list parser gives back plain tokens that were written between double quotes and
separated by a comma and a space. -/
theorem quotedScan_tokens (toks : List Str) (h : ∀ t ∈ toks, plainToken t = true) :
    ∀ out : List Str,
      quotedScan (joinWith ", ".toList (toks.map quoteToken)) .between out
        = some (out ++ toks) := by
  induction toks with
  | nil => intro out; simp [joinWith, quotedScan]
  | cons t rest ih =>
    intro out
    obtain ⟨_, htc⟩ := plainToken_spec t (h t (by simp))
    cases rest with
    | nil =>
      have hq := quotedScan_quoteToken t htc [] out
      simp only [List.append_nil] at hq
      simp only [List.map_cons, List.map_nil, joinWith, hq]
      simp [quotedScan]
    | cons t2 rest2 =>
      have hrest := ih (fun u hu => h u (List.mem_cons_of_mem _ hu)) (out ++ [t])
      have e1 : ¬ ',' = dquote := by decide
      have e2 : ¬ ' ' = dquote := by decide
      simp only [List.map_cons, joinWith, List.append_assoc] at hrest ⊢
      rw [quotedScan_quoteToken t htc]
      have hsep : ", ".toList = [',', ' '] := by decide
      rw [hsep]
      simp only [List.cons_append, List.nil_append]
      rw [quotedScan]
      simp only [e1, if_false, if_true]
      rw [quotedScan]
      simp only [true_or, if_true]
      rw [hsep] at hrest
      rw [hrest]
      simp

theorem mem_joinWith (sep : Str) (parts : List Str) (c : Char)
    (h : c ∈ joinWith sep parts) : c ∈ sep ∨ ∃ x ∈ parts, c ∈ x := by
  induction parts with
  | nil => simp [joinWith] at h
  | cons x rest ih =>
    cases rest with
    | nil => exact Or.inr ⟨x, by simp, by simpa [joinWith] using h⟩
    | cons y rest2 =>
      simp only [joinWith, List.mem_append] at h
      rcases h with (h | h) | h
      · exact Or.inr ⟨x, by simp, h⟩
      · exact Or.inl h
      · rcases ih h with h | ⟨z, hz, hc⟩
        · exact Or.inl h
        · exact Or.inr ⟨z, List.mem_cons_of_mem _ hz, hc⟩

theorem captureToBracket_upTo (q rest : Str) (h : ∀ c ∈ q, c ≠ ']' ∧ c ≠ '\n') :
    captureToBracket (q ++ ']' :: rest) = some q := by
  induction q with
  | nil => simp [captureToBracket]
  | cons c cs ih =>
    obtain ⟨h1, h2⟩ := h c (by simp)
    rw [List.cons_append, captureToBracket]
    simp [h1, h2, ih (fun d hd => h d (List.mem_cons_of_mem _ hd))]

theorem quotedTokens_chars (toks : List Str) (h : ∀ t ∈ toks, plainToken t = true)
    (c : Char) (hc : c ∈ joinWith ", ".toList (toks.map quoteToken)) :
    c ≠ ']' ∧ c ≠ '\n' := by
  rcases mem_joinWith _ _ c hc with hsep | ⟨x, hx, hcx⟩
  · have hs : c = ',' ∨ c = ' ' := by simpa using hsep
    rcases hs with rfl | rfl <;> decide
  · obtain ⟨t, ht, rfl⟩ := List.mem_map.1 hx
    unfold quoteToken at hcx
    simp only [List.append_assoc, List.singleton_append, List.mem_cons, List.mem_append,
      List.mem_singleton] at hcx
    rcases hcx with (rfl | hct) | (rfl | hnil)
    · decide
    · obtain ⟨_, _, _, _, _, h5, _, _, h8⟩ :=
        plainChar_spec c ((plainToken_spec t (h t ht)).2 c hct)
      exact ⟨h5, h8⟩
    · decide
    · cases hnil

/-! ### The two regular expressions on a written rule line -/

theorem findLeftmost_skip (m : Str → Option Str) (c : Char) (s : Str)
    (h : m (c :: s) = none) : findLeftmost m (c :: s) = findLeftmost m s := by
  rw [findLeftmost, h]

theorem findLeftmost_hit (m : Str → Option Str) (s r : Str)
    (h : m s = some r) : findLeftmost m s = some r := by
  cases s with
  | nil => rw [findLeftmost, h]
  | cons c cs => rw [findLeftmost, h]

theorem matchDecisionAt_head (c : Char) (s : Str) (h : c ≠ 'd') :
    matchDecisionAt (c :: s) = none := by
  have hlit : "decision".toList = 'd' :: "ecision".toList := by decide
  have h' : ¬ 'd' = c := fun e => h e.symm
  unfold matchDecisionAt
  rw [hlit, stripLiteral]
  simp [h']

theorem findDecision_skip_chars (a : Str) (h : ∀ c ∈ a, c ≠ 'd') (b : Str) :
    findDecision (a ++ b) = findDecision b := by
  induction a with
  | nil => rfl
  | cons c cs ih =>
    unfold findDecision at ih ⊢
    rw [List.cons_append, findLeftmost_skip _ _ _ (matchDecisionAt_head c _ (h c (by simp))),
      ih (fun d hd => h d (List.mem_cons_of_mem _ hd))]

theorem stripLiteral_before_quote (p : Str) (hp : dquote ∉ p) :
    ∀ (u y r : Str), stripLiteral p (u ++ dquote :: y) = some r →
      ∃ u', u = p ++ u' ∧ r = u' ++ dquote :: y := by
  induction p with
  | nil =>
    intro u y r h
    cases hu : u ++ dquote :: y with
    | nil => simp at hu
    | cons a b =>
      rw [hu] at h
      simp only [stripLiteral, Option.some.injEq] at h
      exact ⟨u, rfl, by rw [← h, hu]⟩
  | cons a ps ih =>
    intro u y r h
    simp only [List.mem_cons, not_or] at hp
    cases u with
    | nil =>
      simp only [List.nil_append, stripLiteral] at h
      have : ¬ a = dquote := fun e => hp.1 e.symm
      simp [this] at h
    | cons c cs =>
      simp only [List.cons_append, stripLiteral] at h
      by_cases hac : a = c
      · simp only [hac, if_true] at h
        obtain ⟨u', hu', hr⟩ := ih hp.2 cs y r h
        exact ⟨u', by simp [hac, hu'], hr⟩
      · simp [hac] at h

theorem dropWhile_reSpace_plain (u y : Str) (h : ∀ c ∈ u, plainChar c = true) :
    (u ++ dquote :: y).dropWhile reSpace = u ++ dquote :: y := by
  cases u with
  | nil =>
    have : reSpace dquote = false := by decide
    simp [List.dropWhile_cons, this]
  | cons c cs =>
    have := (plainChar_spec c (h c (by simp))).2.1
    simp [List.dropWhile_cons, this]

theorem matchDecisionWord_head (c : Char) (s : Str)
    (h : c ≠ 'a' ∧ c ≠ 'f' ∧ c ≠ 'p') : matchDecisionWord (c :: s) = none := by
  have h1 : "allow".toList = 'a' :: "llow".toList := by decide
  have h2 : "forbidden".toList = 'f' :: "orbidden".toList := by decide
  have h3 : "prompt".toList = 'p' :: "rompt".toList := by decide
  have e1 : ¬ 'a' = c := fun e => h.1 e.symm
  have e2 : ¬ 'f' = c := fun e => h.2.1 e.symm
  have e3 : ¬ 'p' = c := fun e => h.2.2 e.symm
  unfold matchDecisionWord
  rw [h1, h2, h3]
  simp [List.isPrefixOf, e1, e2, e3]

/-- The decision expression does not match from inside a plain token that is followed
by its closing quote and then by something that is not a decision word. -/
theorem matchDecisionAt_in_token (u y : Str) (h : ∀ c ∈ u, plainChar c = true)
    (hy : matchDecisionWord y = none) : matchDecisionAt (u ++ dquote :: y) = none := by
  unfold matchDecisionAt
  cases hs : stripLiteral "decision".toList (u ++ dquote :: y) with
  | none => rfl
  | some r1 =>
    obtain ⟨u', hu', hr⟩ := stripLiteral_before_quote _ (by decide) u y r1 hs
    have hplain : ∀ c ∈ u', plainChar c = true := by
      intro c hc
      exact h c (by rw [hu']; exact List.mem_append_right _ hc)
    subst hr
    simp only
    rw [dropWhile_reSpace_plain u' y hplain]
    cases u' with
    | nil =>
      have : ¬ dquote = '=' := by decide
      simp [this]
    | cons c cs =>
      have hcs : ∀ d ∈ cs, plainChar d = true :=
        fun d hd => hplain d (List.mem_cons_of_mem _ hd)
      simp only [List.cons_append]
      by_cases hc : c = '='
      · simp only [hc, if_true]
        rw [dropWhile_reSpace_plain cs y hcs]
        cases cs with
        | nil => simp [hy]
        | cons c2 cs2 =>
          have := (plainChar_spec c2 (hcs c2 (by simp))).2.2.1
          simp [this]
      · simp [hc]

theorem findDecision_skip_token (t y : Str) (h : ∀ c ∈ t, plainChar c = true)
    (hy : matchDecisionWord y = none) :
    findDecision (t ++ dquote :: y) = findDecision (dquote :: y) := by
  induction t with
  | nil => rfl
  | cons c cs ih =>
    unfold findDecision at ih ⊢
    rw [List.cons_append, findLeftmost_skip _ _ _
      (by simpa using matchDecisionAt_in_token (c :: cs) y h hy)]
    exact ih (fun d hd => h d (List.mem_cons_of_mem _ hd))

theorem findDecision_skip_quoted (toks : List Str) (h : ∀ t ∈ toks, plainToken t = true)
    (r : Str) :
    findDecision (joinWith ", ".toList (toks.map quoteToken) ++ ']' :: r)
      = findDecision (']' :: r) := by
  have hq : dquote ≠ 'd' := by decide
  have hsep : ", ".toList = [',', ' '] := by decide
  induction toks with
  | nil => simp [joinWith]
  | cons t rest ih =>
    obtain ⟨_, htc⟩ := plainToken_spec t (h t (by simp))
    cases rest with
    | nil =>
      simp only [List.map_cons, List.map_nil, joinWith, quoteToken, List.append_assoc,
        List.singleton_append, List.cons_append, List.nil_append]
      rw [show (dquote :: (t ++ dquote :: ']' :: r)) = [dquote] ++ (t ++ dquote :: ']' :: r)
        from rfl]
      rw [findDecision_skip_chars [dquote] (by simp [hq]),
        findDecision_skip_token t _ htc (matchDecisionWord_head _ _ (by decide))]
      exact findDecision_skip_chars [dquote] (by simp [hq]) _
    | cons t2 rest2 =>
      have hrest := ih (fun u hu => h u (List.mem_cons_of_mem _ hu))
      simp only [List.map_cons, joinWith, quoteToken, List.append_assoc,
        List.singleton_append, List.cons_append, List.nil_append, hsep] at hrest ⊢
      rw [show ∀ z : Str, (dquote :: (t ++ dquote :: ',' :: ' ' :: z))
          = [dquote] ++ (t ++ dquote :: ',' :: ' ' :: z) from fun _ => rfl]
      rw [findDecision_skip_chars [dquote] (by simp [hq]),
        findDecision_skip_token t _ htc (matchDecisionWord_head _ _ (by decide))]
      rw [show ∀ z : Str, (dquote :: ',' :: ' ' :: z) = [dquote, ',', ' '] ++ z
          from fun _ => rfl]
      rw [findDecision_skip_chars [dquote, ',', ' '] (by decide)]
      exact hrest

theorem findDecision_ruleLineEnd (decision : Str)
    (hd : decision = "allow".toList ∨ decision = "forbidden".toList) :
    findDecision (']' :: ruleLineEnd decision) = some decision := by
  rcases hd with rfl | rfl <;> decide

theorem findPattern_rule (x q : Str) (hq : captureToBracket x = some q) :
    findPattern ("prefix_rule(pattern=[".toList ++ x) = some q := by
  have hlit : "prefix_rule(pattern=[".toList
      = ['p','r','e','f','i','x','_','r','u','l','e','(','p','a','t','t','e','r','n','=','['] := by
    decide
  have hpat : "pattern".toList = ['p','a','t','t','e','r','n'] := by decide
  rw [hlit]
  simp [findPattern, findLeftmost, matchPatternAt, hpat, stripLiteral, List.dropWhile_cons,
    reSpace, hq]

theorem containsStr_rule (x : Str) :
    containsStr ("prefix_rule(pattern=[".toList ++ x) "prefix_rule".toList = true := by
  have hlit : "prefix_rule(pattern=[".toList
      = ['p','r','e','f','i','x','_','r','u','l','e','(','p','a','t','t','e','r','n','=','['] := by
    decide
  have hsub : "prefix_rule".toList = ['p','r','e','f','i','x','_','r','u','l','e'] := by decide
  rw [hlit, hsub]
  simp [containsStr, List.tails, List.isPrefixOf]

/-! ### A written rule line read back -/

theorem codexRuleLine_plain (toks : List Str) (hne : toks ≠ [])
    (h : ∀ t ∈ toks, plainToken t = true) (decision : Str) :
    codexRuleLine (joinWith [' '] toks) decision
      = "prefix_rule(pattern=[".toList ++
          (joinWith ", ".toList (toks.map quoteToken) ++ ']' :: ruleLineEnd decision) := by
  have hmap : toks.map (fun p => [dquote] ++ escapeCodexString p ++ [dquote])
      = toks.map quoteToken := by
    apply List.map_congr_left
    intro t ht
    rw [escapeCodexString_plain t (plainToken_spec t (h t ht)).2]
    rfl
  have hlit : "], decision=".toList = ']' :: ", decision=".toList := by decide
  unfold codexRuleLine
  simp only [splitCommandPattern_plain toks hne h]
  rw [hmap, hlit]
  simp only [ruleLineEnd, List.append_assoc, List.cons_append]

/-- A rule line written for plain tokens parses back to these tokens and to the
decision it was written with. -/
theorem parseCodexRuleLine_plain (toks : List Str) (hne : toks ≠ [])
    (h : ∀ t ∈ toks, plainToken t = true) (decision : Str)
    (hd : decision = "allow".toList ∨ decision = "forbidden".toList) :
    parseCodexRuleLine (codexRuleLine (joinWith [' '] toks) decision)
      = some (toks, decision) := by
  rw [codexRuleLine_plain toks hne h decision]
  unfold parseCodexRuleLine
  rw [containsStr_rule]
  have hcap := captureToBracket_upTo (joinWith ", ".toList (toks.map quoteToken))
    (ruleLineEnd decision) (quotedTokens_chars toks h)
  rw [findPattern_rule _ _ hcap]
  rw [findDecision_skip_chars "prefix_rule(pattern=[".toList (by decide),
    findDecision_skip_quoted toks h, findDecision_ruleLineEnd decision hd]
  have hparse := quotedScan_tokens toks h []
  simp only [List.nil_append] at hparse
  simp only [parseQuotedList, hparse]
  rfl

theorem codexRuleLine_ends (cmd decision : Str) :
    ∃ x, codexRuleLine cmd decision = 'p' :: (x ++ [')']) := by
  have hlit : "prefix_rule(pattern=[".toList = 'p' :: "refix_rule(pattern=[".toList := by
    decide
  have hend : ")".toList = [')'] := by decide
  refine ⟨"refix_rule(pattern=[".toList ++ joinWith ", ".toList
    ((splitCommandPattern cmd).map (fun p => [dquote] ++ escapeCodexString p ++ [dquote])) ++
    "], decision=".toList ++ [dquote] ++ decision ++ [dquote], ?_⟩
  unfold codexRuleLine
  simp only [hlit, hend, List.append_assoc, List.cons_append]

theorem dropCR_codexRuleLine (cmd decision : Str) :
    dropCR (codexRuleLine cmd decision) = codexRuleLine cmd decision := by
  obtain ⟨x, hx⟩ := codexRuleLine_ends cmd decision
  rw [hx]
  unfold dropCR
  have : ('p' :: (x ++ [')'])).getLast? = some ')' := by
    rw [← List.cons_append, List.getLast?_append]
    simp
  rw [this]
  simp

theorem isMarkerLine_codexRuleLine (cmd decision : Str) :
    isMarkerLine (codexRuleLine cmd decision) = false := by
  obtain ⟨x, hx⟩ := codexRuleLine_ends cmd decision
  rw [hx]
  have h1 : isSpace 'p' = false := by decide
  have h2 : isSpace ')' = false := by decide
  have htrim : TrimSpace ('p' :: (x ++ [')'])) = 'p' :: (x ++ [')']) := by
    unfold TrimSpace
    rw [List.dropWhile_cons, if_neg (by simp [h1]), ← List.cons_append,
      List.rdropWhile_concat, if_neg (by simp [h2])]
  have hm : codexManagedMarker = '#' :: " syncd-managed".toList := by decide
  unfold isMarkerLine hasPrefix
  rw [htrim, hm]
  simp [List.isPrefixOf]

/-! ### The rule file written and read back -/

theorem trimSpace_concat_space (l : Str) (c : Char) (hc : isSpace c = true) :
    TrimSpace (l ++ [c]) = TrimSpace l := by
  unfold TrimSpace
  rw [List.dropWhile_append]
  by_cases he : (l.dropWhile isSpace).isEmpty = true
  · rw [if_pos he]
    have hnil : l.dropWhile isSpace = [] := List.isEmpty_iff.1 he
    simp [hnil, List.dropWhile_cons, hc, List.rdropWhile]
  · rw [if_neg he, List.rdropWhile_concat, if_pos hc]

theorem trimSpace_dropCR (l : Str) : TrimSpace (dropCR l) = TrimSpace l := by
  unfold dropCR
  by_cases h : l.getLast? = some '\r'
  · rw [if_pos h]
    obtain ⟨ys, rfl⟩ := List.getLast?_eq_some_iff.1 h
    rw [List.dropLast_concat, trimSpace_concat_space ys '\r' (by decide)]
  · rw [if_neg h]

theorem isMarkerLine_dropCR (l : Str) : isMarkerLine (dropCR l) = isMarkerLine l := by
  unfold isMarkerLine
  rw [trimSpace_dropCR]

theorem keepNonManaged_not_marker (lines : List Str) :
    ∀ (skip : Bool), ∀ l ∈ keepNonManaged skip lines, isMarkerLine l = false := by
  induction lines with
  | nil => intro skip l hl; cases skip <;> simp [keepNonManaged] at hl
  | cons x rest ih =>
    intro skip l hl
    cases skip with
    | true =>
      rw [keepNonManaged] at hl
      exact ih false l hl
    | false =>
      rw [keepNonManaged] at hl
      by_cases hx : isMarkerLine x = true
      · rw [if_pos hx] at hl
        exact ih true l hl
      · rw [if_neg hx] at hl
        rcases List.mem_cons.1 hl with rfl | hl
        · simpa using hx
        · exact ih false l hl

theorem keepNonManaged_subset (lines : List Str) :
    ∀ (skip : Bool), ∀ l ∈ keepNonManaged skip lines, l ∈ lines := by
  induction lines with
  | nil => intro skip l hl; cases skip <;> simp [keepNonManaged] at hl
  | cons x rest ih =>
    intro skip l hl
    cases skip with
    | true =>
      rw [keepNonManaged] at hl
      exact List.mem_cons_of_mem _ (ih false l hl)
    | false =>
      rw [keepNonManaged] at hl
      by_cases hx : isMarkerLine x = true
      · rw [if_pos hx] at hl
        exact List.mem_cons_of_mem _ (ih true l hl)
      · rw [if_neg hx] at hl
        rcases List.mem_cons.1 hl with rfl | hl
        · simp
        · exact List.mem_cons_of_mem _ (ih false l hl)

theorem dropCR_subset (l : Str) (c : Char) (h : c ∈ dropCR l) : c ∈ l := by
  unfold dropCR at h
  by_cases hl : l.getLast? = some '\r'
  · rw [if_pos hl] at h
    exact List.mem_of_mem_dropLast h
  · rw [if_neg hl] at h
    exact h

theorem scanLines_no_linefeed (content : Str) : ∀ l ∈ scanLines content, '\n' ∉ l := by
  intro l hl
  unfold scanLines at hl
  simp only [List.mem_map] at hl
  obtain ⟨x, hx, rfl⟩ := hl
  have hx' : x ∈ splitOn '\n' content := by
    by_cases hlast : (splitOn '\n' content).getLast? = some []
    · rw [if_pos hlast] at hx
      exact List.mem_of_mem_dropLast hx
    · rw [if_neg hlast] at hx
      exact hx
  exact fun hc => not_mem_of_mem_splitOn '\n' content x hx' (dropCR_subset x _ hc)

theorem readFold_free (lines : List Str) (h : ∀ l ∈ lines, isMarkerLine l = false)
    (allow deny : List Str) :
    lines.foldl RuleReadState.step ⟨allow, deny, false⟩ = ⟨allow, deny, false⟩ := by
  induction lines with
  | nil => rfl
  | cons x rest ih =>
    rw [List.foldl_cons]
    have hx := h x (by simp)
    have hstep : RuleReadState.step ⟨allow, deny, false⟩ x = ⟨allow, deny, false⟩ := by
      simp [RuleReadState.step, hx]
    rw [hstep]
    exact ih (fun l hl => h l (List.mem_cons_of_mem _ hl))

/-- A command of plain tokens separated by single spaces, as its token list. -/
theorem plainCommand_tokens (cmd : Str) (h : plainCommand cmd = true) :
    ∃ toks, toks ≠ [] ∧ (∀ t ∈ toks, plainToken t = true) ∧ cmd = joinWith [' '] toks := by
  refine ⟨splitOn ' ' cmd, splitOn_ne_nil _ _, ?_, (joinWith_splitOn ' ' cmd).symm⟩
  unfold plainCommand at h
  simpa [List.all_eq_true] using h

theorem readStep_marker (st : RuleReadState) :
    st.step codexManagedMarker = ⟨st.allow, st.deny, true⟩ := by
  have : isMarkerLine codexManagedMarker = true := by decide
  simp [RuleReadState.step, this]

theorem readStep_rule_allow (cmd : Str) (h : plainCommand cmd = true) (allow deny : List Str) :
    RuleReadState.step ⟨allow, deny, true⟩ (codexRuleLine cmd "allow".toList)
      = ⟨allow ++ [cmd], deny, false⟩ := by
  obtain ⟨toks, hne, hplain, rfl⟩ := plainCommand_tokens cmd h
  unfold RuleReadState.step
  rw [isMarkerLine_codexRuleLine,
    parseCodexRuleLine_plain toks hne hplain _ (Or.inl rfl)]
  simp

theorem readStep_rule_deny (cmd : Str) (h : plainCommand cmd = true) (allow deny : List Str) :
    RuleReadState.step ⟨allow, deny, true⟩ (codexRuleLine cmd "forbidden".toList)
      = ⟨allow, deny ++ [cmd], false⟩ := by
  obtain ⟨toks, hne, hplain, rfl⟩ := plainCommand_tokens cmd h
  have hne' : ¬ "forbidden".toList = "allow".toList := by decide
  unfold RuleReadState.step
  rw [isMarkerLine_codexRuleLine,
    parseCodexRuleLine_plain toks hne hplain _ (Or.inr rfl)]
  simp [hne']

theorem readFold_pairs_allow (cmds : List Str) (h : ∀ cmd ∈ cmds, plainCommand cmd = true) :
    ∀ allow deny : List Str,
      (managedPairs cmds "allow".toList).foldl RuleReadState.step ⟨allow, deny, false⟩
        = ⟨allow ++ cmds, deny, false⟩ := by
  induction cmds with
  | nil => intro allow deny; simp [managedPairs]
  | cons cmd rest ih =>
    intro allow deny
    have hrest := ih (fun c hc => h c (List.mem_cons_of_mem _ hc)) (allow ++ [cmd]) deny
    unfold managedPairs at hrest ⊢
    rw [List.flatMap_cons, List.foldl_append, List.foldl_cons, List.foldl_cons,
      List.foldl_nil, readStep_marker, readStep_rule_allow cmd (h cmd (by simp)), hrest]
    simp

theorem readFold_pairs_deny (cmds : List Str) (h : ∀ cmd ∈ cmds, plainCommand cmd = true) :
    ∀ allow deny : List Str,
      (managedPairs cmds "forbidden".toList).foldl RuleReadState.step ⟨allow, deny, false⟩
        = ⟨allow, deny ++ cmds, false⟩ := by
  induction cmds with
  | nil => intro allow deny; simp [managedPairs]
  | cons cmd rest ih =>
    intro allow deny
    have hrest := ih (fun c hc => h c (List.mem_cons_of_mem _ hc)) allow (deny ++ [cmd])
    unfold managedPairs at hrest ⊢
    rw [List.flatMap_cons, List.foldl_append, List.foldl_cons, List.foldl_cons,
      List.foldl_nil, readStep_marker, readStep_rule_deny cmd (h cmd (by simp)), hrest]
    simp

theorem readRuleLines_linesContent (lines : List Str) (h : ∀ x ∈ lines, '\n' ∉ x) :
    readRuleLines (scanLines (linesContent lines)) = readRuleLines (lines.map dropCR) := by
  rw [scanLines_linesContent lines h]
  by_cases hj : joinWith ['\n'] lines = []
  · rw [if_pos hj]
    rcases joinWith_eq_nil ['\n'] (by simp) lines hj with rfl | rfl
    · rfl
    · decide
  · rw [if_neg hj]

theorem dropCR_managedPairs (cmds : List Str) (decision : Str) :
    (managedPairs cmds decision).map dropCR = managedPairs cmds decision := by
  have hm : dropCR codexManagedMarker = codexManagedMarker := by decide
  unfold managedPairs
  induction cmds with
  | nil => rfl
  | cons cmd rest ih =>
    simp only [List.flatMap_cons, List.map_append, List.map_cons, List.map_nil, ih, hm,
      dropCR_codexRuleLine]

theorem codexRuleLine_no_linefeed (cmd decision : Str) (h : plainCommand cmd = true)
    (hd : decision = "allow".toList ∨ decision = "forbidden".toList) :
    '\n' ∉ codexRuleLine cmd decision := by
  obtain ⟨toks, hne, hplain, rfl⟩ := plainCommand_tokens cmd h
  rw [codexRuleLine_plain toks hne hplain decision]
  simp only [List.mem_append, List.mem_cons, not_or]
  refine ⟨by decide, fun hc => (quotedTokens_chars toks hplain _ hc).2 rfl, by decide, ?_⟩
  rcases hd with rfl | rfl <;> decide

theorem managedPairs_no_linefeed (cmds : List Str) (decision : Str)
    (h : ∀ cmd ∈ cmds, plainCommand cmd = true)
    (hd : decision = "allow".toList ∨ decision = "forbidden".toList) :
    ∀ x ∈ managedPairs cmds decision, '\n' ∉ x := by
  intro x hx
  unfold managedPairs at hx
  simp only [List.mem_flatMap, List.mem_cons, List.mem_singleton] at hx
  obtain ⟨cmd, hcmd, hx | hx | hx⟩ := hx
  · subst hx; decide
  · subst hx; exact codexRuleLine_no_linefeed cmd decision (h cmd hcmd) hd
  · cases hx

/-- Reading the lines that `WriteCodexRules` writes: the kept lines contribute nothing
and the regenerated pairs give back the lists written. -/
theorem readRuleLines_codexLines (kept allow deny : List Str)
    (hkept : ∀ l ∈ kept, isMarkerLine l = false ∧ '\n' ∉ l)
    (hallow : ∀ cmd ∈ allow, plainCommand cmd = true)
    (hdeny : ∀ cmd ∈ deny, plainCommand cmd = true) :
    readRuleLines (scanLines (linesContent (codexLines kept allow deny))) = (allow, deny) := by
  rw [readRuleLines_linesContent]
  · unfold codexLines readRuleLines
    simp only [List.map_append, dropCR_managedPairs, List.foldl_append]
    rw [readFold_free (kept.map dropCR)
      (by
        intro l hl
        obtain ⟨x, hx, rfl⟩ := List.mem_map.1 hl
        rw [isMarkerLine_dropCR]
        exact (hkept x hx).1),
      readFold_pairs_allow allow hallow, readFold_pairs_deny deny hdeny]
    simp
  · intro x hx
    unfold codexLines at hx
    rcases List.mem_append.1 hx with hx | hx
    · rcases List.mem_append.1 hx with hx | hx
      · exact (hkept x hx).2
      · exact managedPairs_no_linefeed allow _ hallow (Or.inl rfl) x hx
    · exact managedPairs_no_linefeed deny _ hdeny (Or.inr rfl) x hx

/-! ### The token limit of the scanner -/

theorem byteLen_append (a b : Str) : byteLen (a ++ b) = byteLen a + byteLen b := by
  simp [byteLen]

theorem byteLen_nil : byteLen [] = 0 := rfl

theorem scanErr_none_iff (content : Str) :
    scanErr content = none ↔ ∀ piece ∈ splitOn '\n' content, fitsScanner piece := by
  unfold scanErr fitsScanner
  by_cases h : (splitOn '\n' content).any (fun piece => decide (maxScanTokenSize ≤ byteLen piece))
      = true
  · rw [if_pos h]
    simp only [false_iff, reduceCtorEq]
    intro hall
    obtain ⟨piece, hp, hlen⟩ := List.any_eq_true.1 h
    have := hall piece hp
    simp only [decide_eq_true_eq] at hlen
    omega
  · rw [if_neg h]
    simp only [true_iff]
    intro piece hp
    by_contra hlt
    exact h (List.any_eq_true.2 ⟨piece, hp, by simpa using Nat.le_of_not_lt hlt⟩)

theorem scanErr_tooLong (content : Str) (piece : Str) (hp : piece ∈ splitOn '\n' content)
    (hlen : maxScanTokenSize ≤ byteLen piece) : scanErr content = some .tooLong := by
  unfold scanErr
  rw [if_pos (List.any_eq_true.2 ⟨piece, hp, by simpa using hlen⟩)]

theorem scanErr_cases (content : Str) : scanErr content = none ∨ scanErr content = some .tooLong := by
  unfold scanErr
  split
  · exact Or.inr rfl
  · exact Or.inl rfl

/-- The pieces between line feeds of the content written for a list of lines without
line feeds: these lines and the empty piece. -/
theorem mem_splitOn_linesContent (lines : List Str) (h : ∀ x ∈ lines, '\n' ∉ x) (piece : Str) :
    piece ∈ splitOn '\n' (linesContent lines) ↔ piece ∈ lines ∨ piece = [] := by
  unfold linesContent
  by_cases hj : joinWith ['\n'] lines = []
  · simp only [hj, if_true, splitOn, List.mem_singleton]
    rcases joinWith_eq_nil ['\n'] (by simp) lines hj with rfl | rfl
    · simp
    · simp
  · simp only [hj, if_false]
    have hne : lines ≠ [] := by
      rintro rfl
      exact hj rfl
    have hsplit : splitOn '\n' (joinWith ['\n'] lines ++ ['\n']) = lines ++ [[]] := by
      rw [← joinWith_append_empty ['\n'] lines hne]
      apply splitOn_joinWith '\n' (lines ++ [[]]) (by simp)
      intro x hx
      rcases List.mem_append.1 hx with hx | hx
      · exact h x hx
      · simp only [List.mem_singleton] at hx
        subst hx
        simp
    rw [hsplit]
    simp

theorem scanErr_linesContent (lines : List Str) (h : ∀ x ∈ lines, '\n' ∉ x) :
    scanErr (linesContent lines) = none ↔ ∀ l ∈ lines, fitsScanner l := by
  rw [scanErr_none_iff]
  constructor
  · intro hall l hl
    exact hall l ((mem_splitOn_linesContent lines h l).2 (Or.inl hl))
  · intro hall piece hp
    rcases (mem_splitOn_linesContent lines h piece).1 hp with hl | rfl
    · exact hall piece hl
    · unfold fitsScanner maxScanTokenSize
      rw [byteLen_nil]
      decide

theorem byteLen_dropCR_le (l : Str) : byteLen (dropCR l) ≤ byteLen l := by
  unfold dropCR
  by_cases hlast : l.getLast? = some '\r'
  · rw [if_pos hlast]
    have := List.dropLast_append_getLast? '\r' (by simpa using hlast)
    conv_rhs => rw [← this]
    rw [byteLen_append]
    omega
  · rw [if_neg hlast]

/-- The lines the scanner yields without error are shorter than the token limit. -/
theorem scanLines_fits (content : Str) (h : scanErr content = none) :
    ∀ l ∈ scanLines content, fitsScanner l := by
  intro l hl
  unfold scanLines at hl
  simp only [List.mem_map] at hl
  obtain ⟨x, hx, rfl⟩ := hl
  have hx' : x ∈ splitOn '\n' content := by
    by_cases hlast : (splitOn '\n' content).getLast? = some []
    · rw [if_pos hlast] at hx
      exact List.mem_of_mem_dropLast hx
    · rw [if_neg hlast] at hx
      exact hx
  have := (scanErr_none_iff content).1 h x hx'
  unfold fitsScanner at this ⊢
  exact lt_of_le_of_lt (byteLen_dropCR_le x) this

/-- The rule-file readers on a present file: the error of the scanner, or the result of
the loop over its lines. -/
theorem readCodexRules_present (J : JSONLib) (fs : FS) (path : Str) (missingOK : Bool)
    (data : FileData) (hfile : fs.file path = .present data) :
    ReadCodexRules J fs path missingOK
      = match scanErr (fileText J data) with
        | some e => .error e
        | none => .ok (readRuleLines (scanLines (fileText J data))) := by
  unfold ReadCodexRules readOrMissing readFile
  rw [hfile]

theorem writeCodexRules_ok (J : JSONLib) (fs fs' : FS) (path : Str) (allow deny : List Str)
    (h : WriteCodexRules J fs path allow deny = .ok fs') :
    ∃ lines, readCodexRuleFileKeepingNonManaged J fs path
          = .ok (keepNonManaged false lines) ∧
      fs'.file path = .present (.text
        (linesContent (codexLines (keepNonManaged false lines) allow deny))) ∧
      (∀ l ∈ lines, '\n' ∉ l) ∧
      (∀ q, fs.ident q ≠ fs.ident path → fs'.file q = fs.file q) ∧ fs'.writable = fs.writable ∧
      (∀ l ∈ lines, fitsScanner l) ∧ fs'.ident = fs.ident := by
  unfold WriteCodexRules at h
  cases hk : readCodexRuleFileKeepingNonManaged J fs path with
  | error e => rw [hk] at h; cases h
  | ok kept =>
    rw [hk] at h
    simp only at h
    obtain ⟨hfile, hother, hw⟩ := writeFile_ok fs fs' path _ h
    have hident := writeFile_ident fs fs' path _ h
    unfold readCodexRuleFileKeepingNonManaged at hk
    cases hr : readOrMissing fs path true with
    | error e => rw [hr] at hk; cases hk
    | ok data? =>
      rw [hr] at hk
      cases data? with
      | none =>
        simp only [Except.ok.injEq] at hk
        subst hk
        exact ⟨[], rfl, by simpa [keepNonManaged] using hfile,
          by simp, hother, hw, by simp, hident⟩
      | some data =>
        simp only at hk
        cases hse : scanErr (fileText J data) with
        | some e => rw [hse] at hk; cases hk
        | none =>
          rw [hse] at hk
          simp only [Except.ok.injEq] at hk
          subst hk
          exact ⟨scanLines (fileText J data), rfl, hfile,
            scanLines_no_linefeed _, hother, hw, scanLines_fits _ hse, hident⟩

theorem codexLines_no_linefeed (lines allow deny : List Str) (hlines : ∀ l ∈ lines, '\n' ∉ l)
    (hallow : ∀ cmd ∈ allow, plainCommand cmd = true)
    (hdeny : ∀ cmd ∈ deny, plainCommand cmd = true) :
    ∀ x ∈ codexLines (keepNonManaged false lines) allow deny, '\n' ∉ x := by
  intro x hx
  unfold codexLines at hx
  rcases List.mem_append.1 hx with hx | hx
  · rcases List.mem_append.1 hx with hx | hx
    · exact hlines x (keepNonManaged_subset lines false x hx)
    · exact managedPairs_no_linefeed allow _ hallow (Or.inl rfl) x hx
  · exact managedPairs_no_linefeed deny _ hdeny (Or.inr rfl) x hx

theorem mem_managedPairs (cmds : List Str) (decision x : Str) :
    x ∈ managedPairs cmds decision ↔
      (cmds ≠ [] ∧ x = codexManagedMarker) ∨ ∃ cmd ∈ cmds, x = codexRuleLine cmd decision := by
  unfold managedPairs
  simp only [List.mem_flatMap, List.mem_cons, List.mem_singleton, List.not_mem_nil, or_false]
  constructor
  · rintro ⟨cmd, hcmd, hx | hx⟩
    · exact Or.inl ⟨List.ne_nil_of_mem hcmd, hx⟩
    · exact Or.inr ⟨cmd, hcmd, hx⟩
  · rintro (⟨hne, hx⟩ | ⟨cmd, hcmd, hx⟩)
    · obtain ⟨cmd, hcmd⟩ := List.exists_mem_of_ne_nil cmds hne
      exact ⟨cmd, hcmd, Or.inl hx⟩
    · exact ⟨cmd, hcmd, Or.inr hx⟩

/-- Reading a rule file after a successful write of plain commands whose rule lines are
shorter than the token limit gives back the lists written; the call that reads may be
another one than the call that wrote. -/
theorem readCodexRules_after_write (J : JSONLib) (fs fs' : FS) (path : Str)
    (allow deny : List Str) (missingOK : Bool)
    (hallow : ∀ cmd ∈ allow, plainCommand cmd = true)
    (hdeny : ∀ cmd ∈ deny, plainCommand cmd = true)
    (hfita : ∀ cmd ∈ allow, fitsScanner (codexRuleLine cmd "allow".toList))
    (hfitd : ∀ cmd ∈ deny, fitsScanner (codexRuleLine cmd "forbidden".toList))
    (h : WriteCodexRules J fs path allow deny = .ok fs') (J' : JSONLib) :
    ReadCodexRules J' fs' path missingOK = .ok (allow, deny) := by
  obtain ⟨lines, _, hfile, hlines, _, _, hfits, _⟩ := writeCodexRules_ok J fs fs' path allow deny h
  rw [readCodexRules_present J' fs' path missingOK _ hfile]
  simp only [fileText]
  have hnone : scanErr (linesContent (codexLines (keepNonManaged false lines) allow deny))
      = none := by
    rw [scanErr_linesContent _ (codexLines_no_linefeed lines allow deny hlines hallow hdeny)]
    intro x hx
    unfold codexLines at hx
    rcases List.mem_append.1 hx with hx | hx
    · rcases List.mem_append.1 hx with hx | hx
      · exact hfits x (keepNonManaged_subset lines false x hx)
      · rcases (mem_managedPairs allow _ x).1 hx with ⟨_, rfl⟩ | ⟨cmd, hcmd, rfl⟩
        · unfold fitsScanner; decide
        · exact hfita cmd hcmd
    · rcases (mem_managedPairs deny _ x).1 hx with ⟨_, rfl⟩ | ⟨cmd, hcmd, rfl⟩
      · unfold fitsScanner; decide
      · exact hfitd cmd hcmd
  rw [hnone]
  simp only
  rw [readRuleLines_codexLines _ allow deny
    (fun l hl => ⟨keepNonManaged_not_marker lines false l hl,
      hlines l (keepNonManaged_subset lines false l hl)⟩) hallow hdeny]

/-- Reading a rule file after a successful write of plain commands of which one has a
rule line of 64 KiB or more fails with the error of the scanner. -/
theorem readCodexRules_after_long_write (J : JSONLib) (fs fs' : FS) (path : Str)
    (allow deny : List Str) (missingOK : Bool)
    (hallow : ∀ cmd ∈ allow, plainCommand cmd = true)
    (hdeny : ∀ cmd ∈ deny, plainCommand cmd = true)
    (hlong : (∃ cmd ∈ allow, maxScanTokenSize ≤ byteLen (codexRuleLine cmd "allow".toList)) ∨
      ∃ cmd ∈ deny, maxScanTokenSize ≤ byteLen (codexRuleLine cmd "forbidden".toList))
    (h : WriteCodexRules J fs path allow deny = .ok fs') (J' : JSONLib) :
    ReadCodexRules J' fs' path missingOK = .error .tooLong := by
  obtain ⟨lines, _, hfile, hlines, _, _, _, _⟩ := writeCodexRules_ok J fs fs' path allow deny h
  rw [readCodexRules_present J' fs' path missingOK _ hfile]
  simp only [fileText]
  have hmem : ∀ x ∈ codexLines (keepNonManaged false lines) allow deny,
      x ∈ splitOn '\n' (linesContent (codexLines (keepNonManaged false lines) allow deny)) :=
    fun x hx => (mem_splitOn_linesContent _
      (codexLines_no_linefeed lines allow deny hlines hallow hdeny) x).2 (Or.inl hx)
  have hsome : scanErr (linesContent (codexLines (keepNonManaged false lines) allow deny))
      = some .tooLong := by
    rcases hlong with ⟨cmd, hcmd, hlen⟩ | ⟨cmd, hcmd, hlen⟩
    · apply scanErr_tooLong _ _ (hmem _ _) hlen
      unfold codexLines
      exact List.mem_append_left _ (List.mem_append_right _
        ((mem_managedPairs allow _ _).2 (Or.inr ⟨cmd, hcmd, rfl⟩)))
    · apply scanErr_tooLong _ _ (hmem _ _) hlen
      unfold codexLines
      exact List.mem_append_right _ ((mem_managedPairs deny _ _).2 (Or.inr ⟨cmd, hcmd, rfl⟩))
  rw [hsome]

theorem byteLen_replicate (n : Nat) : byteLen (List.replicate n 'a') = n := by
  induction n with
  | zero => rfl
  | succ k ih =>
    have h1 : utf8Size 'a' = 1 := by decide
    rw [List.replicate_succ]
    unfold byteLen at ih ⊢
    rw [List.map_cons, List.sum_cons, ih, h1]
    omega

/-- A command that is one token of `n` letters `a`: it is a plain command, and the rule
line written for it has more than `n` bytes. -/
theorem letters_command (n : Nat) (hn : 0 < n) (decision : Str) :
    plainCommand (List.replicate n 'a') = true ∧
    n ≤ byteLen (codexRuleLine (List.replicate n 'a') decision) := by
  have hchars : ∀ c ∈ List.replicate n 'a', plainChar c = true := by
    intro c hc
    rw [List.eq_of_mem_replicate hc]
    decide
  have hne : List.replicate n 'a' ≠ [] := by
    intro h
    have := congrArg List.length h
    simp only [List.length_replicate, List.length_nil] at this
    omega
  have htok : plainToken (List.replicate n 'a') = true := by
    unfold plainToken
    simp only [Bool.and_eq_true, decide_eq_true_eq, List.all_eq_true]
    exact ⟨hne, hchars⟩
  have hsp : ' ' ∉ List.replicate n 'a' := by
    intro hc
    exact absurd (List.eq_of_mem_replicate hc) (by decide)
  refine ⟨?_, ?_⟩
  · unfold plainCommand
    rw [splitOn_of_not_mem ' ' _ hsp]
    simp [htok]
  · have hline := codexRuleLine_plain [List.replicate n 'a'] (by simp)
      (by intro t ht; rw [List.mem_singleton.1 ht]; exact htok) decision
    simp only [joinWith, List.map_cons, List.map_nil] at hline
    rw [hline]
    unfold quoteToken
    simp only [byteLen_append, byteLen_replicate]
    omega

theorem writeCodexRules_noFiles (J : JSONLib) (path : Str) (allow deny : List Str) :
    ∃ fs', WriteCodexRules J noFiles path allow deny = .ok fs' :=
  ⟨_, rfl⟩

/-- C4 (as stated, refuted). The command that is one token of 70000 letters `a` consists
of tokens without white space, quote character, backslash and closing bracket; written
as the one allow entry into a new rule file it gives a rule line of more than 64 KiB,
and `ReadCodexRules` after the successful `WriteCodexRules` fails with the error of the
scanner instead of returning the list written. -/
theorem codexRules_long_command_not_read :
    plainCommand longCommand = true ∧
    ∃ fs', WriteCodexRules noJSON noFiles "default.rules".toList [longCommand] [] = .ok fs' ∧
      ReadCodexRules noJSON fs' "default.rules".toList false = .error .tooLong := by
  have hfacts := letters_command 70000 (by decide) "allow".toList
  obtain ⟨fs', hw⟩ := writeCodexRules_noFiles noJSON "default.rules".toList [longCommand] []
  refine ⟨hfacts.1, fs', hw, ?_⟩
  apply readCodexRules_after_long_write noJSON noFiles fs' _ [longCommand] [] false _ _ _ hw
  · intro cmd hcmd
    rw [List.mem_singleton.1 hcmd]
    exact hfacts.1
  · intro cmd hcmd
    cases hcmd
  · refine Or.inl ⟨longCommand, by simp, ?_⟩
    have h1 : maxScanTokenSize ≤ 70000 := by decide
    exact le_trans h1 hfacts.2

/-- C4 (amended). Rule-file round trip: whatever the rule file held before (managed pairs
of any decision included), after a successful `WriteCodexRules` of allow and deny lists
whose commands are plain tokens separated by single spaces, if every rule line written
is shorter than 64 KiB, `ReadCodexRules` succeeds and returns exactly the allow list and
the deny list written, in order, and no rule managed before the write is returned; if a
rule line written has 64 KiB or more, `ReadCodexRules` fails with the error of the
scanner. -/
theorem codexRules_round_trip (J J' : JSONLib) (fs fs' : FS) (path : Str)
    (allow deny : List Str) (missingOK : Bool)
    (hallow : ∀ cmd ∈ allow, plainCommand cmd = true)
    (hdeny : ∀ cmd ∈ deny, plainCommand cmd = true)
    (h : WriteCodexRules J fs path allow deny = .ok fs') :
    ((∀ cmd ∈ allow, fitsScanner (codexRuleLine cmd "allow".toList)) →
      (∀ cmd ∈ deny, fitsScanner (codexRuleLine cmd "forbidden".toList)) →
      ReadCodexRules J' fs' path missingOK = .ok (allow, deny)) ∧
    (((∃ cmd ∈ allow, maxScanTokenSize ≤ byteLen (codexRuleLine cmd "allow".toList)) ∨
        ∃ cmd ∈ deny, maxScanTokenSize ≤ byteLen (codexRuleLine cmd "forbidden".toList)) →
      ReadCodexRules J' fs' path missingOK = .error .tooLong) :=
  ⟨fun hfita hfitd =>
      readCodexRules_after_write J fs fs' path allow deny missingOK hallow hdeny hfita hfitd h J',
    fun hlong =>
      readCodexRules_after_long_write J fs fs' path allow deny missingOK hallow hdeny hlong h J'⟩

theorem codexRules_round_trip_witness :
    (∀ cmd ∈ ["ls".toList, "git status".toList], plainCommand cmd = true) ∧
    (∀ cmd ∈ ["rm -rf".toList], plainCommand cmd = true) ∧
    (∀ cmd ∈ ["ls".toList, "git status".toList],
      fitsScanner (codexRuleLine cmd "allow".toList)) ∧
    (∀ cmd ∈ ["rm -rf".toList], fitsScanner (codexRuleLine cmd "forbidden".toList)) ∧
    ∃ fs', WriteCodexRules noJSON promptRuleFile "default.rules".toList
        ["ls".toList, "git status".toList] ["rm -rf".toList] = .ok fs' ∧
      ReadCodexRules noJSON fs' "default.rules".toList false
        = .ok (["ls".toList, "git status".toList], ["rm -rf".toList]) := by
  have hfita : ∀ cmd ∈ ["ls".toList, "git status".toList],
      fitsScanner (codexRuleLine cmd "allow".toList) := by
    unfold fitsScanner; decide
  have hfitd : ∀ cmd ∈ ["rm -rf".toList], fitsScanner (codexRuleLine cmd "forbidden".toList) := by
    unfold fitsScanner; decide
  exact ⟨by decide, by decide, hfita, hfitd, _, rfl,
    (codexRules_round_trip noJSON noJSON promptRuleFile _ "default.rules".toList
      ["ls".toList, "git status".toList] ["rm -rf".toList] false (by decide) (by decide)
      rfl).1 hfita hfitd⟩

/-- Where no marker line immediately follows a marker line, the lines the writer keeps
are the free lines. -/
theorem keepNonManaged_eq_freeLines (lines : List Str) :
    ∀ flag : Bool, noMarkerPair lines = true →
      (flag = true → ∀ l, lines.head? = some l → isMarkerLine l = false) →
      keepNonManaged flag lines = freeLines flag lines := by
  induction lines with
  | nil => intro flag _ _; cases flag <;> rfl
  | cons x rest ih =>
    intro flag hpair hhead
    have hrest : noMarkerPair rest = true := by
      cases rest with
      | nil => rfl
      | cons y rest2 =>
        simp only [noMarkerPair, Bool.and_eq_true] at hpair
        exact hpair.2
    have hnext : isMarkerLine x = true → ∀ l, rest.head? = some l → isMarkerLine l = false := by
      intro hx l hl
      cases rest with
      | nil => cases hl
      | cons y rest2 =>
        simp only [List.head?_cons, Option.some.injEq] at hl
        subst hl
        simp only [noMarkerPair, Bool.and_eq_true, Bool.not_eq_true', hx, Bool.true_and] at hpair
        exact hpair.1
    cases flag with
    | true =>
      have hx : isMarkerLine x = false := hhead rfl x rfl
      rw [keepNonManaged, freeLines]
      simp only [hx, Bool.false_eq_true, if_false, if_true]
      exact ih false hrest (fun h => by cases h)
    | false =>
      rw [keepNonManaged, freeLines]
      by_cases hx : isMarkerLine x = true
      · simp only [hx, if_true]
        exact ih true hrest (fun _ => hnext hx)
      · simp only [hx, Bool.false_eq_true, if_false]
        rw [ih false hrest (fun h => by cases h)]

/-- C9 (a defect of the code). In a rule file whose lines are two marker lines and then
a rule line, the rule line immediately follows a marker line: it is part of a managed
pair, it is not a free line, and `ReadCodexRules` does extract it as a managed rule. Yet
`WriteCodexRules`, here with empty allow and deny lists, keeps it: the file written
consists of this rule line, which has thereby become a free line. -/
theorem writeCodexRules_keeps_rule_after_two_markers :
    scanLines (linesContent twoMarkerLines) = twoMarkerLines ∧
    freeLines false twoMarkerLines = [] ∧
    keepNonManaged false twoMarkerLines = [codexRuleLine "rm".toList "allow".toList] ∧
    ReadCodexRules noJSON twoMarkerFile "default.rules".toList false
      = .ok (["rm".toList], []) ∧
    ∃ fs', WriteCodexRules noJSON twoMarkerFile "default.rules".toList [] [] = .ok fs' ∧
      fs'.file "default.rules".toList
        = .present (.text (linesContent [codexRuleLine "rm".toList "allow".toList])) :=
  ⟨by decide, by decide, by decide, by decide, _, rfl, rfl⟩

/-! ### The policy merger -/

theorem readSnapshots_of_readsSucceed (J : JSONLib) (fs : FS) (sortLists : Bool)
    (clients : List Client) (h : readsSucceed J fs clients) :
    readSnapshots J fs sortLists clients = .ok (snapshotsOf J fs sortLists clients) := by
  induction clients with
  | nil => rfl
  | cons c rest ih =>
    obtain ⟨r, hr⟩ := h c (by simp)
    have hrest := ih (fun d hd => h d (List.mem_cons_of_mem _ hd))
    obtain ⟨allow, deny⟩ := r
    unfold readSnapshots
    rw [hr]
    simp only [hrest]
    simp [snapshotsOf, ownPolicy, rawLists, hr]

theorem readSnapshots_ok_readsSucceed (J : JSONLib) (fs : FS) (sortLists : Bool)
    (clients : List Client) (snaps : List ClientSnapshot)
    (h : readSnapshots J fs sortLists clients = .ok snaps) : readsSucceed J fs clients := by
  induction clients generalizing snaps with
  | nil => intro c hc; cases hc
  | cons c rest ih =>
    unfold readSnapshots at h
    cases hr : readClient J fs c with
    | error e => rw [hr] at h; cases h
    | ok r =>
      obtain ⟨allow, deny⟩ := r
      rw [hr] at h
      simp only at h
      cases hs : readSnapshots J fs sortLists rest with
      | error e => rw [hs] at h; cases h
      | ok rs =>
        intro d hd
        rcases List.mem_cons.1 hd with rfl | hd
        · exact ⟨_, hr⟩
        · exact ih rs hs d hd

theorem mergeSnapshots_union (J : JSONLib) (fs : FS) (sortLists : Bool) (source : Str)
    (clients : List Client) :
    mergeSnapshots "union".toList source sortLists (snapshotsOf J fs sortLists clients)
      = .ok (unionPolicy J fs sortLists clients) := by
  unfold mergeSnapshots snapshotsOf unionPolicy
  simp [List.flatMap_map]

/-- The shape of `Run` once the read phase and the merge have succeeded. -/
theorem run_after_merge (J : JSONLib) (cfg : Config) (opts : Options) (fs : FS)
    (merged : Policy) (hreads : readsSucceed J fs cfg.clients)
    (hmerge : mergeSnapshots (if cfg.mode = [] then "union".toList else cfg.mode) cfg.source
      (cfg.sort.getD true) (snapshotsOf J fs (cfg.sort.getD true) cfg.clients) = .ok merged) :
    (opts.dryRun = true → Run J cfg opts fs = (.ok merged, fs)) ∧
    (opts.dryRun = false →
      Run J cfg opts fs
        = match writeSnapshots J merged (snapshotsOf J fs (cfg.sort.getD true) cfg.clients) fs with
          | (some e, fs1) => (.error e, fs1)
          | (none, fs1) => (.ok merged, fs1)) := by
  constructor
  · intro hdry
    unfold Run
    simp only [readSnapshots_of_readsSucceed J fs _ cfg.clients hreads, hmerge, hdry, if_true]
  · intro hdry
    unfold Run
    simp only [readSnapshots_of_readsSucceed J fs _ cfg.clients hreads, hmerge, hdry]
    rfl

/-- Once the reads and the merge have succeeded, a dry run returns the merged policy
and the untouched file system, and any run returns the merged policy unless a write
fails, in which case it returns the error of that write. -/
theorem run_result_of_merge (J : JSONLib) (cfg : Config) (opts : Options) (fs : FS)
    (merged : Policy) (hreads : readsSucceed J fs cfg.clients)
    (hmerge : mergeSnapshots (if cfg.mode = [] then "union".toList else cfg.mode) cfg.source
      (cfg.sort.getD true) (snapshotsOf J fs (cfg.sort.getD true) cfg.clients) = .ok merged) :
    (opts.dryRun = true → Run J cfg opts fs = (.ok merged, fs)) ∧
    ((Run J cfg opts fs).1 = .ok merged ∨
      ∃ e fs1, writeSnapshots J merged
          (snapshotsOf J fs (cfg.sort.getD true) cfg.clients) fs = (some e, fs1) ∧
        Run J cfg opts fs = (.error e, fs1)) := by
  obtain ⟨hdry, hwet⟩ := run_after_merge J cfg opts fs _ hreads hmerge
  refine ⟨hdry, ?_⟩
  cases hd : opts.dryRun with
  | true => left; rw [hdry hd]
  | false =>
    rw [hwet hd]
    cases hw : writeSnapshots J merged
        (snapshotsOf J fs (cfg.sort.getD true) cfg.clients) fs with
    | mk e? fs1 =>
      cases e? with
      | none => left; rfl
      | some e => right; exact ⟨e, fs1, rfl, rfl⟩

/-- C1 (as stated, refuted). With the two clients of the example, union mode, sorting
disabled and files that cannot be written, every client's read succeeds, yet a run that
is not a dry run returns an error (and so the empty policy), not the merged lists. -/
theorem run_union_write_failure :
    readClient noJSON (filesAB false) (lineClient "A".toList "a.allow".toList "a.deny".toList)
      = .ok (["x".toList], []) ∧
    readClient noJSON (filesAB false) (lineClient "B".toList "b.allow".toList "b.deny".toList)
      = .ok (["y".toList, "x".toList], []) ∧
    (Run noJSON unionAB ⟨false⟩ (filesAB false)).1
      = .error (.client "A".toList "allow write".toList (.ioError "a.allow".toList)) := by
  refine ⟨by decide, by decide, by decide⟩

/-- C1 (amended). In union mode (mode `union` or the empty string), whenever every
client's read succeeds, a dry run returns the policy whose allow list is the
normalization of the concatenation, in client-declaration order, of each client's own
normalized allow list, and likewise for deny, and leaves the files alone; a run that is
not a dry run returns that same policy unless a write fails, in which case it returns the
error of that write. -/
theorem run_union (J : JSONLib) (cfg : Config) (opts : Options) (fs : FS)
    (hmode : cfg.mode = "union".toList ∨ cfg.mode = [])
    (hreads : readsSucceed J fs cfg.clients) :
    (opts.dryRun = true →
      Run J cfg opts fs = (.ok (unionPolicy J fs (cfg.sort.getD true) cfg.clients), fs)) ∧
    ((Run J cfg opts fs).1 = .ok (unionPolicy J fs (cfg.sort.getD true) cfg.clients) ∨
      ∃ e fs1, writeSnapshots J (unionPolicy J fs (cfg.sort.getD true) cfg.clients)
          (snapshotsOf J fs (cfg.sort.getD true) cfg.clients) fs = (some e, fs1) ∧
        Run J cfg opts fs = (.error e, fs1)) := by
  have hmerge : mergeSnapshots (if cfg.mode = [] then "union".toList else cfg.mode) cfg.source
      (cfg.sort.getD true) (snapshotsOf J fs (cfg.sort.getD true) cfg.clients)
      = .ok (unionPolicy J fs (cfg.sort.getD true) cfg.clients) := by
    have hm : (if cfg.mode = [] then "union".toList else cfg.mode) = "union".toList := by
      rcases hmode with h | h <;> simp [h]
    rw [hm]
    exact mergeSnapshots_union J fs _ cfg.source cfg.clients
  exact run_result_of_merge J cfg opts fs _ hreads hmerge

theorem run_union_witness :
    (unionAB.mode = "union".toList ∨ unionAB.mode = []) ∧
    readsSucceed noJSON (filesAB true) unionAB.clients ∧
    (Run noJSON unionAB ⟨true⟩ (filesAB true)).1
      = .ok ⟨["x".toList, "y".toList], []⟩ ∧
    (Run noJSON unionAB ⟨false⟩ (filesAB true)).1
      = .ok ⟨["x".toList, "y".toList], []⟩ := by
  have hreads : readsSucceed noJSON (filesAB true) unionAB.clients := by
    intro c hc
    simp only [unionAB, clientsAB, List.mem_cons, List.mem_singleton, List.not_mem_nil,
      or_false] at hc
    rcases hc with rfl | rfl
    · exact ⟨(["x".toList], []), by decide⟩
    · exact ⟨(["y".toList, "x".toList], []), by decide⟩
  refine ⟨Or.inl rfl, hreads, ?_, by decide⟩
  rw [(run_union noJSON unionAB ⟨true⟩ (filesAB true) (Or.inl rfl) hreads).1 rfl]
  decide

theorem readFile_congr (fs1 fs2 : FS) (path : Str) (h : fs1.file path = fs2.file path) :
    readFile fs1 path = readFile fs2 path := by
  unfold readFile
  rw [h]

theorem readJSONKey_congr (J : JSONLib) (fs1 fs2 : FS) (path key : Str) (missingOK : Bool)
    (h : fs1.file path = fs2.file path) :
    ReadJSONKey J fs1 path missingOK key = ReadJSONKey J fs2 path missingOK key := by
  unfold ReadJSONKey readJSONObject
  rw [readFile_congr fs1 fs2 path h]

theorem readJSONBoolMap_congr (J : JSONLib) (fs1 fs2 : FS) (path key : Str)
    (missingOK : Bool) (h : fs1.file path = fs2.file path) :
    ReadJSONBoolMap J fs1 path missingOK key = ReadJSONBoolMap J fs2 path missingOK key := by
  unfold ReadJSONBoolMap readJSONObject
  rw [readFile_congr fs1 fs2 path h]

theorem readCodexRules_congr (J : JSONLib) (fs1 fs2 : FS) (path : Str) (missingOK : Bool)
    (h : fs1.file path = fs2.file path) :
    ReadCodexRules J fs1 path missingOK = ReadCodexRules J fs2 path missingOK := by
  unfold ReadCodexRules readOrMissing
  rw [readFile_congr fs1 fs2 path h]

theorem listFormat_read_congr (J : JSONLib) (f : ListFormat) (fs1 fs2 : FS) (path : Str)
    (missingOK : Bool) (h : fs1.file path = fs2.file path) :
    f.read J fs1 path missingOK = f.read J fs2 path missingOK := by
  unfold ListFormat.read readOrMissing
  rw [readFile_congr fs1 fs2 path h]

/-- What `Run` reads for a client depends on the file system only through the client's
allow path and deny path. -/
theorem readClient_congr (J : JSONLib) (fs1 fs2 : FS) (c : Client)
    (ha : fs1.file c.allowPath = fs2.file c.allowPath)
    (hd : fs1.file c.denyPath = fs2.file c.denyPath) :
    readClient J fs1 c = readClient J fs2 c := by
  have hp : fs1.file (primaryPath c) = fs2.file (primaryPath c) := by
    unfold primaryPath
    by_cases h : c.allowPath = []
    · rw [if_pos h]; exact hd
    · rw [if_neg h]; exact ha
  unfold readClient
  simp only [readJSONKey_congr J fs1 fs2 _ _ _ hp, readJSONBoolMap_congr J fs1 fs2 _ _ _ hp,
    readCodexRules_congr J fs1 fs2 _ _ hp, listFormat_read_congr J _ fs1 fs2 _ _ ha,
    listFormat_read_congr J _ fs1 fs2 _ _ hd]

/-! ### Two calls: the order of the loops over maps -/

theorem splitBoolMap_eq_filterMap (o : Obj) :
    splitBoolMap o = (o.filterMap trueKey, o.filterMap falseKey) := by
  induction o with
  | nil => rfl
  | cons kv rest ih =>
    obtain ⟨k, v⟩ := kv
    cases v with
    | bool b => cases b <;> simp [splitBoolMap, ih, trueKey, falseKey]
    | null => simp [splitBoolMap, ih, trueKey, falseKey]
    | num x => simp [splitBoolMap, ih, trueKey, falseKey]
    | str x => simp [splitBoolMap, ih, trueKey, falseKey]
    | arr x => simp [splitBoolMap, ih, trueKey, falseKey]
    | obj x => simp [splitBoolMap, ih, trueKey, falseKey]

/-- The order in which the loop walks the map changes only the order of the keys it
returns. -/
theorem splitBoolMap_perm (o o' : Obj) (h : o.Perm o') :
    (splitBoolMap o).1.Perm (splitBoolMap o').1 ∧ (splitBoolMap o).2.Perm (splitBoolMap o').2 := by
  rw [splitBoolMap_eq_filterMap, splitBoolMap_eq_filterMap]
  exact ⟨h.filterMap _, h.filterMap _⟩

/-- Two calls of `ReadJSONBoolMap` on one file may return the keys in different orders:
the loop over the map visits the entries in an order that Go does not fix. -/
theorem readJSONBoolMap_order_varies :
    sameLibrary noJSON reversedJSON ∧
    ReadJSONBoolMap noJSON boolMapFile "perms.json".toList false "autoApprove".toList
      = .ok (["a".toList, "b".toList], []) ∧
    ReadJSONBoolMap reversedJSON boolMapFile "perms.json".toList false "autoApprove".toList
      = .ok (["b".toList, "a".toList], []) :=
  ⟨⟨rfl, rfl⟩, by rfl, by rfl⟩

theorem sameUpToOrder_refl (r : Except Err (List Str × List Str)) : sameUpToOrder r r := by
  cases r with
  | error e => rfl
  | ok a => exact ⟨List.Perm.refl _, List.Perm.refl _⟩

theorem sameUpToOrder_wrapErr (name what : Str) (r r2 : Except Err (List Str × List Str))
    (h : sameUpToOrder r r2) : sameUpToOrder (wrapErr name what r) (wrapErr name what r2) := by
  cases r with
  | error e =>
    cases r2 with
    | error e2 =>
      have he : e = e2 := h
      rw [he]
      exact sameUpToOrder_refl _
    | ok b => exact absurd h id
  | ok a =>
    cases r2 with
    | error e2 => exact absurd h id
    | ok b => exact h

theorem readJSONBoolMap_sameLibrary (J J2 : JSONLib) (h : sameLibrary J J2) (fs : FS)
    (path key : Str) (missingOK : Bool) :
    sameUpToOrder (ReadJSONBoolMap J fs path missingOK key)
      (ReadJSONBoolMap J2 fs path missingOK key) := by
  obtain ⟨u, m, r, hr⟩ := J
  obtain ⟨u2, m2, r2, hr2⟩ := J2
  obtain ⟨hu, hm⟩ := h
  simp only at hu hm
  subst hu
  subst hm
  have hobj : readJSONObject ⟨u2, m2, r2, hr2⟩ fs path missingOK
      = readJSONObject ⟨u2, m2, r, hr⟩ fs path missingOK := rfl
  unfold ReadJSONBoolMap
  rw [hobj]
  cases readJSONObject ⟨u2, m2, r, hr⟩ fs path missingOK with
  | error e => rfl
  | ok root? =>
    cases root? with
    | none => exact sameUpToOrder_refl _
    | some root =>
      simp only
      cases getJSONPath root key with
      | error e => rfl
      | ok v? =>
        cases v? with
        | none => exact sameUpToOrder_refl _
        | some v =>
          cases v with
          | obj fields =>
            exact splitBoolMap_perm _ _ ((hr fields).trans (hr2 fields).symm)
          | null => rfl
          | bool b => rfl
          | num x => rfl
          | str x => rfl
          | arr x => rfl

/-- What two calls with the same library read for a client from one file system: the
same outcome unless the client is a Boolean-map client, and then the same outcome up to
the order of the entries. -/
theorem readClient_sameLibrary (J J2 : JSONLib) (h : sameLibrary J J2) (fs : FS) (c : Client) :
    sameUpToOrder (readClient J fs c) (readClient J2 fs c) ∧
    (toLower c.format ≠ "json-bool-map".toList → readClient J2 fs c = readClient J fs c) := by
  have hbool := readJSONBoolMap_sameLibrary J J2 h fs (primaryPath c) c.allowKey c.missingOK
  obtain ⟨u, m, r, hr⟩ := J
  obtain ⟨u2, m2, r2, hr2⟩ := J2
  obtain ⟨hu, hm⟩ := h
  simp only at hu hm
  subst hu
  subst hm
  by_cases h2 : toLower c.format = "json-bool-map".toList
  · refine ⟨?_, fun hne => absurd h2 hne⟩
    have e1 : ¬ toLower c.format = "json-object".toList := by rw [h2]; decide
    unfold readClient
    simp only
    rw [if_neg e1, if_neg e1, if_pos h2, if_pos h2]
    by_cases hp : primaryPath c = []
    · rw [if_pos hp, if_pos hp]
      rfl
    · rw [if_neg hp, if_neg hp]
      by_cases hk : c.allowKey = []
      · rw [if_pos hk, if_pos hk]
        rfl
      · rw [if_neg hk, if_neg hk]
        exact sameUpToOrder_wrapErr _ _ _ _ hbool
  · have heq : readClient ⟨u2, m2, r2, hr2⟩ fs c = readClient ⟨u2, m2, r, hr⟩ fs c := by
      unfold readClient
      simp only
      by_cases h1 : toLower c.format = "json-object".toList
      · rw [if_pos h1, if_pos h1]
        rfl
      · rw [if_neg h1, if_neg h1, if_neg h2, if_neg h2]
        rfl
    exact ⟨by rw [heq]; exact sameUpToOrder_refl _, fun _ => heq⟩

/-- Lists with the same entries normalize to rearrangements of one list, and to one
list when sorting is enabled. -/
theorem normalize_same_entries (l l2 : List Str) (h : ∀ e, e ∈ l ↔ e ∈ l2) (s : Bool) :
    (Normalize l s).Perm (Normalize l2 s) ∧ Normalize l true = Normalize l2 true := by
  have hmem : ∀ (t : Bool) (e : Str), e ∈ Normalize l t ↔ e ∈ Normalize l2 t := by
    intro t e
    rw [mem_normalize, mem_normalize]
    constructor
    · rintro ⟨hne, v, hv, hve⟩
      exact ⟨hne, v, (h v).1 hv, hve⟩
    · rintro ⟨hne, v, hv, hve⟩
      exact ⟨hne, v, (h v).2 hv, hve⟩
  have hperm : ∀ t : Bool, (Normalize l t).Perm (Normalize l2 t) := fun t =>
    (List.perm_ext_iff_of_nodup (nodup_normalize l t) (nodup_normalize l2 t)).2 (hmem t)
  refine ⟨hperm s, ?_⟩
  have h1 : (Normalize l true).Sorted (fun a b => a ≤ b) := by
    rw [normalize_sorted]; exact sortStrings_sorted _
  have h2 : (Normalize l2 true).Sorted (fun a b => a ≤ b) := by
    rw [normalize_sorted]; exact sortStrings_sorted _
  exact List.eq_of_perm_of_sorted (hperm true) h1 h2

/-- The normalized policy of a client from two outcomes of reading it that differ at
most in the order of the entries. -/
theorem ownPolicy_sameUpToOrder (J J2 : JSONLib) (fs fs2 : FS) (sortLists : Bool) (c : Client)
    (h : sameUpToOrder (readClient J fs c) (readClient J2 fs2 c)) :
    (ownPolicy J fs sortLists c).allow.Perm (ownPolicy J2 fs2 sortLists c).allow ∧
    (ownPolicy J fs sortLists c).deny.Perm (ownPolicy J2 fs2 sortLists c).deny ∧
    (sortLists = true → ownPolicy J fs sortLists c = ownPolicy J2 fs2 sortLists c) := by
  have hraw : (rawLists J fs c).1.Perm (rawLists J2 fs2 c).1 ∧
      (rawLists J fs c).2.Perm (rawLists J2 fs2 c).2 := by
    unfold rawLists
    cases h1 : readClient J fs c with
    | error e =>
      cases h2 : readClient J2 fs2 c with
      | error e2 => exact ⟨List.Perm.refl _, List.Perm.refl _⟩
      | ok b => rw [h1, h2] at h; exact absurd h id
    | ok a =>
      cases h2 : readClient J2 fs2 c with
      | error e2 => rw [h1, h2] at h; exact absurd h id
      | ok b => rw [h1, h2] at h; exact h
  obtain ⟨ha, hd⟩ := hraw
  have hna := normalize_same_entries _ _ (fun e => ha.mem_iff) sortLists
  have hnd := normalize_same_entries _ _ (fun e => hd.mem_iff) sortLists
  refine ⟨hna.1, hnd.1, ?_⟩
  intro hs
  subst hs
  unfold ownPolicy
  rw [hna.2, hnd.2]

theorem findSource_snapshotsOf (J : JSONLib) (fs : FS) (sortLists : Bool) (source : Str)
    (clients : List Client) :
    findSource source (snapshotsOf J fs sortLists clients)
      = (clients.find? (fun c => decide (c.name = source))).map (ownPolicy J fs sortLists) := by
  unfold snapshotsOf
  induction clients with
  | nil => rfl
  | cons c rest ih =>
    simp only [List.map_cons, findSource, List.find?_cons]
    by_cases h : c.name = source
    · simp [h]
    · simp [h, ih]

theorem mergeSnapshots_authoritative (J : JSONLib) (fs : FS) (sortLists : Bool)
    (source : Str) (clients : List Client) (src : Client) (hsource : source ≠ [])
    (hsrc : clients.find? (fun c => decide (c.name = source)) = some src) :
    mergeSnapshots "authoritative".toList source sortLists
        (snapshotsOf J fs sortLists clients)
      = .ok (ownPolicy J fs sortLists src) := by
  have hne : ¬ "authoritative".toList = "union".toList := by decide
  unfold mergeSnapshots
  rw [if_neg hne, if_pos rfl, if_neg hsource, findSource_snapshotsOf, hsrc]
  rfl

/-- C2 (as stated, refuted). Two file system states that agree on both files of the
source client `a`: in the first, where the files of `b` exist, the dry run returns the
lists of `a`; in the second, where the files of `b` are missing, the same run fails. -/
theorem run_authoritative_depends_on_other_reads :
    (filesAuthoritative true).file "a.allow".toList
      = (filesAuthoritative false).file "a.allow".toList ∧
    (filesAuthoritative true).file "a.deny".toList
      = (filesAuthoritative false).file "a.deny".toList ∧
    (Run noJSON authoritativeAB ⟨true⟩ (filesAuthoritative true)).1
      = .ok ⟨["A".toList], ["X".toList]⟩ ∧
    (Run noJSON authoritativeAB ⟨true⟩ (filesAuthoritative false)).1
      = .error (.client "b".toList "allow".toList (.notExist "b.allow".toList)) := by
  refine ⟨rfl, rfl, by decide, by decide⟩

/-- C2 (amended). In authoritative mode with a non-empty source that names a declared
client, whenever every client's read succeeds, a dry run returns exactly the normalized
allow and deny lists of the first client with that name, and a run that is not a dry run
returns them unless a write fails. The policy returned is independent of the other
clients' content: for any second call and any second file system state that agrees with
the first on the source client's allow path and deny path, whenever both runs return a
policy, the two policies have the same entries, and they are the same policy when
sorting is enabled or the source client is no Boolean-map client (the order in which a
Boolean map is walked may differ from one call to the next). -/
theorem run_authoritative (J : JSONLib) (cfg : Config) (opts : Options) (fs : FS)
    (src : Client) (hmode : cfg.mode = "authoritative".toList) (hsource : cfg.source ≠ [])
    (hsrc : cfg.clients.find? (fun c => decide (c.name = cfg.source)) = some src)
    (hreads : readsSucceed J fs cfg.clients) :
    (opts.dryRun = true →
      Run J cfg opts fs = (.ok (ownPolicy J fs (cfg.sort.getD true) src), fs)) ∧
    ((Run J cfg opts fs).1 = .ok (ownPolicy J fs (cfg.sort.getD true) src) ∨
      ∃ e fs1, writeSnapshots J (ownPolicy J fs (cfg.sort.getD true) src)
          (snapshotsOf J fs (cfg.sort.getD true) cfg.clients) fs = (some e, fs1) ∧
        Run J cfg opts fs = (.error e, fs1)) ∧
    (∀ (J2 : JSONLib) (fs2 : FS) (opts2 : Options) (p p2 : Policy), sameLibrary J J2 →
      fs2.file src.allowPath = fs.file src.allowPath →
      fs2.file src.denyPath = fs.file src.denyPath →
      (Run J cfg opts fs).1 = .ok p → (Run J2 cfg opts2 fs2).1 = .ok p2 →
      p.allow.Perm p2.allow ∧ p.deny.Perm p2.deny ∧
        ((cfg.sort.getD true = true ∨ toLower src.format ≠ "json-bool-map".toList) →
          p = p2)) := by
  have hm : (if cfg.mode = [] then "union".toList else cfg.mode) = "authoritative".toList := by
    rw [hmode]; decide
  have hmerge : ∀ (J0 : JSONLib) (fs0 : FS),
      mergeSnapshots (if cfg.mode = [] then "union".toList else cfg.mode) cfg.source
        (cfg.sort.getD true) (snapshotsOf J0 fs0 (cfg.sort.getD true) cfg.clients)
      = .ok (ownPolicy J0 fs0 (cfg.sort.getD true) src) := by
    intro J0 fs0
    rw [hm]
    exact mergeSnapshots_authoritative J0 fs0 _ cfg.source cfg.clients src hsource hsrc
  have hresult : ∀ (J0 : JSONLib) (fs0 : FS) (opts0 : Options) (q : Policy),
      (Run J0 cfg opts0 fs0).1 = .ok q → q = ownPolicy J0 fs0 (cfg.sort.getD true) src := by
    intro J0 fs0 opts0 q hq
    have hreads0 : readsSucceed J0 fs0 cfg.clients := by
      unfold Run at hq
      cases hr : readSnapshots J0 fs0 (cfg.sort.getD true) cfg.clients with
      | error e => simp [hr] at hq
      | ok snaps => exact readSnapshots_ok_readsSucceed J0 fs0 _ _ snaps hr
    rcases (run_result_of_merge J0 cfg opts0 fs0 _ hreads0 (hmerge J0 fs0)).2
      with h | ⟨e, fs1, _, h⟩
    · rw [h] at hq
      simp only [Except.ok.injEq] at hq
      exact hq.symm
    · rw [h] at hq
      cases hq
  obtain ⟨hdry, hwet⟩ := run_result_of_merge J cfg opts fs _ hreads (hmerge J fs)
  refine ⟨hdry, hwet, ?_⟩
  intro J2 fs2 opts2 p p2 hlib ha hd hp hp2
  rw [hresult J fs opts p hp, hresult J2 fs2 opts2 p2 hp2]
  have hcongr : readClient J2 fs2 src = readClient J2 fs src := readClient_congr J2 fs2 fs src ha hd
  obtain ⟨hsame, hequal⟩ := readClient_sameLibrary J J2 hlib fs src
  rw [← hcongr] at hsame
  obtain ⟨hpa, hpd, hsorted⟩ := ownPolicy_sameUpToOrder J J2 fs fs2 (cfg.sort.getD true) src hsame
  refine ⟨hpa, hpd, ?_⟩
  rintro (hs | hfmt)
  · exact hsorted hs
  · unfold ownPolicy rawLists
    rw [hcongr, hequal hfmt]

theorem run_authoritative_witness :
    authoritativeAB.mode = "authoritative".toList ∧ authoritativeAB.source ≠ [] ∧
    readsSucceed noJSON (filesAuthoritative true) authoritativeAB.clients ∧
    (Run noJSON authoritativeAB ⟨true⟩ (filesAuthoritative true)).1
      = .ok ⟨["A".toList], ["X".toList]⟩ := by
  have hreads : readsSucceed noJSON (filesAuthoritative true) authoritativeAB.clients := by
    intro c hc
    simp only [authoritativeAB, List.mem_cons, List.mem_singleton, List.not_mem_nil,
      or_false] at hc
    rcases hc with rfl | rfl
    · exact ⟨(["A".toList], ["X".toList]), by decide⟩
    · exact ⟨(["B".toList], ["Y".toList]), by decide⟩
  refine ⟨rfl, by decide, hreads, ?_⟩
  rw [(run_authoritative noJSON authoritativeAB ⟨true⟩ (filesAuthoritative true)
    (strictClient "a".toList "a.allow".toList "a.deny".toList) rfl (by decide) rfl
    hreads).1 rfl]
  decide

/-! ### The write phase: what a write leaves alone -/

theorem writeStep_none (name what : Str) (fs fs1 : FS) (r : Except Err FS)
    (h : writeStep name what fs r = (none, fs1)) : r = .ok fs1 := by
  cases r with
  | error e => simp [writeStep] at h
  | ok f =>
    simp only [writeStep, Prod.mk.injEq, true_and] at h
    rw [h]

theorem onlyWrites_refl (fs : FS) (paths : List Str) : onlyWrites fs fs paths :=
  ⟨rfl, fun _ _ => rfl⟩

theorem onlyWrites_trans (fs fs1 fs2 : FS) (paths : List Str)
    (h1 : onlyWrites fs fs1 paths) (h2 : onlyWrites fs1 fs2 paths) :
    onlyWrites fs fs2 paths := by
  refine ⟨h2.1.trans h1.1, fun q hq => ?_⟩
  rw [h2.2 q (by rw [h1.1]; exact hq), h1.2 q hq]

theorem onlyWrites_mono (fs fs' : FS) (paths more : List Str) (hsub : ∀ p ∈ paths, p ∈ more)
    (h : onlyWrites fs fs' paths) : onlyWrites fs fs' more :=
  ⟨h.1, fun q hq => h.2 q (fun p hp => hq p (hsub p hp))⟩

theorem writeFile_onlyWrites (fs fs' : FS) (path : Str) (data : FileData)
    (h : writeFile fs path data = .ok fs') : onlyWrites fs fs' [path] :=
  ⟨writeFile_ident fs fs' path data h,
    fun q hq => (writeFile_ok fs fs' path data h).2.1 q (hq path (by simp))⟩

theorem writeJSONValue_onlyWrites (J : JSONLib) (fs fs' : FS) (path key : Str) (value : JSON)
    (h : writeJSONValue J fs path key value = .ok fs') : onlyWrites fs fs' [path] := by
  obtain ⟨_, _, _, _, hwrite⟩ := writeJSONValue_ok J fs fs' path key value h
  exact writeFile_onlyWrites fs fs' path _ hwrite

theorem writeCodexRules_onlyWrites (J : JSONLib) (fs fs' : FS) (path : Str)
    (allow deny : List Str) (h : WriteCodexRules J fs path allow deny = .ok fs') :
    onlyWrites fs fs' [path] := by
  obtain ⟨_, _, _, _, hother, _, _, hident⟩ := writeCodexRules_ok J fs fs' path allow deny h
  exact ⟨hident, fun q hq => hother q (hq path (by simp))⟩

theorem listFormat_write_onlyWrites (f : ListFormat) (fs fs' : FS) (path : Str)
    (values : Option (List Str)) (h : f.write fs path values = .ok fs') :
    onlyWrites fs fs' [path] :=
  writeFile_onlyWrites fs fs' path _ h

theorem writeStep_onlyWrites (name what : Str) (paths : List Str) (fs fs1 : FS)
    (r : Except Err FS) (e? : Option Err)
    (hr : ∀ f, r = .ok f → onlyWrites fs f paths)
    (h : writeStep name what fs r = (e?, fs1)) : onlyWrites fs fs1 paths := by
  cases r with
  | error e =>
    simp only [writeStep, Prod.mk.injEq] at h
    rw [← h.2]
    exact onlyWrites_refl fs paths
  | ok f =>
    simp only [writeStep, Prod.mk.injEq] at h
    rw [← h.2]
    exact hr f rfl

theorem writeJSONValue_frame (J : JSONLib) (fs fs' : FS) (path key : Str) (value : JSON)
    (h : writeJSONValue J fs path key value = .ok fs') :
    ∀ q, fs.ident q ≠ fs.ident path → fs'.file q = fs.file q := by
  obtain ⟨_, _, _, _, _, _, hother, _⟩ := writeJSONValue_result J fs fs' path key value h
  exact hother

theorem writeCodexRules_frame (J : JSONLib) (fs fs' : FS) (path : Str) (allow deny : List Str)
    (h : WriteCodexRules J fs path allow deny = .ok fs') :
    ∀ q, fs.ident q ≠ fs.ident path → fs'.file q = fs.file q := by
  obtain ⟨_, _, _, _, hother, _⟩ := writeCodexRules_ok J fs fs' path allow deny h
  exact hother

theorem listFormat_write_ok (f : ListFormat) (fs fs' : FS) (path : Str)
    (values : Option (List Str)) (h : f.write fs path values = .ok fs') :
    (∀ q, fs.ident q ≠ fs.ident path → fs'.file q = fs.file q) ∧
    fs'.file path = .present (f.content values) := by
  obtain ⟨hfile, hother, _⟩ := writeFile_ok fs fs' path _ h
  exact ⟨hother, hfile⟩

theorem clientPaths_single (c : Client) (h : singleFile c = true) :
    clientPaths c = [primaryPath c] := by
  unfold clientPaths
  rw [if_pos h]

theorem clientPaths_list (c : Client) (h : singleFile c = false) :
    clientPaths c = [c.allowPath, c.denyPath] := by
  unfold clientPaths
  rw [if_neg (by simp [h])]

/-- The write of one client changes no file other than those the client's paths name,
whether it succeeds or fails. -/
theorem writeClient_onlyWrites (J : JSONLib) (merged : Policy) (c : Client) (fs fs1 : FS)
    (e? : Option Err) (h : writeClient J merged c fs = (e?, fs1)) :
    onlyWrites fs fs1 (clientPaths c) := by
  unfold writeClient at h
  simp only at h
  by_cases h1 : toLower c.format = "json-object".toList
  · have hs : singleFile c = true := by simp [singleFile, h1]
    rw [clientPaths_single c hs]
    rw [if_pos h1] at h
    by_cases hp : primaryPath c = []
    · rw [if_pos hp] at h
      simp only [Prod.mk.injEq] at h
      rw [← h.2]
      exact onlyWrites_refl _ _
    · rw [if_neg hp] at h
      cases hfirst : (if c.allowKey = [] then ((none : Option Err), fs)
          else writeStep c.name "allow write".toList fs
            (WriteJSONKey J fs (primaryPath c) c.allowKey (some merged.allow))) with
      | mk e1 fsa =>
        rw [hfirst] at h
        have hframe1 : onlyWrites fs fsa [primaryPath c] := by
          by_cases hk : c.allowKey = []
          · rw [if_pos hk] at hfirst
            simp only [Prod.mk.injEq] at hfirst
            rw [← hfirst.2]
            exact onlyWrites_refl _ _
          · rw [if_neg hk] at hfirst
            exact writeStep_onlyWrites _ _ _ fs fsa _ e1
              (fun f hf => writeJSONValue_onlyWrites J fs f _ _ _ hf) hfirst
        cases e1 with
        | some e =>
          simp only [Prod.mk.injEq] at h
          rw [← h.2]
          exact hframe1
        | none =>
          simp only at h
          by_cases hk : c.denyKey = []
          · rw [if_pos hk] at h
            simp only [Prod.mk.injEq] at h
            rw [← h.2]
            exact hframe1
          · rw [if_neg hk] at h
            exact onlyWrites_trans fs fsa fs1 _ hframe1
              (writeStep_onlyWrites _ _ _ fsa fs1 _ e?
                (fun f hf => writeJSONValue_onlyWrites J fsa f _ _ _ hf) h)
  · rw [if_neg h1] at h
    by_cases h2 : toLower c.format = "json-bool-map".toList
    · have hs : singleFile c = true := by simp [singleFile, h2]
      rw [clientPaths_single c hs]
      rw [if_pos h2] at h
      by_cases hp : primaryPath c = []
      · rw [if_pos hp] at h
        simp only [Prod.mk.injEq] at h
        rw [← h.2]
        exact onlyWrites_refl _ _
      · rw [if_neg hp] at h
        by_cases hk : c.allowKey = []
        · rw [if_pos hk] at h
          simp only [Prod.mk.injEq] at h
          rw [← h.2]
          exact onlyWrites_refl _ _
        · rw [if_neg hk] at h
          exact writeStep_onlyWrites _ _ _ fs fs1 _ e?
            (fun f hf => writeJSONValue_onlyWrites J fs f _ _ _ hf) h
    · rw [if_neg h2] at h
      by_cases h3 : toLower c.format = "codex-rules".toList
      · have hs : singleFile c = true := by simp [singleFile, h3]
        rw [clientPaths_single c hs]
        rw [if_pos h3] at h
        by_cases hp : primaryPath c = []
        · rw [if_pos hp] at h
          simp only [Prod.mk.injEq] at h
          rw [← h.2]
          exact onlyWrites_refl _ _
        · rw [if_neg hp] at h
          exact writeStep_onlyWrites _ _ _ fs fs1 _ e?
            (fun f hf => writeCodexRules_onlyWrites J fs f _ _ _ hf) h
      · have hs : singleFile c = false := by
          unfold singleFile
          rw [decide_eq_false h1, decide_eq_false h2, decide_eq_false h3]
          rfl
        rw [clientPaths_list c hs]
        rw [if_neg h3] at h
        cases hf : ListFormat.new c.format with
        | error e =>
          rw [hf] at h
          simp only [Prod.mk.injEq] at h
          rw [← h.2]
          exact onlyWrites_refl _ _
        | ok fmtter =>
          rw [hf] at h
          simp only at h
          cases hfirst : writeStep c.name "allow write".toList fs
              (fmtter.write fs c.allowPath (some merged.allow)) with
          | mk e1 fsa =>
            rw [hfirst] at h
            have hframe1 : onlyWrites fs fsa [c.allowPath, c.denyPath] :=
              writeStep_onlyWrites _ _ _ fs fsa _ e1
                (fun f hw => onlyWrites_mono fs f [c.allowPath] _ (by simp)
                  (listFormat_write_onlyWrites fmtter fs f _ _ hw)) hfirst
            cases e1 with
            | some e =>
              simp only [Prod.mk.injEq] at h
              rw [← h.2]
              exact hframe1
            | none =>
              simp only at h
              exact onlyWrites_trans fs fsa fs1 _ hframe1
                (writeStep_onlyWrites _ _ _ fsa fs1 _ e?
                  (fun f hw => onlyWrites_mono fsa f [c.denyPath] _ (by simp)
                    (listFormat_write_onlyWrites fmtter fsa f _ _ hw)) h)

/-- What `Run` reads for a client depends on the file system only through the
client's paths. -/
theorem readClient_congr_paths (J : JSONLib) (fs1 fs2 : FS) (c : Client)
    (h : ∀ p ∈ clientPaths c, fs1.file p = fs2.file p) :
    readClient J fs1 c = readClient J fs2 c := by
  by_cases hs : singleFile c = true
  · have hp : fs1.file (primaryPath c) = fs2.file (primaryPath c) :=
      h _ (by unfold clientPaths; rw [if_pos hs]; simp)
    have hfmt : toLower c.format = "json-object".toList ∨
        toLower c.format = "json-bool-map".toList ∨
        toLower c.format = "codex-rules".toList := by
      unfold singleFile at hs
      simp only [Bool.or_eq_true, decide_eq_true_eq] at hs
      tauto
    unfold readClient
    simp only [readJSONKey_congr J fs1 fs2 _ _ _ hp, readJSONBoolMap_congr J fs1 fs2 _ _ _ hp,
      readCodexRules_congr J fs1 fs2 _ _ hp]
    rcases hfmt with h1 | h1 | h1
    · rw [if_pos h1, if_pos h1]
    · have e1 : ¬ toLower c.format = "json-object".toList := by rw [h1]; decide
      rw [if_neg e1, if_neg e1, if_pos h1, if_pos h1]
    · have e1 : ¬ toLower c.format = "json-object".toList := by rw [h1]; decide
      have e2 : ¬ toLower c.format = "json-bool-map".toList := by rw [h1]; decide
      rw [if_neg e1, if_neg e1, if_neg e2, if_neg e2, if_pos h1, if_pos h1]
  · have hpaths : clientPaths c = [c.allowPath, c.denyPath] := by
      unfold clientPaths
      rw [if_neg hs]
    exact readClient_congr J fs1 fs2 c (h _ (by rw [hpaths]; simp))
      (h _ (by rw [hpaths]; simp))

/-! ### The write phase: a client's write read back -/

theorem decodeStringItems_strings (values : List Str) :
    decodeStringItems (values.map JSON.str) = some values := by
  induction values with
  | nil => rfl
  | cons v rest ih => simp only [List.map_cons, decodeStringItems, ih]

theorem not_mem_of_contains_false (e : Str) (c : Char) (h : e.contains c = false) : c ∉ e := by
  intro hm
  have := List.elem_iff.2 hm
  simp_all

/-- The line-delimited reader gives back what the line-delimited writer wrote, for
entries that are trimmed, not empty, without line feed and not starting with `#`. -/
theorem newlineEntries_linesContent (values : List Str)
    (h : ∀ e ∈ values, TrimSpace e = e ∧ e ≠ [] ∧ lineEntry e = true) :
    newlineEntries (linesContent values) = values := by
  have hlf : ∀ e ∈ values, '\n' ∉ e := by
    intro e he
    have := (h e he).2.2
    unfold lineEntry at this
    simp only [Bool.and_eq_true, Bool.not_eq_true'] at this
    exact not_mem_of_contains_false e '\n' this.1
  have hkeep : ∀ e ∈ values,
      (!(decide (e = []) || hasPrefix e ['#'])) = true := by
    intro e he
    obtain ⟨_, hne, hl⟩ := h e he
    unfold lineEntry at hl
    simp only [Bool.and_eq_true, Bool.not_eq_true'] at hl
    simp [hne, hl.2]
  unfold newlineEntries linesContent
  by_cases hj : joinWith ['\n'] values = []
  · have hnil : values = [] := by
      rcases joinWith_eq_nil ['\n'] (by simp) values hj with h0 | h0
      · exact h0
      · exact absurd rfl ((h [] (by rw [h0]; simp)).2.1)
    subst hnil
    decide
  · simp only [hj, if_false]
    have hne : values ≠ [] := by
      rintro rfl
      exact hj rfl
    have hsplit : splitOn '\n' (joinWith ['\n'] values ++ ['\n']) = values ++ [[]] := by
      rw [← joinWith_append_empty ['\n'] values hne]
      apply splitOn_joinWith '\n' (values ++ [[]]) (by simp)
      intro x hx
      rcases List.mem_append.1 hx with hx | hx
      · exact hlf x hx
      · simp only [List.mem_singleton] at hx
        subst hx
        simp
    have hmap : values.map TrimSpace = values := by
      conv_rhs => rw [← List.map_id values]
      exact List.map_congr_left (fun e he => (h e he).1)
    have htrim : TrimSpace [] = [] := by decide
    rw [hsplit, List.map_append, hmap, List.filter_append, List.filter_eq_self.2 hkeep]
    simp [htrim]

theorem listFormat_read_written (J : JSONLib) (f : ListFormat) (fs : FS) (path : Str)
    (missingOK : Bool) (values : List Str)
    (hfile : fs.file path = .present (f.content (some values)))
    (hentries : f = .newline → ∀ e ∈ values, TrimSpace e = e ∧ e ≠ [] ∧ lineEntry e = true) :
    f.read J fs path missingOK = .ok values := by
  unfold ListFormat.read readOrMissing readFile
  rw [hfile]
  cases f with
  | newline =>
    simp only [ListFormat.content, fileText, Option.getD_some]
    rw [newlineEntries_linesContent values (hentries rfl)]
  | jsonArray =>
    simp only [ListFormat.content, fileJSON, sliceJSON, Option.bind, decodeStringSlice,
      decodeStringItems_strings]

/-- A duplicate-free list with the entries of an already normalized sorted list
normalizes to that list. -/
theorem normalize_of_same_entries (raw target : List Str) (hnd : raw.Nodup)
    (hmem : ∀ e, e ∈ raw ↔ e ∈ target) (htarget : Normalize target true = target) :
    Normalize raw true = target := by
  have hentry : ∀ e ∈ raw, TrimSpace e = e ∧ e ≠ [] := by
    intro e he
    apply normalize_entry_trimmed target true e
    rw [htarget]
    exact (hmem e).1 he
  have htnd : target.Nodup := by
    rw [← htarget]; exact nodup_normalize target true
  have htsorted : target.Sorted (fun a b => a ≤ b) := by
    rw [← htarget, normalize_sorted]; exact sortStrings_sorted _
  rw [normalize_sorted, trimmedNonEmpty_fixed raw hentry, keepFirst_of_nodup raw hnd]
  exact List.eq_of_perm_of_sorted
    ((sortStrings_perm raw).trans ((List.perm_ext_iff_of_nodup hnd htnd).2 hmem))
    (sortStrings_sorted raw) htsorted

theorem readClient_after_write_jsonObject (J J' : JSONLib) (sortLists : Bool)
    (merged : Policy) (c : Client) (fs fs1 : FS)
    (hna : Normalize merged.allow sortLists = merged.allow)
    (hnd : Normalize merged.deny sortLists = merged.deny)
    (hfmt : toLower c.format = "json-object".toList)
    (hrt : c.allowKey ≠ [] ∧ c.denyKey ≠ [] ∧ keysUnrelated c.allowKey c.denyKey)
    (hw : writeClient J merged c fs = (none, fs1)) :
    ∃ raw, readClient J' fs1 c = .ok raw ∧ Normalize raw.1 sortLists = merged.allow ∧
      Normalize raw.2 sortLists = merged.deny := by
  obtain ⟨hka, hkd, hrel1, hrel2⟩ := hrt
  unfold writeClient at hw
  simp only at hw
  rw [if_pos hfmt] at hw
  by_cases hp : primaryPath c = []
  · rw [if_pos hp] at hw
    simp at hw
  · rw [if_neg hp, if_neg hka] at hw
    cases hfirst : writeStep c.name "allow write".toList fs
        (WriteJSONKey J fs (primaryPath c) c.allowKey (some merged.allow)) with
    | mk e1 fsa =>
      rw [hfirst] at hw
      cases e1 with
      | some e => simp at hw
      | none =>
        simp only at hw
        rw [if_neg hkd] at hw
        have hw1 := writeStep_none _ _ _ _ _ hfirst
        have hw2 := writeStep_none _ _ _ _ _ hw
        obtain ⟨hra, hrd⟩ := readJSONKey_after_two_writes_any J J' fs fsa fs1 (primaryPath c)
          c.allowKey c.denyKey merged.allow merged.deny c.missingOK hrel1 hrel2 hw1 hw2
        refine ⟨(merged.allow, merged.deny), ?_, hna, hnd⟩
        unfold readClient
        simp only
        rw [if_pos hfmt, if_neg hp, if_neg (fun h => hka h.1), if_neg hka, if_neg hkd,
          hra, hrd]
        rfl

theorem readClient_after_write_boolMap (J J' : JSONLib) (merged : Policy)
    (c : Client) (fs fs1 : FS)
    (hna : Normalize merged.allow true = merged.allow)
    (hnd : Normalize merged.deny true = merged.deny)
    (hfmt : toLower c.format = "json-bool-map".toList)
    (hdisj : ∀ e ∈ merged.allow, e ∉ merged.deny)
    (hw : writeClient J merged c fs = (none, fs1)) :
    ∃ raw, readClient J' fs1 c = .ok raw ∧ Normalize raw.1 true = merged.allow ∧
      Normalize raw.2 true = merged.deny := by
  have e1 : ¬ toLower c.format = "json-object".toList := by rw [hfmt]; decide
  unfold writeClient at hw
  simp only at hw
  rw [if_neg e1, if_pos hfmt] at hw
  by_cases hp : primaryPath c = []
  · rw [if_pos hp] at hw
    simp at hw
  · rw [if_neg hp] at hw
    by_cases hk : c.allowKey = []
    · rw [if_pos hk] at hw
      simp at hw
    · rw [if_neg hk] at hw
      have hw1 := writeStep_none _ _ _ _ _ hw
      obtain ⟨ra, rd, hread, hallow, hdeny, hnda, hndd⟩ :=
        readJSONBoolMap_after_write_any J J' fs fs1 (primaryPath c) c.allowKey merged.allow
          merged.deny c.missingOK hw1
      refine ⟨(ra, rd), ?_, ?_, ?_⟩
      · unfold readClient
        simp only
        rw [if_neg e1, if_pos hfmt, if_neg hp, if_neg hk, hread]
        rfl
      · exact normalize_of_same_entries ra merged.allow hnda
          (fun e => by rw [hallow]; exact ⟨fun x => x.1, fun x => ⟨x, hdisj e x⟩⟩) hna
      · exact normalize_of_same_entries rd merged.deny hndd hdeny hnd

theorem readClient_after_write_codex (J J' : JSONLib) (sortLists : Bool) (merged : Policy)
    (c : Client) (fs fs1 : FS)
    (hna : Normalize merged.allow sortLists = merged.allow)
    (hnd : Normalize merged.deny sortLists = merged.deny)
    (hfmt : toLower c.format = "codex-rules".toList)
    (hrt : (∀ cmd ∈ merged.allow, plainCommand cmd = true) ∧
      (∀ cmd ∈ merged.deny, plainCommand cmd = true) ∧
      (∀ cmd ∈ merged.allow, fitsScanner (codexRuleLine cmd "allow".toList)) ∧
      (∀ cmd ∈ merged.deny, fitsScanner (codexRuleLine cmd "forbidden".toList)))
    (hw : writeClient J merged c fs = (none, fs1)) :
    ∃ raw, readClient J' fs1 c = .ok raw ∧ Normalize raw.1 sortLists = merged.allow ∧
      Normalize raw.2 sortLists = merged.deny := by
  have e1 : ¬ toLower c.format = "json-object".toList := by rw [hfmt]; decide
  have e2 : ¬ toLower c.format = "json-bool-map".toList := by rw [hfmt]; decide
  unfold writeClient at hw
  simp only at hw
  rw [if_neg e1, if_neg e2, if_pos hfmt] at hw
  by_cases hp : primaryPath c = []
  · rw [if_pos hp] at hw
    simp at hw
  · rw [if_neg hp] at hw
    have hw1 := writeStep_none _ _ _ _ _ hw
    have hread := readCodexRules_after_write J fs fs1 (primaryPath c) merged.allow
      merged.deny c.missingOK hrt.1 hrt.2.1 hrt.2.2.1 hrt.2.2.2 hw1 J'
    refine ⟨(merged.allow, merged.deny), ?_, hna, hnd⟩
    unfold readClient
    simp only
    rw [if_neg e1, if_neg e2, if_pos hfmt, if_neg hp, hread]
    rfl

theorem readClient_after_write_list (J J' : JSONLib) (sortLists : Bool) (merged : Policy)
    (c : Client) (fs fs1 : FS)
    (hna : Normalize merged.allow sortLists = merged.allow)
    (hnd : Normalize merged.deny sortLists = merged.deny)
    (e1 : ¬ toLower c.format = "json-object".toList)
    (e2 : ¬ toLower c.format = "json-bool-map".toList)
    (e3 : ¬ toLower c.format = "codex-rules".toList)
    (hrt : fs.ident c.allowPath ≠ fs.ident c.denyPath ∧
      (ListFormat.new c.format = .ok .newline →
        (∀ e ∈ merged.allow, lineEntry e = true) ∧ (∀ e ∈ merged.deny, lineEntry e = true)))
    (hw : writeClient J merged c fs = (none, fs1)) :
    ∃ raw, readClient J' fs1 c = .ok raw ∧ Normalize raw.1 sortLists = merged.allow ∧
      Normalize raw.2 sortLists = merged.deny := by
  obtain ⟨hpaths, hentries⟩ := hrt
  unfold writeClient at hw
  simp only at hw
  rw [if_neg e1, if_neg e2, if_neg e3] at hw
  cases hf : ListFormat.new c.format with
  | error e =>
    rw [hf] at hw
    simp at hw
  | ok f =>
    rw [hf] at hw
    simp only at hw
    cases hfirst : writeStep c.name "allow write".toList fs
        (f.write fs c.allowPath (some merged.allow)) with
    | mk e1' fsa =>
      rw [hfirst] at hw
      cases e1' with
      | some e => simp at hw
      | none =>
        simp only at hw
        have hw1 := writeStep_none _ _ _ _ _ hfirst
        have hw2 := writeStep_none _ _ _ _ _ hw
        obtain ⟨_, hfileA⟩ := listFormat_write_ok f fs fsa _ _ hw1
        obtain ⟨hotherD, hfileD⟩ := listFormat_write_ok f fsa fs1 _ _ hw2
        have hidentA : fsa.ident = fs.ident := (listFormat_write_onlyWrites f fs fsa _ _ hw1).1
        have hfileA1 : fs1.file c.allowPath = _ :=
          (hotherD c.allowPath (by rw [hidentA]; exact hpaths)).trans hfileA
        have hgood : ∀ (l : List Str), Normalize l sortLists = l →
            (∀ e ∈ l, lineEntry e = true) →
            ∀ e ∈ l, TrimSpace e = e ∧ e ≠ [] ∧ lineEntry e = true := by
          intro l hl hline e he
          have := normalize_entry_trimmed l sortLists e (by rw [hl]; exact he)
          exact ⟨this.1, this.2, hline e he⟩
        have hra : f.read J' fs1 c.allowPath c.missingOK = .ok merged.allow :=
          listFormat_read_written J' f fs1 _ _ merged.allow hfileA1
            (fun hn => hgood _ hna (hentries (by rw [hf, hn])).1)
        have hrd : f.read J' fs1 c.denyPath c.missingOK = .ok merged.deny :=
          listFormat_read_written J' f fs1 _ _ merged.deny hfileD
            (fun hn => hgood _ hnd (hentries (by rw [hf, hn])).2)
        refine ⟨(merged.allow, merged.deny), ?_, hna, hnd⟩
        unfold readClient
        simp only
        rw [if_neg e1, if_neg e2, if_neg e3, hf]
        simp only [hra, hrd, wrapErr]

/-- After the successful write of a client for which the merged policy round-trips,
what a call of `Run` reads for that client normalizes to the merged policy. -/
theorem readClient_after_writeClient (J J' : JSONLib) (sortLists : Bool) (merged : Policy)
    (c : Client) (fs fs1 : FS)
    (hna : Normalize merged.allow sortLists = merged.allow)
    (hnd : Normalize merged.deny sortLists = merged.deny)
    (hrt : roundTrips fs.ident sortLists merged c)
    (hw : writeClient J merged c fs = (none, fs1)) :
    ∃ raw, readClient J' fs1 c = .ok raw ∧ Normalize raw.1 sortLists = merged.allow ∧
      Normalize raw.2 sortLists = merged.deny := by
  unfold roundTrips at hrt
  by_cases h1 : toLower c.format = "json-object".toList
  · rw [if_pos h1] at hrt
    exact readClient_after_write_jsonObject J J' sortLists merged c fs fs1 hna hnd h1 hrt hw
  · rw [if_neg h1] at hrt
    by_cases h2 : toLower c.format = "json-bool-map".toList
    · rw [if_pos h2] at hrt
      obtain ⟨hsort, hdisj⟩ := hrt
      subst hsort
      exact readClient_after_write_boolMap J J' merged c fs fs1 hna hnd h2 hdisj hw
    · rw [if_neg h2] at hrt
      by_cases h3 : toLower c.format = "codex-rules".toList
      · rw [if_pos h3] at hrt
        exact readClient_after_write_codex J J' sortLists merged c fs fs1 hna hnd h3 hrt hw
      · rw [if_neg h3] at hrt
        exact readClient_after_write_list J J' sortLists merged c fs fs1 hna hnd h1 h2 h3 hrt hw

/-! ### The write phase as a whole -/

theorem writeSnapshots_split (J : JSONLib) (merged : Policy) (pre : List ClientSnapshot) :
    ∀ (snap : ClientSnapshot) (post : List ClientSnapshot) (fs fs' : FS),
      writeSnapshots J merged (pre ++ snap :: post) fs = (none, fs') →
      ∃ fsa fsb, writeSnapshots J merged pre fs = (none, fsa) ∧
        writeClient J merged snap.client fsa = (none, fsb) ∧
        writeSnapshots J merged post fsb = (none, fs') := by
  induction pre with
  | nil =>
    intro snap post fs fs' h
    simp only [List.nil_append, writeSnapshots] at h
    cases hc : writeClient J merged snap.client fs with
    | mk e1 fsb =>
      rw [hc] at h
      cases e1 with
      | some e => simp at h
      | none => exact ⟨fs, fsb, rfl, hc, h⟩
  | cons s0 rest ih =>
    intro snap post fs fs' h
    simp only [List.cons_append, writeSnapshots] at h
    cases hc : writeClient J merged s0.client fs with
    | mk e1 fs0 =>
      rw [hc] at h
      cases e1 with
      | some e => simp at h
      | none =>
        obtain ⟨fsa, fsb, h1, h2, h3⟩ := ih snap post fs0 fs' h
        refine ⟨fsa, fsb, ?_, h2, h3⟩
        simp only [writeSnapshots, hc]
        exact h1

/-- The write loop changes no file other than those the paths of its clients name. -/
theorem writeSnapshots_onlyWrites (J : JSONLib) (merged : Policy)
    (snaps : List ClientSnapshot) :
    ∀ (fs fs' : FS) (e? : Option Err), writeSnapshots J merged snaps fs = (e?, fs') →
      onlyWrites fs fs' (snaps.flatMap (fun s => clientPaths s.client)) := by
  induction snaps with
  | nil =>
    intro fs fs' e? h
    simp only [writeSnapshots, Prod.mk.injEq] at h
    rw [← h.2]
    exact onlyWrites_refl _ _
  | cons s0 rest ih =>
    intro fs fs' e? h
    simp only [writeSnapshots] at h
    cases hc : writeClient J merged s0.client fs with
    | mk e1 fs0 =>
      rw [hc] at h
      have h0 : onlyWrites fs fs0 ((s0 :: rest).flatMap (fun s => clientPaths s.client)) :=
        onlyWrites_mono fs fs0 (clientPaths s0.client) _
          (fun p hp => by simp [List.flatMap_cons, hp])
          (writeClient_onlyWrites J merged s0.client fs fs0 e1 hc)
      cases e1 with
      | some e =>
        simp only [Prod.mk.injEq] at h
        rw [← h.2]
        exact h0
      | none =>
        simp only at h
        exact onlyWrites_trans fs fs0 fs' _ h0
          (onlyWrites_mono fs0 fs' (rest.flatMap (fun s => clientPaths s.client)) _
            (fun p hp => by simp only [List.flatMap_cons, List.mem_append]; exact Or.inr hp)
            (ih fs0 fs' e? h))

/-- The policy `Run` merges from its snapshots is normalized. -/
theorem mergeSnapshots_normalized (J : JSONLib) (fs : FS) (sortLists : Bool)
    (mode source : Str) (clients : List Client) (merged : Policy)
    (h : mergeSnapshots mode source sortLists (snapshotsOf J fs sortLists clients) = .ok merged) :
    Normalize merged.allow sortLists = merged.allow ∧
      Normalize merged.deny sortLists = merged.deny := by
  unfold mergeSnapshots at h
  by_cases h1 : mode = "union".toList
  · rw [if_pos h1] at h
    simp only [Except.ok.injEq] at h
    subst h
    exact ⟨normalize_normalize _ _, normalize_normalize _ _⟩
  · rw [if_neg h1] at h
    by_cases h2 : mode = "authoritative".toList
    · rw [if_pos h2] at h
      by_cases h3 : source = []
      · rw [if_pos h3] at h
        cases h
      · rw [if_neg h3, findSource_snapshotsOf] at h
        cases hf : clients.find? (fun c => decide (c.name = source)) with
        | none => rw [hf] at h; cases h
        | some src =>
          rw [hf] at h
          simp only [Option.map_some', Except.ok.injEq] at h
          subst h
          exact ⟨normalize_normalize _ _, normalize_normalize _ _⟩
    · rw [if_neg h2] at h
      cases h

/-- What a successful run that is not a dry run went through. -/
theorem run_ok_inv (J : JSONLib) (cfg : Config) (fs fs' : FS) (merged : Policy)
    (h : Run J cfg ⟨false⟩ fs = (.ok merged, fs')) :
    readsSucceed J fs cfg.clients ∧
    mergeSnapshots (if cfg.mode = [] then "union".toList else cfg.mode) cfg.source
      (cfg.sort.getD true) (snapshotsOf J fs (cfg.sort.getD true) cfg.clients) = .ok merged ∧
    writeSnapshots J merged (snapshotsOf J fs (cfg.sort.getD true) cfg.clients) fs
      = (none, fs') := by
  unfold Run at h
  simp only at h
  cases hr : readSnapshots J fs (cfg.sort.getD true) cfg.clients with
  | error e => rw [hr] at h; simp at h
  | ok snaps =>
    have hreads := readSnapshots_ok_readsSucceed J fs _ _ snaps hr
    have hsnaps := readSnapshots_of_readsSucceed J fs (cfg.sort.getD true) cfg.clients hreads
    rw [hr] at hsnaps
    simp only [Except.ok.injEq] at hsnaps
    subst hsnaps
    rw [hr] at h
    simp only at h
    cases hm : mergeSnapshots (if cfg.mode = [] then "union".toList else cfg.mode) cfg.source
        (cfg.sort.getD true) (snapshotsOf J fs (cfg.sort.getD true) cfg.clients) with
    | error e => rw [hm] at h; simp at h
    | ok m =>
      rw [hm] at h
      simp only [Bool.false_eq_true, if_false] at h
      cases hw : writeSnapshots J m (snapshotsOf J fs (cfg.sort.getD true) cfg.clients) fs with
      | mk e1 fs1 =>
        rw [hw] at h
        cases e1 with
        | some e => simp at h
        | none =>
          simp only [Prod.mk.injEq, Except.ok.injEq] at h
          obtain ⟨hmm, hfs⟩ := h
          subst hmm
          subst hfs
          exact ⟨hreads, rfl, hw⟩

/-- After a successful run that is not a dry run, a client for which the merged policy
round-trips and whose files no later client writes is read back, by that call or
another, as the merged policy. -/
theorem readClient_after_run (J J' : JSONLib) (cfg : Config) (fs fs' : FS) (merged : Policy)
    (hrun : Run J cfg ⟨false⟩ fs = (.ok merged, fs'))
    (pre post : List Client) (c : Client) (hclients : cfg.clients = pre ++ c :: post)
    (hlater : ∀ d ∈ post, ∀ p ∈ clientPaths c, ∀ q ∈ clientPaths d, fs.ident p ≠ fs.ident q)
    (hrt : roundTrips fs.ident (cfg.sort.getD true) merged c) :
    ∃ raw, readClient J' fs' c = .ok raw ∧
      Normalize raw.1 (cfg.sort.getD true) = merged.allow ∧
      Normalize raw.2 (cfg.sort.getD true) = merged.deny := by
  obtain ⟨_, hmerge, hwrite⟩ := run_ok_inv J cfg fs fs' merged hrun
  obtain ⟨hna, hnd⟩ := mergeSnapshots_normalized J fs _ _ _ _ merged hmerge
  have hsnaps : snapshotsOf J fs (cfg.sort.getD true) cfg.clients
      = snapshotsOf J fs (cfg.sort.getD true) pre
        ++ ⟨c, ownPolicy J fs (cfg.sort.getD true) c⟩
          :: snapshotsOf J fs (cfg.sort.getD true) post := by
    rw [hclients]
    simp [snapshotsOf]
  rw [hsnaps] at hwrite
  obtain ⟨fsa, fsb, hwpre, hwc, hwpost⟩ := writeSnapshots_split J merged _ _ _ fs fs' hwrite
  have hida : fsa.ident = fs.ident := (writeSnapshots_onlyWrites J merged _ fs fsa none hwpre).1
  have hidb : fsb.ident = fs.ident :=
    ((writeClient_onlyWrites J merged c fsa fsb none hwc).1).trans hida
  obtain ⟨raw, hread, hra, hrd⟩ :=
    readClient_after_writeClient J J' _ merged c fsa fsb hna hnd (by rw [hida]; exact hrt) hwc
  refine ⟨raw, ?_, hra, hrd⟩
  rw [← hread]
  apply readClient_congr_paths
  intro p hp
  apply (writeSnapshots_onlyWrites J merged _ fsb fs' none hwpost).2 p
  intro q hq
  obtain ⟨s, hs, hqs⟩ := List.mem_flatMap.1 hq
  unfold snapshotsOf at hs
  obtain ⟨d, hd, rfl⟩ := List.mem_map.1 hs
  rw [hidb]
  exact hlater d hd p hp q hqs

/-! ### A repeated run -/

theorem keepFirst_append (a b : List Str) :
    keepFirst (a ++ b) = keepFirst a ++ (keepFirst b).filter (fun y => decide (y ∉ a)) := by
  induction a with
  | nil => simp [keepFirst]
  | cons x rest ih =>
    have hstep : keepFirst (x :: rest ++ b)
        = x :: (keepFirst (rest ++ b)).filter (fun y => decide (y ≠ x)) := rfl
    rw [hstep, ih]
    simp only [keepFirst, List.filter_append, List.filter_filter, List.cons_append]
    congr 2
    apply List.filter_congr
    intro y _
    by_cases hy : y = x <;> by_cases hr : y ∈ rest <;> simp [hy, hr]

theorem normalize_append_of_subset (a b : List Str) (s : Bool)
    (h : ∀ e ∈ trimmedNonEmpty b, e ∈ trimmedNonEmpty a) :
    Normalize (a ++ b) s = Normalize a s := by
  have htne : trimmedNonEmpty (a ++ b) = trimmedNonEmpty a ++ trimmedNonEmpty b := by
    simp [trimmedNonEmpty]
  have hkeep : keepFirst (trimmedNonEmpty (a ++ b)) = keepFirst (trimmedNonEmpty a) := by
    rw [htne, keepFirst_append]
    have : (keepFirst (trimmedNonEmpty b)).filter
        (fun y => decide (y ∉ trimmedNonEmpty a)) = [] := by
      rw [List.filter_eq_nil_iff]
      intro y hy
      have := h y ((mem_keepFirst _ y).1 hy)
      simp [this]
    rw [this, List.append_nil]
  cases s
  · rw [normalize_unsorted, normalize_unsorted, hkeep]
  · rw [normalize_sorted, normalize_sorted, hkeep]

theorem normalize_flatMap_const (clients : List Client) (l : List Str) (s : Bool)
    (hne : clients ≠ []) (hl : Normalize l s = l) :
    Normalize (clients.flatMap (fun _ => l)) s = l := by
  cases clients with
  | nil => exact absurd rfl hne
  | cons c rest =>
    rw [List.flatMap_cons, normalize_append_of_subset, hl]
    intro e he
    obtain ⟨hne', v, hv, hve⟩ := (mem_trimmedNonEmpty _ e).1 he
    obtain ⟨_, _, hvl⟩ := List.mem_flatMap.1 hv
    exact (mem_trimmedNonEmpty l e).2 ⟨hne', v, hvl, hve⟩

theorem findSource_const (source : Str) (merged : Policy) (clients : List Client) :
    findSource source (clients.map (fun c => (⟨c, merged⟩ : ClientSnapshot)))
      = (clients.find? (fun c => decide (c.name = source))).map (fun _ => merged) := by
  induction clients with
  | nil => rfl
  | cons c rest ih =>
    simp only [List.map_cons, findSource, List.find?_cons]
    by_cases h : c.name = source
    · simp [h]
    · simp [h, ih]

/-- The merge of snapshots that all hold an already merged policy gives that policy
again. -/
theorem mergeSnapshots_const (J : JSONLib) (fs : FS) (sortLists : Bool) (mode source : Str)
    (clients : List Client) (merged : Policy)
    (h : mergeSnapshots mode source sortLists (snapshotsOf J fs sortLists clients) = .ok merged) :
    mergeSnapshots mode source sortLists
      (clients.map (fun c => (⟨c, merged⟩ : ClientSnapshot))) = .ok merged := by
  obtain ⟨hna, hnd⟩ := mergeSnapshots_normalized J fs sortLists mode source clients merged h
  unfold mergeSnapshots at h ⊢
  by_cases h1 : mode = "union".toList
  · rw [if_pos h1] at h ⊢
    by_cases hc : clients = []
    · subst hc
      exact h
    · simp only [List.flatMap_map]
      rw [normalize_flatMap_const clients merged.allow sortLists hc hna,
        normalize_flatMap_const clients merged.deny sortLists hc hnd]
  · rw [if_neg h1] at h ⊢
    by_cases h2 : mode = "authoritative".toList
    · rw [if_pos h2] at h ⊢
      by_cases h3 : source = []
      · rw [if_pos h3] at h
        cases h
      · rw [if_neg h3] at h ⊢
        rw [findSource_snapshotsOf] at h
        rw [findSource_const]
        cases hf : clients.find? (fun c => decide (c.name = source)) with
        | none => rw [hf] at h; cases h
        | some src => rfl
    · rw [if_neg h2] at h
      cases h

/-- C3 (as stated, refuted). A client of the JSON-array format allows the entry `#x`
and a client of the line-delimited format is merged with it: the run, not a dry run,
succeeds and returns the allow list `#x`, but re-reading the line-delimited client
through its own adapter yields no allow entry, since that adapter skips the line `#x`
as a comment. -/
theorem run_reread_differs :
    ∃ fs', Run noJSON commentUnion ⟨false⟩ commentFiles = (.ok ⟨["#x".toList], []⟩, fs') ∧
      readClient noJSON fs' (lineClient "n".toList "n.allow".toList "n.deny".toList)
        = .ok ([], []) :=
  ⟨_, rfl, rfl⟩

/-- C3 (amended). After a successful run that is not a dry run: for every client none of
whose files is written by a later client (no path of a later client names a file that a
path of the client names) and for which the merged policy round-trips through the
client's adapter (`roundTrips`: both keys set and unrelated for `json-object`; sorted
lists without a common entry for `json-bool-map`; plain commands whose rule lines are
shorter than 64 KiB for `codex-rules`; an allow path and a deny path that name two files
for a list format and entries without line feed or leading `#` for the line-delimited
one), re-reading the client's lists through its own adapter, in this call or another,
and normalizing them yields exactly the merged policy returned; and when this holds for
every client, an immediately repeated dry run returns the same policy. -/
theorem run_lists_consistent (J J' : JSONLib) (cfg : Config) (fs fs' : FS) (merged : Policy)
    (hrun : Run J cfg ⟨false⟩ fs = (.ok merged, fs')) :
    (∀ (pre post : List Client) (c : Client), cfg.clients = pre ++ c :: post →
      (∀ d ∈ post, ∀ p ∈ clientPaths c, ∀ q ∈ clientPaths d, fs.ident p ≠ fs.ident q) →
      roundTrips fs.ident (cfg.sort.getD true) merged c →
      ∃ raw, readClient J' fs' c = .ok raw ∧
        Normalize raw.1 (cfg.sort.getD true) = merged.allow ∧
        Normalize raw.2 (cfg.sort.getD true) = merged.deny) ∧
    ((∀ (pre post : List Client) (c : Client), cfg.clients = pre ++ c :: post →
        (∀ d ∈ post, ∀ p ∈ clientPaths c, ∀ q ∈ clientPaths d, fs.ident p ≠ fs.ident q) ∧
        roundTrips fs.ident (cfg.sort.getD true) merged c) →
      Run J' cfg ⟨true⟩ fs' = (.ok merged, fs')) := by
  have hone := fun pre post c h1 h2 h3 =>
    readClient_after_run J J' cfg fs fs' merged hrun pre post c h1 h2 h3
  refine ⟨hone, ?_⟩
  intro hall
  obtain ⟨_, hmerge, _⟩ := run_ok_inv J cfg fs fs' merged hrun
  have hown : ∀ c ∈ cfg.clients,
      (∃ r, readClient J' fs' c = .ok r) ∧
        ownPolicy J' fs' (cfg.sort.getD true) c = merged := by
    intro c hc
    obtain ⟨pre, post, hsplit⟩ := List.append_of_mem hc
    obtain ⟨hl, hr⟩ := hall pre post c hsplit
    obtain ⟨raw, hread, hra, hrd⟩ := hone pre post c hsplit hl hr
    refine ⟨⟨raw, hread⟩, ?_⟩
    unfold ownPolicy rawLists
    rw [hread]
    simp only [hra, hrd]
  have hreads : readsSucceed J' fs' cfg.clients := fun c hc => (hown c hc).1
  have hsnaps : snapshotsOf J' fs' (cfg.sort.getD true) cfg.clients
      = cfg.clients.map (fun c => (⟨c, merged⟩ : ClientSnapshot)) := by
    unfold snapshotsOf
    apply List.map_congr_left
    intro c hc
    rw [(hown c hc).2]
  have hmerge' := mergeSnapshots_const J fs _ _ _ cfg.clients merged hmerge
  rw [← hsnaps] at hmerge'
  exact (run_result_of_merge J' cfg ⟨true⟩ fs' merged hreads hmerge').1 rfl

theorem run_lists_consistent_witness :
    ∃ fs', Run noJSON settingsUnion ⟨false⟩
        (oneFile "settings.json".toList (.json (.obj permissionsDoc)))
        = (.ok ⟨["A".toList, "B".toList], ["X".toList]⟩, fs') ∧
      (∃ raw, readClient noJSON fs' settingsClient = .ok raw ∧
        Normalize raw.1 true = ["A".toList, "B".toList] ∧
        Normalize raw.2 true = ["X".toList]) ∧
      Run noJSON settingsUnion ⟨true⟩ fs'
        = (.ok ⟨["A".toList, "B".toList], ["X".toList]⟩, fs') := by
  have hrt : roundTrips id true ⟨["A".toList, "B".toList], ["X".toList]⟩ settingsClient := by
    unfold roundTrips keysUnrelated
    decide
  refine ⟨_, rfl, ?_, ?_⟩
  · exact (run_lists_consistent noJSON noJSON settingsUnion
      (oneFile "settings.json".toList (.json (.obj permissionsDoc))) _ _ rfl).1
      [] [] settingsClient rfl (by simp) hrt
  · apply (run_lists_consistent noJSON noJSON settingsUnion
      (oneFile "settings.json".toList (.json (.obj permissionsDoc))) _ _ rfl).2
    intro pre post c hsplit
    have hc : pre = [] ∧ c = settingsClient ∧ post = [] := by
      cases pre with
      | nil =>
        simp only [settingsUnion, List.nil_append, List.cons.injEq] at hsplit
        exact ⟨rfl, hsplit.1.symm, hsplit.2.symm⟩
      | cons x rest =>
        simp only [settingsUnion, List.cons_append, List.cons.injEq] at hsplit
        have := hsplit.2
        simp at this
    obtain ⟨_, rfl, rfl⟩ := hc
    exact ⟨by simp, hrt⟩

/-! ### The dotted-path accessor: the three results of get, and the errors of set -/

theorem resolve_nil (v : JSON) : resolve v [] = some v := by
  cases v <;> rfl

theorem resolve_obj_cons (fields : Obj) (seg : Str) (rest : List Str) :
    resolve (.obj fields) (seg :: rest) =
      match lookupKey seg fields with
      | some next => resolve next rest
      | none => none := by
  rw [resolve]

theorem resolve_nonObject_cons (v : JSON) (h : v.isObject = false) (seg : Str)
    (rest : List Str) : resolve v (seg :: rest) = none := by
  cases v with
  | obj fields => simp [JSON.isObject] at h
  | null => rfl
  | bool b => rfl
  | num x => rfl
  | str x => rfl
  | arr x => rfl

theorem getWalk_nonObject_cons (key : Str) (done : List Str) (seg : Str) (rest : List Str)
    (v : JSON) (h : v.isObject = false) :
    getWalk key done (seg :: rest) v = .error (.pathNotObject key (joinWith ['.'] done)) := by
  cases v with
  | obj fields => simp [JSON.isObject] at h
  | null => rfl
  | bool b => rfl
  | num x => rfl
  | str x => rfl
  | arr x => rfl

/-- The walk of get fails exactly when a proper prefix of the segments resolves to a
value that is not an object, and the error names that prefix. -/
theorem getWalk_error_iff (key : Str) (parts : List Str) :
    ∀ (done : List Str) (cur : JSON) (e : Err),
      getWalk key done parts cur = .error e ↔
        ∃ pre, offendingPrefix cur parts pre ∧
          e = .pathNotObject key (joinWith ['.'] (done ++ pre)) := by
  induction parts with
  | nil =>
    intro done cur e
    constructor
    · intro h
      simp [getWalk] at h
    · rintro ⟨pre, ⟨hpre, hne, _⟩, _⟩
      exact absurd (List.prefix_nil.1 hpre) hne
  | cons p rest ih =>
    intro done cur e
    by_cases hobj : cur.isObject = false
    · rw [getWalk_nonObject_cons key done p rest cur hobj]
      constructor
      · intro h
        simp only [Except.error.injEq] at h
        exact ⟨[], ⟨List.nil_prefix, by simp, cur, resolve_nil cur, hobj⟩, by simpa using h.symm⟩
      · rintro ⟨pre, ⟨_, _, w, hw, _⟩, he⟩
        cases pre with
        | nil => simp [he]
        | cons q pre' =>
          rw [resolve_nonObject_cons cur hobj] at hw
          cases hw
    · cases cur with
      | obj fields =>
        rw [getWalk_obj_cons]
        cases hl : lookupKey p fields with
        | none =>
          simp only
          constructor
          · intro h
            cases h
          · rintro ⟨pre, ⟨hpre, _, w, hw, hwo⟩, _⟩
            cases pre with
            | nil =>
              simp only [resolve_nil, Option.some.injEq] at hw
              subst hw
              simp [JSON.isObject] at hwo
            | cons q pre' =>
              have hq : q = p := (List.cons_prefix_cons.1 hpre).1
              subst hq
              simp [resolve_obj_cons, hl] at hw
        | some next =>
          simp only
          rw [ih (done ++ [p]) next e]
          constructor
          · rintro ⟨pre, ⟨hpre, hne, w, hw, hwo⟩, he⟩
            refine ⟨p :: pre, ⟨(List.prefix_cons_inj p).2 hpre, by simpa using hne, w, ?_, hwo⟩,
              by simpa using he⟩
            simp [resolve_obj_cons, hl, hw]
          · rintro ⟨pre, ⟨hpre, hne, w, hw, hwo⟩, he⟩
            cases pre with
            | nil =>
              simp only [resolve_nil, Option.some.injEq] at hw
              subst hw
              simp [JSON.isObject] at hwo
            | cons q pre' =>
              obtain ⟨hq, hpre'⟩ := List.cons_prefix_cons.1 hpre
              subst hq
              refine ⟨pre', ⟨hpre', by simpa using hne, w, ?_, hwo⟩, by simpa using he⟩
              simpa [resolve_obj_cons, hl] using hw
      | null => simp [JSON.isObject] at hobj
      | bool b => simp [JSON.isObject] at hobj
      | num x => simp [JSON.isObject] at hobj
      | str x => simp [JSON.isObject] at hobj
      | arr x => simp [JSON.isObject] at hobj

/-- The walk of get finds a value exactly when the segments resolve to it. -/
theorem getWalk_found_iff (key : Str) (parts : List Str) :
    ∀ (done : List Str) (cur v : JSON),
      getWalk key done parts cur = .ok (some v) ↔ resolve cur parts = some v := by
  induction parts with
  | nil =>
    intro done cur v
    simp [getWalk, resolve_nil]
  | cons p rest ih =>
    intro done cur v
    by_cases hobj : cur.isObject = false
    · rw [getWalk_nonObject_cons key done p rest cur hobj, resolve_nonObject_cons cur hobj]
      simp
    · cases cur with
      | obj fields =>
        rw [getWalk_obj_cons]
        cases hl : lookupKey p fields with
        | none => simp [resolve_obj_cons, hl]
        | some next =>
          simp only
          rw [ih (done ++ [p]) next v]
          simp [resolve_obj_cons, hl]
      | null => simp [JSON.isObject] at hobj
      | bool b => simp [JSON.isObject] at hobj
      | num x => simp [JSON.isObject] at hobj
      | str x => simp [JSON.isObject] at hobj
      | arr x => simp [JSON.isObject] at hobj

/-- The walk of get reports not found exactly when some segment is absent from the
object reached by the segments before it. -/
theorem getWalk_notFound_iff (key : Str) (parts : List Str) :
    ∀ (done : List Str) (cur : JSON),
      getWalk key done parts cur = .ok none ↔ absentSegment cur parts := by
  induction parts with
  | nil =>
    intro done cur
    constructor
    · intro h
      simp [getWalk] at h
    · rintro ⟨pre, seg, fields, hpre, _, _⟩
      have := List.prefix_nil.1 hpre
      simp at this
  | cons p rest ih =>
    intro done cur
    by_cases hobj : cur.isObject = false
    · rw [getWalk_nonObject_cons key done p rest cur hobj]
      constructor
      · intro h
        cases h
      · rintro ⟨pre, seg, fields, _, hres, _⟩
        cases pre with
        | nil =>
          rw [resolve_nil] at hres
          simp only [Option.some.injEq] at hres
          subst hres
          simp [JSON.isObject] at hobj
        | cons q pre' =>
          rw [resolve_nonObject_cons cur hobj] at hres
          cases hres
    · cases cur with
      | obj fields =>
        rw [getWalk_obj_cons]
        cases hl : lookupKey p fields with
        | none =>
          simp only [true_iff]
          exact ⟨[], p, fields, by simp, resolve_nil _, hl⟩
        | some next =>
          simp only
          rw [ih (done ++ [p]) next]
          constructor
          · rintro ⟨pre, seg, f, hpre, hres, hlook⟩
            refine ⟨p :: pre, seg, f, by simpa using hpre, ?_, hlook⟩
            simp [resolve_obj_cons, hl, hres]
          · rintro ⟨pre, seg, f, hpre, hres, hlook⟩
            cases pre with
            | nil =>
              rw [resolve_nil] at hres
              simp only [Option.some.injEq, JSON.obj.injEq] at hres
              subst hres
              have hseg : seg = p := by
                simpa using hpre
              subst hseg
              rw [hl] at hlook
              cases hlook
            | cons q pre' =>
              obtain ⟨hq, hpre'⟩ := List.cons_prefix_cons.1 (by simpa using hpre)
              subst hq
              refine ⟨pre', seg, f, hpre', ?_, hlook⟩
              simpa [resolve_obj_cons, hl] using hres
      | null => simp [JSON.isObject] at hobj
      | bool b => simp [JSON.isObject] at hobj
      | num x => simp [JSON.isObject] at hobj
      | str x => simp [JSON.isObject] at hobj
      | arr x => simp [JSON.isObject] at hobj

/-- The walk of set fails exactly when the walk of get fails, with the same error. -/
theorem setWalk_error_iff (key : Str) (value : JSON) (parts : List Str) :
    ∀ (done : List Str) (cur : Obj) (e : Err),
      setWalk key value done parts cur = .error e ↔
        getWalk key done parts (.obj cur) = .error e := by
  induction parts with
  | nil =>
    intro done cur e
    simp [setWalk, getWalk]
  | cons p rest ih =>
    intro done cur e
    cases rest with
    | nil =>
      rw [setWalk, getWalk_obj_cons]
      cases hl : lookupKey p cur with
      | none => simp
      | some next => simp [getWalk]
    | cons p2 rest2 =>
      rw [setWalk_cons_cons, getWalk_obj_cons]
      cases hl : lookupKey p cur with
      | none =>
        simp only
        have hempty : ∀ e', setWalk key value (done ++ [p]) (p2 :: rest2) [] ≠ .error e' := by
          intro e' he'
          have := (ih (done ++ [p]) [] e').1 he'
          rw [getWalk_obj_cons] at this
          simp [lookupKey] at this
        cases hs : setWalk key value (done ++ [p]) (p2 :: rest2) [] with
        | error e' => exact absurd hs (hempty e')
        | ok child => simp
      | some next =>
        cases next with
        | obj fields =>
          simp only
          rw [← ih (done ++ [p]) fields e]
          cases hs : setWalk key value (done ++ [p]) (p2 :: rest2) fields with
          | error e' => simp
          | ok child => simp
        | null => simp [getWalk]
        | bool b => simp [getWalk]
        | num x => simp [getWalk]
        | str x => simp [getWalk]
        | arr x => simp [getWalk]

theorem getJSONPath_error_iff (root : Obj) (key : Str) (hkey : key ≠ []) (e : Err) :
    getJSONPath root key = .error e ↔
      ∃ pre, offendingPrefix (.obj root) (splitOn '.' key) pre ∧
        e = .pathNotObject key (joinWith ['.'] pre) := by
  unfold getJSONPath
  rw [if_neg hkey, getWalk_error_iff]
  simp

theorem getJSONPath_found_iff (root : Obj) (key : Str) (hkey : key ≠ []) (v : JSON) :
    getJSONPath root key = .ok (some v) ↔ resolve (.obj root) (splitOn '.' key) = some v := by
  unfold getJSONPath
  rw [if_neg hkey, getWalk_found_iff]

theorem getJSONPath_notFound_iff (root : Obj) (key : Str) (hkey : key ≠ []) :
    getJSONPath root key = .ok none ↔ absentSegment (.obj root) (splitOn '.' key) := by
  unfold getJSONPath
  rw [if_neg hkey, getWalk_notFound_iff]

theorem setJSONPath_error_iff (root : Obj) (key : Str) (value : JSON) (e : Err) :
    setJSONPath root key value = .error e ↔ getJSONPath root key = .error e := by
  unfold setJSONPath getJSONPath
  by_cases hkey : key = []
  · simp [hkey]
  · rw [if_neg hkey, if_neg hkey, setWalk_error_iff]

/-- C12. For a non-empty dot-path, get returns an error exactly when some proper prefix
of the segments resolves to an existing value that is not an object, and the error names
that prefix; it returns not found exactly when there is no such prefix and some segment
is absent from the object reached by the segments before it; and it returns found with a
value exactly when the segments resolve to that value. -/
theorem getJSONPath_three_results (root : Obj) (key : Str) (hkey : key ≠ []) :
    (∀ e, getJSONPath root key = .error e ↔
      ∃ pre, offendingPrefix (.obj root) (splitOn '.' key) pre ∧
        e = .pathNotObject key (joinWith ['.'] pre)) ∧
    (getJSONPath root key = .ok none ↔
      (¬ ∃ pre, offendingPrefix (.obj root) (splitOn '.' key) pre) ∧
        absentSegment (.obj root) (splitOn '.' key)) ∧
    (∀ v, getJSONPath root key = .ok (some v) ↔
      resolve (.obj root) (splitOn '.' key) = some v) := by
  refine ⟨getJSONPath_error_iff root key hkey, ?_, getJSONPath_found_iff root key hkey⟩
  constructor
  · intro h
    refine ⟨?_, (getJSONPath_notFound_iff root key hkey).1 h⟩
    rintro ⟨pre, hpre⟩
    have := (getJSONPath_error_iff root key hkey _).2 ⟨pre, hpre, rfl⟩
    rw [h] at this
    cases this
  · rintro ⟨_, habsent⟩
    exact (getJSONPath_notFound_iff root key hkey).2 habsent

theorem getJSONPath_three_results_witness :
    "permissions.allow".toList ≠ [] ∧
    getJSONPath permissionsDoc "permissions.allow".toList
      = .ok (some (.arr [.str "A".toList, .str "B".toList])) ∧
    resolve (.obj permissionsDoc) (splitOn '.' "permissions.allow".toList)
      = some (.arr [.str "A".toList, .str "B".toList]) ∧
    getJSONPath permissionsDoc "permissions.none".toList = .ok none ∧
    getJSONPath permissionsDoc "permissions.allow.x".toList
      = .error (.pathNotObject "permissions.allow.x".toList "permissions.allow".toList) :=
  ⟨by decide, by rfl,
    ((getJSONPath_three_results permissionsDoc "permissions.allow".toList (by decide)).2.2
      _).1 (by rfl),
    by rfl, by rfl⟩

/-- C13. Set fails exactly when get fails on the same document and path, and with the
same error: for the empty path both report the empty key; otherwise both fail exactly
when a proper prefix of the segments resolves to an existing value that is not an object,
and both name that prefix. -/
theorem setJSONPath_fails_as_get (root : Obj) (key : Str) (value : JSON) :
    (∀ e, setJSONPath root key value = .error e ↔ getJSONPath root key = .error e) ∧
    (key = [] → setJSONPath root key value = .error .emptyKey) ∧
    (key ≠ [] → ∀ e, setJSONPath root key value = .error e ↔
      ∃ pre, offendingPrefix (.obj root) (splitOn '.' key) pre ∧
        e = .pathNotObject key (joinWith ['.'] pre)) ∧
    ((∃ e, setJSONPath root key value = .error e) ↔
      key = [] ∨ ∃ pre, offendingPrefix (.obj root) (splitOn '.' key) pre) := by
  refine ⟨setJSONPath_error_iff root key value, ?_, ?_, ?_⟩
  · intro hkey
    simp [setJSONPath, hkey]
  · intro hkey e
    rw [setJSONPath_error_iff, getJSONPath_error_iff root key hkey]
  · by_cases hkey : key = []
    · simp [setJSONPath, hkey]
    · constructor
      · rintro ⟨e, he⟩
        rw [setJSONPath_error_iff, getJSONPath_error_iff root key hkey] at he
        obtain ⟨pre, hpre, _⟩ := he
        exact Or.inr ⟨pre, hpre⟩
      · rintro (h | ⟨pre, hpre⟩)
        · exact absurd h hkey
        · exact ⟨_, (setJSONPath_error_iff root key value _).2
            ((getJSONPath_error_iff root key hkey _).2 ⟨pre, hpre, rfl⟩)⟩

/-! ### The keyed-array adapter -/

/-- After a successful `WriteJSONKey` of a slice that is not `nil`, `ReadJSONKey` with
the same key returns the strings written. -/
theorem readJSONKey_after_write (J : JSONLib) (fs fs' : FS) (path key : Str)
    (values : List Str) (missingOK : Bool)
    (h : WriteJSONKey J fs path key (some values) = .ok fs') :
    ReadJSONKey J fs' path missingOK key = .ok values := by
  obtain ⟨_, root, _, hfile, hget, _, _, _⟩ := writeJSONValue_result J fs fs' path key _ h
  exact readJSONKey_of_value J fs' path key missingOK root values hfile hget

/-- C11. Get after set returns the value set: for every document, every dot-path and
every value, if set succeeds then get with the same path on the resulting document
returns found with exactly that value, also when intermediate segments were absent and
had to be created as empty objects; hence `ReadJSONKey` after a successful
`WriteJSONKey` of a list of strings with the same key returns that list, in the call
that wrote or in another. The list is any slice of strings other than the `nil` slice,
which `Run` never passes: it writes the output of `Normalize`. -/
theorem getJSONPath_after_set (root root' : Obj) (key : Str) (value : JSON)
    (hset : setJSONPath root key value = .ok root') :
    getJSONPath root' key = .ok (some value) ∧
    resolve (.obj root') (splitOn '.' key) = some value ∧
    ∀ (J J2 : JSONLib) (fs fs' : FS) (path : Str) (values : List Str) (missingOK : Bool),
      WriteJSONKey J fs path key (some values) = .ok fs' →
      ReadJSONKey J2 fs' path missingOK key = .ok values := by
  have hget := getJSONPath_setJSONPath_same root root' key value hset
  have hkey : key ≠ [] := by
    intro hk
    rw [hk] at hset
    simp [setJSONPath] at hset
  refine ⟨hget, (getJSONPath_found_iff root' key hkey value).1 hget, ?_⟩
  intro J J2 fs fs' path values missingOK hw
  obtain ⟨_, doc, _, hfile, hdoc, _, _, _⟩ := writeJSONValue_result J fs fs' path key _ hw
  exact readJSONKey_of_value J2 fs' path key missingOK doc values hfile hdoc

theorem getJSONPath_after_set_witness :
    setJSONPath [] "permissions.allow".toList (.arr [.str "ls".toList])
      = .ok [("permissions".toList, .obj [("allow".toList, .arr [.str "ls".toList])])] ∧
    getJSONPath [("permissions".toList, .obj [("allow".toList, .arr [.str "ls".toList])])]
      "permissions.allow".toList = .ok (some (.arr [.str "ls".toList])) :=
  ⟨by rfl, (getJSONPath_after_set [] _ "permissions.allow".toList (.arr [.str "ls".toList])
    (by rfl)).1⟩

/-- A remark on the `nil` slice, which `Run` never passes to `WriteJSONKey`: on a file
that holds the empty object, `WriteJSONKey` of the `nil` slice succeeds and stores
`null` under the key, and `ReadJSONKey` with the same key then fails with "not an array
of strings". The empty slice that is not `nil` is read back as the empty list, and the
JSON-array format reads the `nil` slice it has written back as the empty list. -/
theorem writeJSONKey_nil_not_read_back :
    (∃ fs', WriteJSONKey noJSON emptySettings "settings.json".toList "allow".toList none
        = .ok fs' ∧
      fs'.file "settings.json".toList
        = .present (.json (.obj [("allow".toList, .null)])) ∧
      ReadJSONKey noJSON fs' "settings.json".toList false "allow".toList
        = .error (.notStringArray "allow".toList)) ∧
    (∃ fs', WriteJSONKey noJSON emptySettings "settings.json".toList "allow".toList (some [])
        = .ok fs' ∧
      ReadJSONKey noJSON fs' "settings.json".toList false "allow".toList = .ok []) ∧
    (∃ fs', ListFormat.jsonArray.write emptySettings "settings.json".toList none = .ok fs' ∧
      ListFormat.jsonArray.read noJSON fs' "settings.json".toList false = .ok []) :=
  ⟨⟨_, rfl, rfl, rfl⟩, ⟨_, rfl, rfl⟩, ⟨_, rfl, rfl⟩⟩

theorem stringItems_eq_some (items : List JSON) :
    ∀ l : List Str, stringItems items = some l ↔ items = l.map JSON.str := by
  induction items with
  | nil =>
    intro l
    cases l <;> simp [stringItems]
  | cons item rest ih =>
    intro l
    cases item with
    | str s =>
      rw [stringItems]
      cases hr : stringItems rest with
      | none =>
        refine ⟨fun h => (by cases h), fun hl => ?_⟩
        exfalso
        cases l with
        | nil => simp at hl
        | cons x xs =>
          simp only [List.map_cons, List.cons.injEq] at hl
          have := (ih xs).2 hl.2
          rw [hr] at this
          cases this
      | some out =>
        simp only [Option.some.injEq]
        have hout := (ih out).1 hr
        constructor
        · rintro rfl
          simp [hout]
        · intro hl
          cases l with
          | nil => simp at hl
          | cons x xs =>
            simp only [List.map_cons, List.cons.injEq, JSON.str.injEq] at hl
            obtain ⟨hx, hxs⟩ := hl
            have := (ih xs).2 hxs
            rw [hr] at this
            simp only [Option.some.injEq] at this
            rw [hx, this]
    | null => cases l <;> simp [stringItems]
    | bool b => cases l <;> simp [stringItems]
    | num x => cases l <;> simp [stringItems]
    | arr x => cases l <;> simp [stringItems]
    | obj x => cases l <;> simp [stringItems]

/-- The strings `toStringSlice` accepts: exactly the arrays that hold only strings. -/
theorem toStringSlice_eq_some (v : JSON) (l : List Str) :
    toStringSlice v = some l ↔ v = .arr (l.map JSON.str) := by
  cases v with
  | arr items =>
    rw [toStringSlice, stringItems_eq_some]
    simp
  | null => simp [toStringSlice]
  | bool b => simp [toStringSlice]
  | num x => simp [toStringSlice]
  | str x => simp [toStringSlice]
  | obj x => simp [toStringSlice]

theorem toStringSlice_eq_none (v : JSON) :
    toStringSlice v = none ↔ ∀ l : List Str, v ≠ .arr (l.map JSON.str) := by
  constructor
  · intro h l hl
    have := (toStringSlice_eq_some v l).2 hl
    rw [h] at this
    cases this
  · intro h
    cases hs : toStringSlice v with
    | none => rfl
    | some l => exact absurd ((toStringSlice_eq_some v l).1 hs) (h l)

theorem arr_ne_strings_of_mem (items : List JSON) (x : JSON) (hx : x ∈ items)
    (hns : ∀ s : Str, x ≠ .str s) : ∀ l : List Str, JSON.arr items ≠ .arr (l.map JSON.str) := by
  intro l hl
  simp only [JSON.arr.injEq] at hl
  rw [hl, List.mem_map] at hx
  obtain ⟨s, _, hs⟩ := hx
  exact hns s hs.symm

theorem readJSONObject_of_document (J : JSONLib) (fs : FS) (path : Str) (missingOK : Bool)
    (data : FileData) (root : Obj) (hfile : fs.file path = .present data)
    (hdoc : fileJSON J data = some (.obj root)) :
    readJSONObject J fs path missingOK = .ok (some root) := by
  simp [readJSONObject, readFile, hfile, hdoc]

theorem readJSONKey_of_document (J : JSONLib) (fs : FS) (path : Str) (missingOK : Bool)
    (key : Str) (data : FileData) (root : Obj) (hfile : fs.file path = .present data)
    (hdoc : fileJSON J data = some (.obj root)) :
    ReadJSONKey J fs path missingOK key =
      match getJSONPath root key with
      | .error e => .error e
      | .ok none => .ok []
      | .ok (some val) =>
        match toStringSlice val with
        | some list => .ok list
        | none => .error (.notStringArray key) := by
  unfold ReadJSONKey
  rw [readJSONObject_of_document J fs path missingOK data root hfile hdoc]

/-- C19. `ReadJSONKey` returns the empty list without error when the file is missing
and `missingOK` is set, and, for a file that holds a document, when the path of the key
is absent from the document (a segment is missing from the object reached so far); it
returns the strings of the array in order when the value at the key is an array of
strings, and fails with the error "not an array of strings" for every other value
present at the key: `null`, a boolean, a number, a string, an object, and an array with
an element that is not a string. -/
theorem readJSONKey_results (J : JSONLib) (fs : FS) (path : Str) (missingOK : Bool)
    (key : Str) :
    (fs.file path = .absent → missingOK = true →
      ReadJSONKey J fs path missingOK key = .ok []) ∧
    (∀ data root, fs.file path = .present data → fileJSON J data = some (.obj root) →
      (getJSONPath root key = .ok none → ReadJSONKey J fs path missingOK key = .ok []) ∧
      (key ≠ [] → absentSegment (.obj root) (splitOn '.' key) →
        ReadJSONKey J fs path missingOK key = .ok []) ∧
      (∀ l : List Str, getJSONPath root key = .ok (some (.arr (l.map JSON.str))) →
        ReadJSONKey J fs path missingOK key = .ok l) ∧
      (∀ v, getJSONPath root key = .ok (some v) → (∀ l : List Str, v ≠ .arr (l.map JSON.str)) →
        ReadJSONKey J fs path missingOK key = .error (.notStringArray key)) ∧
      (∀ v, getJSONPath root key = .ok (some v) →
        (v = .null ∨ (∃ b, v = .bool b) ∨ (∃ n, v = .num n) ∨ (∃ s, v = .str s) ∨
          (∃ o, v = .obj o) ∨ ∃ items, v = .arr items ∧ ∃ x ∈ items, ∀ s : Str, x ≠ .str s) →
        ReadJSONKey J fs path missingOK key = .error (.notStringArray key))) := by
  refine ⟨?_, ?_⟩
  · intro hfile hm
    simp [ReadJSONKey, readJSONObject, readFile, hfile, hm]
  · intro data root hfile hdoc
    have hread := readJSONKey_of_document J fs path missingOK key data root hfile hdoc
    have hother : ∀ v, getJSONPath root key = .ok (some v) →
        (∀ l : List Str, v ≠ .arr (l.map JSON.str)) →
        ReadJSONKey J fs path missingOK key = .error (.notStringArray key) := by
      intro v hget hv
      rw [hread, hget]
      simp only [(toStringSlice_eq_none v).2 hv]
    refine ⟨?_, ?_, ?_, hother, ?_⟩
    · intro hget
      rw [hread, hget]
    · intro hkey habsent
      rw [hread, (getJSONPath_notFound_iff root key hkey).2 habsent]
    · intro l hget
      rw [hread, hget]
      simp only [(toStringSlice_eq_some _ l).2 rfl]
    · intro v hget hv
      apply hother v hget
      rcases hv with h | ⟨b, h⟩ | ⟨n, h⟩ | ⟨s, h⟩ | ⟨o, h⟩ | ⟨items, h, x, hx, hns⟩
      · subst h; intro l hl; cases hl
      · subst h; intro l hl; cases hl
      · subst h; intro l hl; cases hl
      · subst h; intro l hl; cases hl
      · subst h; intro l hl; cases hl
      · subst h; exact arr_ne_strings_of_mem items x hx hns

/-! ### The JSON-array format -/

theorem normalize_fixed (xs : List Str) (hdistinct : xs.Nodup)
    (hentries : ∀ e ∈ xs, e ≠ [] ∧ TrimSpace e = e) : Normalize xs false = xs := by
  rw [normalize_unsorted, trimmedNonEmpty_fixed xs (fun e he => ⟨(hentries e he).2,
    (hentries e he).1⟩), keepFirst_of_nodup xs hdistinct]

/-- C14. For every list `xs` of distinct, non-empty, trimmed strings (as a slice that is
`nil` or not), after a successful `JSONArrayFormat.Write` of `xs` at a path,
`JSONArrayFormat.Read` at that path returns `Normalize(xs, false)`, which is `xs`. -/
theorem jsonArray_round_trip (J : JSONLib) (fs fs' : FS) (path : Str) (missingOK : Bool)
    (values : Option (List Str)) (hdistinct : (values.getD []).Nodup)
    (hentries : ∀ e ∈ values.getD [], e ≠ [] ∧ TrimSpace e = e)
    (hwrite : ListFormat.jsonArray.write fs path values = .ok fs') :
    ListFormat.jsonArray.read J fs' path missingOK = .ok (Normalize (values.getD []) false) ∧
      Normalize (values.getD []) false = values.getD [] := by
  have hfix := normalize_fixed _ hdistinct hentries
  refine ⟨?_, hfix⟩
  rw [hfix]
  obtain ⟨_, hfile⟩ := listFormat_write_ok _ fs fs' path values hwrite
  cases values with
  | none =>
    simp [ListFormat.read, readOrMissing, readFile, hfile, ListFormat.content, fileJSON,
      sliceJSON, decodeStringSlice]
  | some xs =>
    exact listFormat_read_written J .jsonArray fs' path missingOK xs hfile (fun h => by cases h)

theorem jsonArray_round_trip_witness :
    ∃ fs', ListFormat.jsonArray.write emptySettings "allow.json".toList
        (some ["git status".toList, "ls".toList]) = .ok fs' ∧
      ListFormat.jsonArray.read noJSON fs' "allow.json".toList false
        = .ok (Normalize ["git status".toList, "ls".toList] false) ∧
      Normalize ["git status".toList, "ls".toList] false
        = ["git status".toList, "ls".toList] :=
  ⟨_, rfl, jsonArray_round_trip noJSON emptySettings _ "allow.json".toList false
    (some ["git status".toList, "ls".toList]) (by decide) (by decide) rfl⟩

/-! ### Failures of a run -/

/-- When some client's read fails, the read loop returns the error of the first client
whose read fails. -/
theorem readSnapshots_error_split (J : JSONLib) (fs : FS) (sortLists : Bool)
    (clients : List Client) (h : ∃ c ∈ clients, ∃ e, readClient J fs c = .error e) :
    ∃ pre d post e, clients = pre ++ d :: post ∧ readsSucceed J fs pre ∧
      readClient J fs d = .error e ∧ readSnapshots J fs sortLists clients = .error e := by
  induction clients with
  | nil =>
    obtain ⟨c, hc, _⟩ := h
    cases hc
  | cons c rest ih =>
    cases hr : readClient J fs c with
    | error e =>
      refine ⟨[], c, rest, e, rfl, ?_, hr, ?_⟩
      · intro d hd; cases hd
      · unfold readSnapshots
        rw [hr]
    | ok r =>
      obtain ⟨allow, deny⟩ := r
      have hrest : ∃ d ∈ rest, ∃ e, readClient J fs d = .error e := by
        obtain ⟨d, hd, e, he⟩ := h
        rcases List.mem_cons.1 hd with rfl | hd
        · rw [hr] at he; cases he
        · exact ⟨d, hd, e, he⟩
      obtain ⟨pre, d, post, e, hsplit, hpre, hd, hsnaps⟩ := ih hrest
      refine ⟨c :: pre, d, post, e, by rw [hsplit]; rfl, ?_, hd, ?_⟩
      · intro x hx
        rcases List.mem_cons.1 hx with rfl | hx
        · exact ⟨_, hr⟩
        · exact hpre x hx
      · unfold readSnapshots
        rw [hr]
        simp only [hsnaps]

theorem not_readsSucceed (J : JSONLib) (fs : FS) (clients : List Client)
    (h : ¬ readsSucceed J fs clients) : ∃ c ∈ clients, ∃ e, readClient J fs c = .error e := by
  by_contra hno
  apply h
  intro c hc
  cases hr : readClient J fs c with
  | ok r => exact ⟨r, rfl⟩
  | error e => exact absurd ⟨c, hc, e, hr⟩ hno

/-- A run whose read phase fails returns the error of the read loop and the file system
it was given. -/
theorem run_of_read_error (J : JSONLib) (cfg : Config) (opts : Options) (fs : FS) (e : Err)
    (h : readSnapshots J fs (cfg.sort.getD true) cfg.clients = .error e) :
    Run J cfg opts fs = (.error e, fs) := by
  unfold Run
  simp only [h]

/-- A run whose reads succeed and whose merge fails returns the error of the merge and
the file system it was given. -/
theorem run_of_merge_error (J : JSONLib) (cfg : Config) (opts : Options) (fs : FS) (e : Err)
    (hreads : readsSucceed J fs cfg.clients)
    (hmerge : mergeSnapshots (if cfg.mode = [] then "union".toList else cfg.mode) cfg.source
      (cfg.sort.getD true) (snapshotsOf J fs (cfg.sort.getD true) cfg.clients) = .error e) :
    Run J cfg opts fs = (.error e, fs) := by
  unfold Run
  simp only [readSnapshots_of_readsSucceed J fs _ cfg.clients hreads, hmerge]

theorem readsSucceed_filesAuthoritative (mode : Str) :
    readsSucceed noJSON (filesAuthoritative true) (modeAB mode).clients := by
  intro c hc
  simp only [modeAB, List.mem_cons, List.mem_singleton, List.not_mem_nil, or_false] at hc
  rcases hc with rfl | rfl
  · exact ⟨(["A".toList], ["X".toList]), by decide⟩
  · exact ⟨(["B".toList], ["Y".toList]), by decide⟩

/-- C15. If the read of any client fails, `Run` returns an error, the error of the
first client in the order whose read fails, and the file system after the run is the
file system before it: no file is modified, the files of the earlier clients, whose
reads succeeded, included. -/
theorem run_read_failure (J : JSONLib) (cfg : Config) (opts : Options) (fs : FS)
    (c : Client) (e : Err) (hc : c ∈ cfg.clients) (hfail : readClient J fs c = .error e) :
    ∃ pre d post e', cfg.clients = pre ++ d :: post ∧ readsSucceed J fs pre ∧
      readClient J fs d = .error e' ∧ Run J cfg opts fs = (.error e', fs) := by
  obtain ⟨pre, d, post, e', hsplit, hpre, hd, hsnaps⟩ :=
    readSnapshots_error_split J fs (cfg.sort.getD true) cfg.clients ⟨c, hc, e, hfail⟩
  exact ⟨pre, d, post, e', hsplit, hpre, hd, run_of_read_error J cfg opts fs e' hsnaps⟩

theorem run_read_failure_witness :
    ∃ pre d post e', authoritativeAB.clients = pre ++ d :: post ∧
      readsSucceed noJSON (filesAuthoritative false) pre ∧
      readClient noJSON (filesAuthoritative false) d = .error e' ∧
      Run noJSON authoritativeAB ⟨false⟩ (filesAuthoritative false)
        = (.error e', filesAuthoritative false) :=
  run_read_failure noJSON authoritativeAB ⟨false⟩ (filesAuthoritative false)
    (strictClient "b".toList "b.allow".toList "b.deny".toList)
    (.client "b".toList "allow".toList (.notExist "b.allow".toList))
    (by simp [authoritativeAB]) (by decide)

theorem mem_flatMap_snapshotsOf (J : JSONLib) (fs : FS) (sortLists : Bool)
    (clients : List Client) (e : Str) :
    (e ∈ (snapshotsOf J fs sortLists clients).flatMap (fun snap => snap.policy.allow) ↔
      ∃ c ∈ clients, e ∈ (ownPolicy J fs sortLists c).allow) ∧
    (e ∈ (snapshotsOf J fs sortLists clients).flatMap (fun snap => snap.policy.deny) ↔
      ∃ c ∈ clients, e ∈ (ownPolicy J fs sortLists c).deny) := by
  unfold snapshotsOf
  simp [List.mem_flatMap]

/-- The merge over what two calls read from one file system, when the two calls read for
every client the same up to the order of the entries: the same error, or policies with
the same entries, which are one policy when sorting is enabled. -/
theorem mergeSnapshots_sameUpToOrder (J J2 : JSONLib) (fs : FS) (sortLists : Bool)
    (mode source : Str) (clients : List Client)
    (h : ∀ c ∈ clients, sameUpToOrder (readClient J fs c) (readClient J2 fs c)) :
    (∀ e, mergeSnapshots mode source sortLists (snapshotsOf J fs sortLists clients) = .error e ↔
      mergeSnapshots mode source sortLists (snapshotsOf J2 fs sortLists clients) = .error e) ∧
    (∀ p p2, mergeSnapshots mode source sortLists (snapshotsOf J fs sortLists clients) = .ok p →
      mergeSnapshots mode source sortLists (snapshotsOf J2 fs sortLists clients) = .ok p2 →
      p.allow.Perm p2.allow ∧ p.deny.Perm p2.deny ∧ (sortLists = true → p = p2)) := by
  have hown := fun c hc => ownPolicy_sameUpToOrder J J2 fs fs sortLists c (h c hc)
  unfold mergeSnapshots
  by_cases h1 : mode = "union".toList
  · simp only [if_pos h1]
    refine ⟨fun e => ⟨fun x => (by cases x), fun x => (by cases x)⟩, ?_⟩
    intro p p2 hp hp2
    simp only [Except.ok.injEq] at hp hp2
    subst hp
    subst hp2
    have hma : ∀ e,
        e ∈ (snapshotsOf J fs sortLists clients).flatMap (fun snap => snap.policy.allow) ↔
        e ∈ (snapshotsOf J2 fs sortLists clients).flatMap (fun snap => snap.policy.allow) := by
      intro e
      rw [(mem_flatMap_snapshotsOf J fs sortLists clients e).1,
        (mem_flatMap_snapshotsOf J2 fs sortLists clients e).1]
      constructor
      · rintro ⟨c, hc, he⟩
        exact ⟨c, hc, (hown c hc).1.mem_iff.1 he⟩
      · rintro ⟨c, hc, he⟩
        exact ⟨c, hc, (hown c hc).1.mem_iff.2 he⟩
    have hmd : ∀ e,
        e ∈ (snapshotsOf J fs sortLists clients).flatMap (fun snap => snap.policy.deny) ↔
        e ∈ (snapshotsOf J2 fs sortLists clients).flatMap (fun snap => snap.policy.deny) := by
      intro e
      rw [(mem_flatMap_snapshotsOf J fs sortLists clients e).2,
        (mem_flatMap_snapshotsOf J2 fs sortLists clients e).2]
      constructor
      · rintro ⟨c, hc, he⟩
        exact ⟨c, hc, (hown c hc).2.1.mem_iff.1 he⟩
      · rintro ⟨c, hc, he⟩
        exact ⟨c, hc, (hown c hc).2.1.mem_iff.2 he⟩
    have hna := normalize_same_entries _ _ hma sortLists
    have hnd := normalize_same_entries _ _ hmd sortLists
    refine ⟨hna.1, hnd.1, ?_⟩
    intro hs
    subst hs
    rw [hna.2, hnd.2]
  · simp only [if_neg h1]
    by_cases h2 : mode = "authoritative".toList
    · simp only [if_pos h2]
      by_cases h3 : source = []
      · simp only [if_pos h3]
        exact ⟨by simp, fun p p2 hp => by cases hp⟩
      · simp only [if_neg h3, findSource_snapshotsOf]
        cases hf : clients.find? (fun c => decide (c.name = source)) with
        | none => exact ⟨by simp, fun p p2 hp => by cases hp⟩
        | some src =>
          refine ⟨fun e => ⟨fun x => (by cases x), fun x => (by cases x)⟩, ?_⟩
          intro p p2 hp hp2
          simp only [Option.map_some', Except.ok.injEq] at hp hp2
          subst hp
          subst hp2
          exact hown src (List.mem_of_find?_eq_some hf)
    · simp only [if_neg h2]
      exact ⟨by simp, fun p p2 hp => by cases hp⟩

theorem readsSucceed_sameLibrary (J J2 : JSONLib) (h : sameLibrary J J2) (fs : FS)
    (clients : List Client) (hreads : readsSucceed J2 fs clients) :
    readsSucceed J fs clients := by
  intro c hc
  obtain ⟨r2, hr2⟩ := hreads c hc
  have hsame := (readClient_sameLibrary J J2 h fs c).1
  rw [hr2] at hsame
  cases hr : readClient J fs c with
  | ok r => exact ⟨r, rfl⟩
  | error e => rw [hr] at hsame; exact absurd hsame id

/-- C16. A dry run never modifies a file: for every configuration and every file system
state, the file system after the run is the file system before it, whether the run
succeeds or fails. A dry run succeeds exactly when every read and the merge succeed,
and it then returns the merged policy. Whenever a run that is not a dry run succeeds
from the same state, in this call or another, the dry run succeeds too, with a policy
of the same entries, which is the same policy when sorting is enabled (the order in
which a Boolean map is walked may differ from one call to the next). -/
theorem run_dry_run (J : JSONLib) (cfg : Config) (fs : FS) :
    (Run J cfg ⟨true⟩ fs).2 = fs ∧
    (∀ merged, (Run J cfg ⟨true⟩ fs).1 = .ok merged ↔
      (readsSucceed J fs cfg.clients ∧
        mergeSnapshots (if cfg.mode = [] then "union".toList else cfg.mode) cfg.source
          (cfg.sort.getD true) (snapshotsOf J fs (cfg.sort.getD true) cfg.clients)
        = .ok merged)) ∧
    (∀ (J2 : JSONLib) (merged : Policy) (fs' : FS), sameLibrary J J2 →
      Run J2 cfg ⟨false⟩ fs = (.ok merged, fs') →
      ∃ dry, Run J cfg ⟨true⟩ fs = (.ok dry, fs) ∧
        dry.allow.Perm merged.allow ∧ dry.deny.Perm merged.deny ∧
        (cfg.sort.getD true = true → dry = merged)) := by
  have hcross : ∀ (J2 : JSONLib) (merged : Policy) (fs' : FS), sameLibrary J J2 →
      Run J2 cfg ⟨false⟩ fs = (.ok merged, fs') →
      ∃ dry, Run J cfg ⟨true⟩ fs = (.ok dry, fs) ∧
        dry.allow.Perm merged.allow ∧ dry.deny.Perm merged.deny ∧
        (cfg.sort.getD true = true → dry = merged) := by
    intro J2 merged fs' hlib hrun
    obtain ⟨hreads2, hmerge2, _⟩ := run_ok_inv J2 cfg fs fs' merged hrun
    have hreads := readsSucceed_sameLibrary J J2 hlib fs cfg.clients hreads2
    obtain ⟨herr, hok⟩ := mergeSnapshots_sameUpToOrder J J2 fs (cfg.sort.getD true)
      (if cfg.mode = [] then "union".toList else cfg.mode) cfg.source cfg.clients
      (fun c _ => (readClient_sameLibrary J J2 hlib fs c).1)
    cases hm : mergeSnapshots (if cfg.mode = [] then "union".toList else cfg.mode) cfg.source
        (cfg.sort.getD true) (snapshotsOf J fs (cfg.sort.getD true) cfg.clients) with
    | error e =>
      have := (herr e).1 hm
      rw [hmerge2] at this
      cases this
    | ok dry =>
      exact ⟨dry, (run_after_merge J cfg ⟨true⟩ fs dry hreads hm).1 rfl, hok dry merged hm hmerge2⟩
  by_cases hreads : readsSucceed J fs cfg.clients
  · cases hm : mergeSnapshots (if cfg.mode = [] then "union".toList else cfg.mode) cfg.source
        (cfg.sort.getD true) (snapshotsOf J fs (cfg.sort.getD true) cfg.clients) with
    | error e =>
      have hrun := run_of_merge_error J cfg ⟨true⟩ fs e hreads hm
      refine ⟨by rw [hrun], ?_, hcross⟩
      intro merged
      rw [hrun]
      simp
    | ok m =>
      have hrun := (run_after_merge J cfg ⟨true⟩ fs m hreads hm).1 rfl
      refine ⟨by rw [hrun], ?_, hcross⟩
      intro merged
      rw [hrun]
      simp [hreads]
  · obtain ⟨pre, d, post, e, _, _, _, hsnaps⟩ := readSnapshots_error_split J fs
      (cfg.sort.getD true) cfg.clients (not_readsSucceed J fs cfg.clients hreads)
    have hrun := run_of_read_error J cfg ⟨true⟩ fs e hsnaps
    refine ⟨by rw [hrun], ?_, hcross⟩
    intro merged
    rw [hrun]
    simp [hreads]

/-- The merge of authoritative mode over the snapshots of a read phase without error. -/
theorem mergeSnapshots_authoritative_cases (J : JSONLib) (fs : FS) (sortLists : Bool)
    (source : Str) (clients : List Client) :
    mergeSnapshots "authoritative".toList source sortLists (snapshotsOf J fs sortLists clients)
      = if source = [] then .error .sourceRequired
        else match clients.find? (fun c => decide (c.name = source)) with
          | some src => .ok (ownPolicy J fs sortLists src)
          | none => .error (.sourceNotFound source) := by
  have hne : ¬ "authoritative".toList = "union".toList := by decide
  unfold mergeSnapshots
  rw [if_neg hne, if_pos rfl, findSource_snapshotsOf]
  cases clients.find? (fun c => decide (c.name = source)) <;> rfl

theorem find_source_none (source : Str) (clients : List Client) :
    clients.find? (fun c => decide (c.name = source)) = none ↔
      ∀ c ∈ clients, c.name ≠ source := by
  simp [List.find?_eq_none]

/-- C17 (as stated, refuted). In the authoritative example the source `a` is not empty
and names a declared client and every client's read succeeds, yet with files that cannot
be written the run that is not a dry run fails, with the error of the first write. -/
theorem run_authoritative_write_failure :
    authoritativeAB.mode = "authoritative".toList ∧
    authoritativeAB.source ≠ [] ∧
    (∃ c ∈ authoritativeAB.clients, c.name = authoritativeAB.source) ∧
    readClient noJSON filesAuthoritativeReadOnly
        (strictClient "a".toList "a.allow".toList "a.deny".toList)
      = .ok (["A".toList], ["X".toList]) ∧
    readClient noJSON filesAuthoritativeReadOnly
        (strictClient "b".toList "b.allow".toList "b.deny".toList)
      = .ok (["B".toList], ["Y".toList]) ∧
    (Run noJSON authoritativeAB ⟨false⟩ filesAuthoritativeReadOnly).1
      = .error (.client "a".toList "allow write".toList (.ioError "a.allow".toList)) := by
  refine ⟨rfl, by decide, ⟨_, List.mem_cons_self _ _, rfl⟩, by decide, by decide, by decide⟩

/-- The write loop stops at the first client whose write fails, with the file system as
the writes before have left it. -/
theorem writeSnapshots_fail (J : JSONLib) (merged : Policy) (pre : List ClientSnapshot) :
    ∀ (snap : ClientSnapshot) (post : List ClientSnapshot) (fs fsa fsb : FS) (e : Err),
      writeSnapshots J merged pre fs = (none, fsa) →
      writeClient J merged snap.client fsa = (some e, fsb) →
      writeSnapshots J merged (pre ++ snap :: post) fs = (some e, fsb) := by
  induction pre with
  | nil =>
    intro snap post fs fsa fsb e hpre hc
    simp only [writeSnapshots, Prod.mk.injEq, true_and] at hpre
    subst hpre
    simp only [List.nil_append, writeSnapshots, hc]
  | cons s0 rest ih =>
    intro snap post fs fsa fsb e hpre hc
    simp only [writeSnapshots] at hpre
    cases h0 : writeClient J merged s0.client fs with
    | mk e0 fs0 =>
      rw [h0] at hpre
      cases e0 with
      | some e1 => simp at hpre
      | none =>
        simp only at hpre
        simp only [List.cons_append, writeSnapshots, h0]
        exact ih snap post fs0 fsa fsb e hpre hc

/-- C17 (amended). In authoritative mode, when every client's read succeeds: with an
empty source `Run` fails with the error "authoritative mode requires source", and with
a source that no client's name equals it fails with the error "source not found"; in
both cases the file system is left as it was. A dry run fails if and only if the source
is empty or no client's name equals it. A run fails if and only if the source is empty,
or no client's name equals it, or the run is not a dry run and a write of the policy of
the source client fails; in the last case `Run` returns the error of the first client
whose write fails and leaves the file system as the writes of the clients before it, and
the writes of that client before the failing one, have changed it. -/
theorem run_authoritative_failure (J : JSONLib) (cfg : Config) (opts : Options) (fs : FS)
    (hmode : cfg.mode = "authoritative".toList) (hreads : readsSucceed J fs cfg.clients) :
    (cfg.source = [] → Run J cfg opts fs = (.error .sourceRequired, fs)) ∧
    (cfg.source ≠ [] → (∀ c ∈ cfg.clients, c.name ≠ cfg.source) →
      Run J cfg opts fs = (.error (.sourceNotFound cfg.source), fs)) ∧
    (opts.dryRun = true →
      ((∃ e, (Run J cfg opts fs).1 = .error e) ↔
        (cfg.source = [] ∨ ∀ c ∈ cfg.clients, c.name ≠ cfg.source))) ∧
    ((∃ e, (Run J cfg opts fs).1 = .error e) ↔
      (cfg.source = [] ∨ (∀ c ∈ cfg.clients, c.name ≠ cfg.source) ∨
        (opts.dryRun = false ∧ ∃ src e fs1,
          cfg.clients.find? (fun c => decide (c.name = cfg.source)) = some src ∧
          writeSnapshots J (ownPolicy J fs (cfg.sort.getD true) src)
            (snapshotsOf J fs (cfg.sort.getD true) cfg.clients) fs = (some e, fs1)))) ∧
    (∀ (src : Client) (pre post : List Client) (c : Client) (e : Err) (fsa fsb : FS),
      opts.dryRun = false → cfg.source ≠ [] →
      cfg.clients.find? (fun c => decide (c.name = cfg.source)) = some src →
      cfg.clients = pre ++ c :: post →
      writeSnapshots J (ownPolicy J fs (cfg.sort.getD true) src)
        (snapshotsOf J fs (cfg.sort.getD true) pre) fs = (none, fsa) →
      writeClient J (ownPolicy J fs (cfg.sort.getD true) src) c fsa = (some e, fsb) →
      Run J cfg opts fs = (.error e, fsb)) := by
  have hm : (if cfg.mode = [] then "union".toList else cfg.mode) = "authoritative".toList := by
    rw [hmode]; decide
  have hcases := mergeSnapshots_authoritative_cases J fs (cfg.sort.getD true) cfg.source
    cfg.clients
  rw [← hm] at hcases
  have hfail : ∀ (src : Client) (pre post : List Client) (c : Client) (e : Err) (fsa fsb : FS),
      opts.dryRun = false → cfg.source ≠ [] →
      cfg.clients.find? (fun c => decide (c.name = cfg.source)) = some src →
      cfg.clients = pre ++ c :: post →
      writeSnapshots J (ownPolicy J fs (cfg.sort.getD true) src)
        (snapshotsOf J fs (cfg.sort.getD true) pre) fs = (none, fsa) →
      writeClient J (ownPolicy J fs (cfg.sort.getD true) src) c fsa = (some e, fsb) →
      Run J cfg opts fs = (.error e, fsb) := by
    intro src pre post c e fsa fsb hd hsource hfind hsplit hpre hc
    rw [if_neg hsource, hfind] at hcases
    have hsnaps : snapshotsOf J fs (cfg.sort.getD true) cfg.clients
        = snapshotsOf J fs (cfg.sort.getD true) pre
          ++ ⟨c, ownPolicy J fs (cfg.sort.getD true) c⟩
            :: snapshotsOf J fs (cfg.sort.getD true) post := by
      rw [hsplit]
      simp [snapshotsOf]
    have hw := writeSnapshots_fail J _ _ ⟨c, ownPolicy J fs (cfg.sort.getD true) c⟩
      (snapshotsOf J fs (cfg.sort.getD true) post) fs fsa fsb e hpre hc
    rw [← hsnaps] at hw
    rw [(run_after_merge J cfg opts fs _ hreads hcases).2 hd, hw]
  by_cases hsource : cfg.source = []
  · rw [if_pos hsource] at hcases
    have hrun := run_of_merge_error J cfg opts fs _ hreads hcases
    refine ⟨fun _ => hrun, fun h => absurd hsource h, fun _ => ?_, ?_, hfail⟩
    · rw [hrun]
      exact ⟨fun _ => Or.inl hsource, fun _ => ⟨_, rfl⟩⟩
    · rw [hrun]
      exact ⟨fun _ => Or.inl hsource, fun _ => ⟨_, rfl⟩⟩
  · rw [if_neg hsource] at hcases
    cases hfind : cfg.clients.find? (fun c => decide (c.name = cfg.source)) with
    | none =>
      have hnone := (find_source_none cfg.source cfg.clients).1 hfind
      rw [hfind] at hcases
      have hrun := run_of_merge_error J cfg opts fs _ hreads hcases
      refine ⟨fun h => absurd h hsource, fun _ _ => hrun, fun _ => ?_, ?_,
        fun src1 pre post c e fsa fsb hd hs hf =>
          hfail src1 pre post c e fsa fsb hd hs (hfind.trans hf)⟩
      · rw [hrun]
        exact ⟨fun _ => Or.inr hnone, fun _ => ⟨_, rfl⟩⟩
      · rw [hrun]
        exact ⟨fun _ => Or.inr (Or.inl hnone), fun _ => ⟨_, rfl⟩⟩
    | some src =>
      have hsome : ¬ ∀ c ∈ cfg.clients, c.name ≠ cfg.source := by
        intro hall
        rw [(find_source_none cfg.source cfg.clients).2 hall] at hfind
        cases hfind
      rw [hfind] at hcases
      obtain ⟨hdry, hwet⟩ := run_after_merge J cfg opts fs _ hreads hcases
      refine ⟨fun h => absurd h hsource, fun _ h => absurd h hsome, fun hd => ?_, ?_,
        fun src1 pre post c e fsa fsb hd hs hf =>
          hfail src1 pre post c e fsa fsb hd hs (hfind.trans hf)⟩
      · rw [hdry hd]
        constructor
        · rintro ⟨e, he⟩
          cases he
        · rintro (h | h)
          · exact absurd h hsource
          · exact absurd h hsome
      · cases hd : opts.dryRun with
        | true =>
          rw [hdry hd]
          constructor
          · rintro ⟨e, he⟩
            cases he
          · rintro (h | h | ⟨h, _⟩)
            · exact absurd h hsource
            · exact absurd h hsome
            · cases h
        | false =>
          rw [hwet hd]
          cases hw : writeSnapshots J (ownPolicy J fs (cfg.sort.getD true) src)
              (snapshotsOf J fs (cfg.sort.getD true) cfg.clients) fs with
          | mk e? fs1 =>
            cases e? with
            | none =>
              constructor
              · rintro ⟨e, he⟩
                cases he
              · rintro (h | h | ⟨_, src', e, fs2, hsrc', hw'⟩)
                · exact absurd h hsource
                · exact absurd h hsome
                · simp only [Option.some.injEq] at hsrc'
                  subst hsrc'
                  rw [hw] at hw'
                  cases hw'
            | some e =>
              exact ⟨fun _ => Or.inr (Or.inr ⟨rfl, src, e, fs1, rfl, hw⟩), fun _ => ⟨e, rfl⟩⟩

theorem run_authoritative_failure_witness :
    authoritativeBA.mode = "authoritative".toList ∧
    readsSucceed noJSON filesWritableA authoritativeBA.clients ∧
    filesWritableA.file "a.allow".toList = .present (.text "A\n".toList) ∧
    ∃ fsb, Run noJSON authoritativeBA ⟨false⟩ filesWritableA
        = (.error (.client "b".toList "allow write".toList (.ioError "b.allow".toList)), fsb) ∧
      fsb.file "a.allow".toList = .present (.text "B\n".toList) ∧
      fsb.file "a.deny".toList = .present (.text "Y\n".toList) ∧
      fsb.file "b.allow".toList = .present (.text "B\n".toList) := by
  have hreads : readsSucceed noJSON filesWritableA authoritativeBA.clients := by
    intro c hc
    simp only [authoritativeBA, List.mem_cons, List.mem_singleton, List.not_mem_nil,
      or_false] at hc
    rcases hc with rfl | rfl
    · exact ⟨(["A".toList], ["X".toList]), by decide⟩
    · exact ⟨(["B".toList], ["Y".toList]), by decide⟩
  exact ⟨rfl, hreads, rfl, _,
    (run_authoritative_failure noJSON authoritativeBA ⟨false⟩ filesWritableA rfl
      hreads).2.2.2.2 (strictClient "b".toList "b.allow".toList "b.deny".toList)
      [strictClient "a".toList "a.allow".toList "a.deny".toList] []
      (strictClient "b".toList "b.allow".toList "b.deny".toList)
      (.client "b".toList "allow write".toList (.ioError "b.allow".toList)) _ _
      rfl (by decide) rfl rfl rfl rfl,
    by rfl, by rfl, by rfl⟩

/-- C18 (as stated, refuted). With the mode string `merge`, which is none of `union`,
`authoritative` and the empty string, and the files of client `b` missing, `Run` fails
with the error of the read of `b`, not with an unknown-mode error: the mode is examined
only after the read phase. -/
theorem run_unknown_mode_read_error :
    (modeAB "merge".toList).mode ≠ "union".toList ∧
    (modeAB "merge".toList).mode ≠ "authoritative".toList ∧
    (modeAB "merge".toList).mode ≠ [] ∧
    (Run noJSON (modeAB "merge".toList) ⟨false⟩ (filesAuthoritative false)).1
      = .error (.client "b".toList "allow".toList (.notExist "b.allow".toList)) ∧
    (Run noJSON (modeAB "merge".toList) ⟨false⟩ (filesAuthoritative false)).1
      ≠ .error (.unknownMode "merge".toList) := by
  refine ⟨by decide, by decide, by decide, by decide, by decide⟩

/-- C18 (amended). The empty mode string stands for `union`. For every mode string other
than `union`, `authoritative` and the empty string, compared exactly, `Run` fails and
leaves the file system as it was: with the unknown-mode error when every client's read
succeeds, and with the error of the first failing read otherwise. -/
theorem run_unknown_mode (J : JSONLib) (cfg : Config) (opts : Options) (fs : FS)
    (hunion : cfg.mode ≠ "union".toList) (hauth : cfg.mode ≠ "authoritative".toList)
    (hempty : cfg.mode ≠ []) :
    (∃ e, Run J cfg opts fs = (.error e, fs)) ∧
    (readsSucceed J fs cfg.clients →
      Run J cfg opts fs = (.error (.unknownMode cfg.mode), fs)) ∧
    (¬ readsSucceed J fs cfg.clients →
      ∃ pre d post e, cfg.clients = pre ++ d :: post ∧ readsSucceed J fs pre ∧
        readClient J fs d = .error e ∧ Run J cfg opts fs = (.error e, fs)) ∧
    Run J ⟨[], cfg.source, cfg.sort, cfg.clients⟩ opts fs
      = Run J ⟨"union".toList, cfg.source, cfg.sort, cfg.clients⟩ opts fs := by
  have hm : (if cfg.mode = [] then "union".toList else cfg.mode) = cfg.mode := if_neg hempty
  have hmerge : ∀ snaps, mergeSnapshots (if cfg.mode = [] then "union".toList else cfg.mode)
      cfg.source (cfg.sort.getD true) snaps = .error (.unknownMode cfg.mode) := by
    intro snaps
    rw [hm]
    unfold mergeSnapshots
    rw [if_neg hunion, if_neg hauth]
  have hok : readsSucceed J fs cfg.clients →
      Run J cfg opts fs = (.error (.unknownMode cfg.mode), fs) :=
    fun hreads => run_of_merge_error J cfg opts fs _ hreads (hmerge _)
  have hfail : ¬ readsSucceed J fs cfg.clients →
      ∃ pre d post e, cfg.clients = pre ++ d :: post ∧ readsSucceed J fs pre ∧
        readClient J fs d = .error e ∧ Run J cfg opts fs = (.error e, fs) := by
    intro hreads
    obtain ⟨pre, d, post, e, hsplit, hpre, hd, hsnaps⟩ := readSnapshots_error_split J fs
      (cfg.sort.getD true) cfg.clients (not_readsSucceed J fs cfg.clients hreads)
    exact ⟨pre, d, post, e, hsplit, hpre, hd, run_of_read_error J cfg opts fs e hsnaps⟩
  refine ⟨?_, hok, hfail, ?_⟩
  · by_cases hreads : readsSucceed J fs cfg.clients
    · exact ⟨_, hok hreads⟩
    · obtain ⟨_, _, _, e, _, _, _, hrun⟩ := hfail hreads
      exact ⟨e, hrun⟩
  · unfold Run
    simp

theorem run_unknown_mode_witness :
    (modeAB "Union".toList).mode ≠ "union".toList ∧
    readsSucceed noJSON (filesAuthoritative true) (modeAB "Union".toList).clients ∧
    Run noJSON (modeAB "Union".toList) ⟨false⟩ (filesAuthoritative true)
      = (.error (.unknownMode "Union".toList), filesAuthoritative true) :=
  ⟨by decide, readsSucceed_filesAuthoritative _,
    (run_unknown_mode noJSON (modeAB "Union".toList) ⟨false⟩ (filesAuthoritative true)
      (by decide) (by decide) (by decide)).2.1 (readsSucceed_filesAuthoritative _)⟩

/-! ### The reader of the rule file -/

/-- The loop of `ReadCodexRules` from any state: it appends the managed rules of the
remaining lines, with the flag `expectManaged` in the place of "the previous line was a
marker line". -/
theorem foldl_ruleReadState (lines : List Str) :
    ∀ st : RuleReadState,
      (lines.foldl RuleReadState.step st).allow
        = st.allow ++ managedRules "allow".toList st.expectManaged lines ∧
      (lines.foldl RuleReadState.step st).deny
        = st.deny ++ managedRules "forbidden".toList st.expectManaged lines := by
  have hne : ¬ "allow".toList = "forbidden".toList := by decide
  induction lines with
  | nil => intro st; simp [managedRules]
  | cons line rest ih =>
    intro st
    rw [List.foldl_cons, (ih _).1, (ih _).2]
    simp only [managedRules]
    by_cases hm : isMarkerLine line = true
    · simp [RuleReadState.step, hm]
    · have hm' : isMarkerLine line = false := by simpa using hm
      cases he : st.expectManaged with
      | false => simp [RuleReadState.step, hm', he]
      | true =>
        cases hp : parseCodexRuleLine line with
        | none => simp [RuleReadState.step, hm', he, hp, ruleOf]
        | some r =>
          obtain ⟨pattern, decision⟩ := r
          by_cases ha : decision = "allow".toList
          · have hf : ¬ decision = "forbidden".toList := by rw [ha]; exact hne
            simp [RuleReadState.step, hm', he, hp, ruleOf, ha, hne]
          · by_cases hf : decision = "forbidden".toList
            · have hne' : ¬ "forbidden".toList = "allow".toList := fun h => hne h.symm
              simp [RuleReadState.step, hm', he, hp, ruleOf, hf, hne']
            · have ha2 : ¬ decision = ['a', 'l', 'l', 'o', 'w'] := ha
              have hf2 : ¬ decision = ['f', 'o', 'r', 'b', 'i', 'd', 'd', 'e', 'n'] := hf
              simp [RuleReadState.step, hm', he, hp, ruleOf, ha2, hf2]

theorem readRuleLines_eq_managedRules (lines : List Str) :
    readRuleLines lines
      = (managedRules "allow".toList false lines, managedRules "forbidden".toList false lines) := by
  unfold readRuleLines
  simp only [(foldl_ruleReadState lines ⟨[], [], false⟩).1,
    (foldl_ruleReadState lines ⟨[], [], false⟩).2, List.nil_append]

theorem noMarkerPair_tail (x : Str) (rest : List Str) (h : noMarkerPair (x :: rest) = true) :
    noMarkerPair rest = true := by
  cases rest with
  | nil => rfl
  | cons y rest2 =>
    simp only [noMarkerPair, Bool.and_eq_true] at h
    exact h.2

theorem noMarkerPair_next (x : Str) (rest : List Str) (h : noMarkerPair (x :: rest) = true)
    (hx : isMarkerLine x = true) : ∀ l, rest.head? = some l → isMarkerLine l = false := by
  intro l hl
  cases rest with
  | nil => cases hl
  | cons y rest2 =>
    simp only [List.head?_cons, Option.some.injEq] at hl
    subst hl
    simp only [noMarkerPair, Bool.and_eq_true, Bool.not_eq_true', hx, Bool.true_and] at h
    exact h.1

/-- Where no marker line immediately follows a marker line, the lines that follow a
marker line and parse as a rule line are the managed rules. -/
theorem rulesAfterMarker_eq_managedRules (wanted : Str) (lines : List Str) :
    ∀ flag : Bool, noMarkerPair lines = true →
      (flag = true → ∀ l, lines.head? = some l → isMarkerLine l = false) →
      rulesAfterMarker wanted flag lines = managedRules wanted flag lines := by
  induction lines with
  | nil => intro flag _ _; rfl
  | cons x rest ih =>
    intro flag hpair hhead
    rw [rulesAfterMarker, managedRules]
    rw [ih (isMarkerLine x) (noMarkerPair_tail x rest hpair)
      (fun hx => noMarkerPair_next x rest hpair hx)]
    cases flag with
    | false => simp
    | true => simp [hhead rfl x rfl]

/-- C20 (as stated, refuted). In the rule file whose lines are a marker line and a line
that starts with the marker and goes on with the rule that allows `rm`, the second line
immediately follows a marker line and parses as a rule line with the decision `allow`
and the pattern `rm`, yet `ReadCodexRules` returns no allow entry: the second line is
itself a marker line, and the reader tests for the marker before it parses a line. -/
theorem readCodexRules_skips_marker_rule_line :
    scanLines (linesContent [codexManagedMarker, markerRuleLine])
      = [codexManagedMarker, markerRuleLine] ∧
    isMarkerLine codexManagedMarker = true ∧
    parseCodexRuleLine markerRuleLine = some (["rm".toList], "allow".toList) ∧
    rulesAfterMarker "allow".toList false [codexManagedMarker, markerRuleLine] = ["rm".toList] ∧
    ReadCodexRules noJSON markerRuleFile "default.rules".toList false = .ok ([], []) := by
  refine ⟨by decide, by decide, by decide, by decide, by decide⟩

/-- C20 (amended). For every rule file whose lines (the pieces between line feeds) are
all shorter than 64 KiB, `ReadCodexRules` returns as allow (respectively deny), in file
order, exactly the space-joined quoted patterns of the lines that immediately follow a
marker line, are not themselves marker lines, and parse as a rule line with the decision
`allow` (respectively `forbidden`); where no marker line immediately follows a marker
line, these are the lines that immediately follow a marker line and parse as such a rule
line. For a rule file with a line of 64 KiB or more, `ReadCodexRules` fails with the
error of the scanner. -/
theorem readCodexRules_extracts (J : JSONLib) (fs : FS) (path : Str) (missingOK : Bool)
    (data : FileData) (hfile : fs.file path = .present data) :
    ((∀ piece ∈ splitOn '\n' (fileText J data), fitsScanner piece) →
      ReadCodexRules J fs path missingOK
        = .ok (managedRules "allow".toList false (scanLines (fileText J data)),
               managedRules "forbidden".toList false (scanLines (fileText J data))) ∧
      (noMarkerPair (scanLines (fileText J data)) = true →
        ReadCodexRules J fs path missingOK
          = .ok (rulesAfterMarker "allow".toList false (scanLines (fileText J data)),
                 rulesAfterMarker "forbidden".toList false (scanLines (fileText J data))))) ∧
    ((∃ piece ∈ splitOn '\n' (fileText J data), maxScanTokenSize ≤ byteLen piece) →
      ReadCodexRules J fs path missingOK = .error .tooLong) := by
  have hpresent := readCodexRules_present J fs path missingOK data hfile
  refine ⟨fun hfit => ?_, fun hlong => ?_⟩
  · have hread : ReadCodexRules J fs path missingOK
        = .ok (managedRules "allow".toList false (scanLines (fileText J data)),
               managedRules "forbidden".toList false (scanLines (fileText J data))) := by
      rw [hpresent, (scanErr_none_iff _).2 hfit]
      simp only [readRuleLines_eq_managedRules]
    refine ⟨hread, fun hpair => ?_⟩
    rw [hread, rulesAfterMarker_eq_managedRules "allow".toList _ false hpair
        (fun h => by cases h),
      rulesAfterMarker_eq_managedRules "forbidden".toList _ false hpair (fun h => by cases h)]
  · obtain ⟨piece, hp, hlen⟩ := hlong
    rw [hpresent, scanErr_tooLong _ piece hp hlen]

theorem readCodexRules_extracts_witness :
    mixedRuleFile.file "default.rules".toList
      = .present (.text (linesContent [
          codexManagedMarker, codexRuleLine "git status".toList "allow".toList,
          codexManagedMarker, codexRuleLine "foo".toList "prompt".toList,
          codexRuleLine "ls".toList "forbidden".toList,
          codexManagedMarker, "# a comment".toList,
          codexManagedMarker, codexRuleLine "rm -rf".toList "forbidden".toList])) ∧
    ReadCodexRules noJSON mixedRuleFile "default.rules".toList false
      = .ok (["git status".toList], ["rm -rf".toList]) :=
  ⟨rfl, ((readCodexRules_extracts noJSON mixedRuleFile "default.rules".toList false _ rfl).1
    (by decide)).1.trans (by decide)⟩

/-! ### The line-delimited format -/

theorem filter_trimmed_eq_filterMap (lines : List Str) :
    (lines.map TrimSpace).filter (fun v => !(decide (v = []) || hasPrefix v ['#']))
      = lines.filterMap keptEntry := by
  induction lines with
  | nil => rfl
  | cons l rest ih =>
    rw [List.map_cons, List.filterMap_cons, ← ih]
    unfold keptEntry
    cases hv : TrimSpace l with
    | nil => simp [List.filter_cons]
    | cons c cs =>
      by_cases hc : c = '#'
      · simp [List.filter_cons, hasPrefix, List.isPrefixOf, hc]
      · have hc' : ¬ '#' = c := fun e => hc e.symm
        simp [List.filter_cons, hasPrefix, List.isPrefixOf, hc, hc']

/-- The entries the line-delimited read extracts from a content, in terms of any
arrangement of the content as pieces between line feeds. -/
theorem newlineEntries_of_lines (content : Str) (lines : List Str)
    (hjoin : joinWith ['\n'] lines = content) (hlines : ∀ l ∈ lines, '\n' ∉ l) :
    newlineEntries content = lines.filterMap keptEntry := by
  unfold newlineEntries
  rw [filter_trimmed_eq_filterMap]
  cases lines with
  | nil =>
    subst hjoin
    decide
  | cons l rest =>
    rw [← hjoin, splitOn_joinWith '\n' (l :: rest) (by simp) hlines]

/-- C21. For every content of a file, the line-delimited read returns, in file order,
exactly the white-space-trimmed form of each line whose trimmed form is not empty and
does not start with `#`; the lines are the pieces between line feeds: the strings
without a line feed that, joined by line feeds, make up the content. -/
theorem newline_read_entries (J : JSONLib) (fs : FS) (path : Str) (missingOK : Bool)
    (data : FileData) (hfile : fs.file path = .present data) :
    (∃ lines, joinWith ['\n'] lines = fileText J data ∧ (∀ l ∈ lines, '\n' ∉ l)) ∧
    (∀ lines, joinWith ['\n'] lines = fileText J data → (∀ l ∈ lines, '\n' ∉ l) →
      ListFormat.newline.read J fs path missingOK = .ok (lines.filterMap keptEntry)) ∧
    (∀ v, keptEntry v = some (TrimSpace v) ↔
      (TrimSpace v ≠ [] ∧ (TrimSpace v).head? ≠ some '#')) := by
  refine ⟨⟨splitOn '\n' (fileText J data), joinWith_splitOn _ _, ?_⟩, ?_, ?_⟩
  · intro l hl
    exact not_mem_of_mem_splitOn '\n' _ l hl
  · intro lines hjoin hlines
    unfold ListFormat.read readOrMissing readFile
    rw [hfile]
    simp only [newlineEntries_of_lines _ lines hjoin hlines]
  · intro v
    unfold keptEntry
    by_cases h : TrimSpace v = [] ∨ (TrimSpace v).head? = some '#'
    · simp only [h, if_true]
      constructor
      · intro x; cases x
      · rintro ⟨h1, h2⟩
        rcases h with h | h
        · exact absurd h h1
        · exact absurd h h2
    · simp only [h, if_false, true_iff]
      exact ⟨fun e => h (Or.inl e), fun e => h (Or.inr e)⟩

theorem newline_read_entries_witness :
    commentedListFile.file "allow.txt".toList
      = .present (.text "# tools\n  ls \t\n\ngit status\n".toList) ∧
    joinWith ['\n'] ["# tools".toList, "  ls \t".toList, [], "git status".toList, []]
      = "# tools\n  ls \t\n\ngit status\n".toList ∧
    ListFormat.newline.read noJSON commentedListFile "allow.txt".toList false
      = .ok ["ls".toList, "git status".toList] :=
  ⟨rfl, by decide,
    ((newline_read_entries noJSON commentedListFile "allow.txt".toList false _ rfl).2.1
      ["# tools".toList, "  ls \t".toList, [], "git status".toList, []]
      (by decide) (by decide)).trans (by decide)⟩

/-! ### Entries in both lists of a Boolean map -/

/-- C25. After a successful `WriteJSONBoolMap` the file holds a document with the written
map under the key; in that map every deny entry has the value `false`, an entry that
occurs in both lists included, and every allow entry that is no deny entry has the value
`true`. `ReadJSONBoolMap` with the same key then returns as deny the set of the deny
entries and as allow the set of the allow entries that are not deny entries. -/
theorem writeJSONBoolMap_deny_wins (J : JSONLib) (fs fs' : FS) (path key : Str)
    (allow deny : List Str) (missingOK : Bool)
    (h : WriteJSONBoolMap J fs path key allow deny = .ok fs') :
    (∃ root, fs'.file path = .present (.json (.obj root)) ∧
      getJSONPath root key = .ok (some (.obj (boolMapOf allow deny)))) ∧
    (∀ e ∈ deny, lookupKey e (boolMapOf allow deny) = some (.bool false)) ∧
    (∀ e ∈ allow, e ∈ deny → lookupKey e (boolMapOf allow deny) = some (.bool false)) ∧
    (∀ e ∈ allow, e ∉ deny → lookupKey e (boolMapOf allow deny) = some (.bool true)) ∧
    (∃ ra rd, ReadJSONBoolMap J fs' path missingOK key = .ok (ra, rd) ∧
      (∀ e, e ∈ rd ↔ e ∈ deny) ∧ (∀ e, e ∈ ra ↔ e ∈ allow ∧ e ∉ deny)) := by
  obtain ⟨_, root, _, hfile, hget, _, _, _⟩ := writeJSONValue_result J fs fs' path key _ h
  obtain ⟨ra, rd, hread, hallow, hdeny, _, _⟩ :=
    readJSONBoolMap_after_write J fs fs' path key allow deny missingOK h
  refine ⟨⟨root, hfile, hget⟩, ?_, ?_, ?_, ⟨ra, rd, hread, hdeny, hallow⟩⟩
  · intro e he
    rw [lookupKey_boolMapOf, if_pos he]
  · intro e _ he
    rw [lookupKey_boolMapOf, if_pos he]
  · intro e ha hd
    rw [lookupKey_boolMapOf, if_neg hd, if_pos ha]

theorem writeJSONBoolMap_deny_wins_witness :
    ∃ fs', WriteJSONBoolMap noJSON emptySettings "settings.json".toList "autoApprove".toList
        ["ls".toList, "rm".toList] ["rm".toList] = .ok fs' ∧
      fs'.file "settings.json".toList = .present (.json (.obj [("autoApprove".toList,
        .obj [("ls".toList, .bool true), ("rm".toList, .bool false)])])) ∧
      ReadJSONBoolMap noJSON fs' "settings.json".toList false "autoApprove".toList
        = .ok (["ls".toList], ["rm".toList]) ∧
      ∃ ra rd, ReadJSONBoolMap noJSON fs' "settings.json".toList false "autoApprove".toList
          = .ok (ra, rd) ∧
        (∀ e, e ∈ rd ↔ e ∈ ["rm".toList]) ∧
        (∀ e, e ∈ ra ↔ e ∈ ["ls".toList, "rm".toList] ∧ e ∉ ["rm".toList]) :=
  ⟨_, rfl, rfl, rfl, (writeJSONBoolMap_deny_wins noJSON emptySettings _ "settings.json".toList
    "autoApprove".toList ["ls".toList, "rm".toList] ["rm".toList] false rfl).2.2.2.2⟩

/-! ### The tokenizer and quoted substrings -/

/-- Inside a quoted substring every character other than a quote character and the
backslash is added to the token, white space included. -/
theorem split_fold_inQuote (t : Str)
    (h : ∀ c ∈ t, c ≠ dquote ∧ c ≠ squote ∧ c ≠ backslash) :
    ∀ (out : List Str) (sb : Str),
      t.foldl SplitState.step ⟨out, sb, true, false⟩ = ⟨out, sb ++ t, true, false⟩ := by
  induction t with
  | nil => intro out sb; simp
  | cons c cs ih =>
    intro out sb
    obtain ⟨h1, h2, h3⟩ := h c (by simp)
    have hstep : SplitState.step ⟨out, sb, true, false⟩ c = ⟨out, sb ++ [c], true, false⟩ := by
      simp [SplitState.step, h1, h2, h3]
    rw [List.foldl_cons, hstep, ih (fun d hd => h d (List.mem_cons_of_mem _ hd))]
    simp

/-- Outside a quoted substring every character other than a quote character, the
backslash and the three separators is added to the token. -/
theorem split_fold_outside (t : Str)
    (h : ∀ c ∈ t, c ≠ dquote ∧ c ≠ squote ∧ c ≠ backslash)
    (hsep : ∀ c ∈ t, c ≠ ' ' ∧ c ≠ '\t' ∧ c ≠ '\n') :
    ∀ (out : List Str) (sb : Str),
      t.foldl SplitState.step ⟨out, sb, false, false⟩ = ⟨out, sb ++ t, false, false⟩ := by
  induction t with
  | nil => intro out sb; simp
  | cons c cs ih =>
    intro out sb
    obtain ⟨h1, h2, h3⟩ := h c (by simp)
    obtain ⟨h4, h5, h6⟩ := hsep c (by simp)
    have hstep : SplitState.step ⟨out, sb, false, false⟩ c = ⟨out, sb ++ [c], false, false⟩ := by
      simp [SplitState.step, h1, h2, h3, h4, h5, h6]
    rw [List.foldl_cons, hstep, ih (fun d hd => h d (List.mem_cons_of_mem _ hd))
      (fun d hd => hsep d (List.mem_cons_of_mem _ hd))]
    simp

/-- A substring between double quotes is added to the token as a whole. -/
theorem split_fold_wrapped (t : Str)
    (h : ∀ c ∈ t, c ≠ dquote ∧ c ≠ squote ∧ c ≠ backslash) (out : List Str) (sb : Str) :
    ([dquote] ++ t ++ [dquote]).foldl SplitState.step ⟨out, sb, false, false⟩
      = ⟨out, sb ++ t, false, false⟩ := by
  have hq : ¬ dquote = backslash := by decide
  have hopen : SplitState.step ⟨out, sb, false, false⟩ dquote = ⟨out, sb, true, false⟩ := by
    simp [SplitState.step, hq]
  have hclose : SplitState.step ⟨out, sb ++ t, true, false⟩ dquote
      = ⟨out, sb ++ t, false, false⟩ := by
    simp [SplitState.step, hq]
  simp only [List.foldl_append, List.foldl_cons, List.foldl_nil]
  rw [hopen, split_fold_inQuote t h, hclose]

/-- C26 (as stated, refuted). The word `it`, single quote, `s` is not empty and contains
no double quote and no backslash, yet the tokenizer applied to the word between double
quotes returns the token `its`: the single quote ends the quoted substring and is
dropped. With a blank after the single quote the word is split into two tokens. -/
theorem splitCommandPattern_single_quote_inside :
    wordWithQuote ≠ [] ∧ dquote ∉ wordWithQuote ∧ backslash ∉ wordWithQuote ∧
    splitCommandPattern ([dquote] ++ wordWithQuote ++ [dquote]) = ["its".toList] ∧
    splitCommandPattern ([dquote] ++ wordWithQuote ++ [dquote]) ≠ [wordWithQuote] ∧
    splitCommandPattern ([dquote] ++ (wordWithQuote ++ " a".toList) ++ [dquote])
      = ["its".toList, "a".toList] := by
  refine ⟨by decide, by decide, by decide, by decide, by decide, by decide⟩

/-- C26 (amended). For every non-empty string `s` that contains no quote character,
single or double, and no backslash, the tokenizer applied to `s` between double quotes
returns exactly one token, equal to `s`: white space inside the quotes does not split
the token. -/
theorem splitCommandPattern_quoted (s : Str) (hne : s ≠ [])
    (h : ∀ c ∈ s, c ≠ dquote ∧ c ≠ squote ∧ c ≠ backslash) :
    splitCommandPattern ([dquote] ++ s ++ [dquote]) = [s] := by
  unfold splitCommandPattern
  rw [split_fold_wrapped s h]
  simp [SplitState.flush, hne]

theorem splitCommandPattern_quoted_witness :
    splitCommandPattern ([dquote] ++ "hello \t world".toList ++ [dquote])
      = ["hello \t world".toList] :=
  splitCommandPattern_quoted "hello \t world".toList (by decide) (by decide)

/-- The tokenizer over tokens written with `quoteIfBlank` and joined by single spaces,
from any list of tokens already found. -/
theorem split_fold_quoteIfBlank (blank : Char → Bool)
    (hblank : ∀ c, c = ' ' ∨ c = '\t' ∨ c = '\n' → blank c = true) (toks : List Str)
    (hne : ∀ t ∈ toks, t ≠ [])
    (h : ∀ t ∈ toks, ∀ c ∈ t, c ≠ dquote ∧ c ≠ squote ∧ c ≠ backslash) :
    ∀ out : List Str,
      (((joinWith [' '] (toks.map (quoteIfBlank blank))).foldl SplitState.step
        ⟨out, [], false, false⟩).flush).out = out ++ toks := by
  have hpiece : ∀ t, (∀ c ∈ t, c ≠ dquote ∧ c ≠ squote ∧ c ≠ backslash) →
      ∀ out : List Str, (quoteIfBlank blank t).foldl SplitState.step ⟨out, [], false, false⟩
        = ⟨out, t, false, false⟩ := by
    intro t ht out
    unfold quoteIfBlank
    by_cases hb : t.any blank = true
    · rw [if_pos hb, split_fold_wrapped t ht]
      simp
    · rw [if_neg hb, split_fold_outside t ht]
      · simp
      · intro c hc
        have hbc : blank c ≠ true := fun e => hb (List.any_eq_true.2 ⟨c, hc, e⟩)
        exact ⟨fun e => hbc (hblank c (Or.inl e)), fun e => hbc (hblank c (Or.inr (Or.inl e))),
          fun e => hbc (hblank c (Or.inr (Or.inr e)))⟩
  induction toks with
  | nil => intro out; simp [joinWith, SplitState.flush]
  | cons t rest ih =>
    intro out
    have htne := hne t (by simp)
    have ht := h t (by simp)
    cases rest with
    | nil =>
      simp only [List.map_cons, List.map_nil, joinWith]
      rw [hpiece t ht]
      simp [SplitState.flush, htne]
    | cons t2 rest2 =>
      simp only [List.map_cons, joinWith, List.foldl_append, List.foldl_cons, List.foldl_nil]
      rw [hpiece t ht]
      have hstep : SplitState.step ⟨out, t, false, false⟩ ' ' = ⟨out ++ [t], [], false, false⟩ := by
        have e1 : ¬ ' ' = backslash := by decide
        have e2 : ¬ ' ' = dquote := by decide
        have e3 : ¬ ' ' = squote := by decide
        simp [SplitState.step, SplitState.flush, htne, e1, e2, e3]
      rw [hstep]
      have := ih (fun u hu => hne u (List.mem_cons_of_mem _ hu))
        (fun u hu => h u (List.mem_cons_of_mem _ hu)) (out ++ [t])
      simp only [List.map_cons] at this
      rw [this]
      simp

/-- C27. For every sequence of non-empty tokens that contain no quote character, single
or double, and no backslash, the tokenizer applied to the tokens joined by single
spaces, each token that contains a blank character being written between double quotes,
returns exactly that sequence. The blank characters may be any set of characters that
includes the space, the tab and the line feed, such as the Unicode white space. -/
theorem splitCommandPattern_tokens (blank : Char → Bool) (toks : List Str)
    (hblank : ∀ c, c = ' ' ∨ c = '\t' ∨ c = '\n' → blank c = true)
    (hne : ∀ t ∈ toks, t ≠ [])
    (h : ∀ t ∈ toks, ∀ c ∈ t, c ≠ dquote ∧ c ≠ squote ∧ c ≠ backslash) :
    splitCommandPattern (joinWith [' '] (toks.map (quoteIfBlank blank))) = toks := by
  unfold splitCommandPattern
  rw [split_fold_quoteIfBlank blank hblank toks hne h []]
  simp

theorem splitCommandPattern_tokens_witness :
    joinWith [' '] (["git".toList, "commit".toList, "-m".toList, "hello world".toList].map
        (quoteIfBlank isSpace))
      = "git commit -m ".toList ++ [dquote] ++ "hello world".toList ++ [dquote] ∧
    splitCommandPattern ("git commit -m ".toList ++ [dquote] ++ "hello world".toList ++ [dquote])
      = ["git".toList, "commit".toList, "-m".toList, "hello world".toList] := by
  have hjoin : joinWith [' '] (["git".toList, "commit".toList, "-m".toList,
        "hello world".toList].map (quoteIfBlank isSpace))
      = "git commit -m ".toList ++ [dquote] ++ "hello world".toList ++ [dquote] := by decide
  refine ⟨hjoin, ?_⟩
  rw [← hjoin]
  exact splitCommandPattern_tokens isSpace _ (by rintro c (rfl | rfl | rfl) <;> decide)
    (by decide) (by decide)

/-! ### Escaping and the quoted list -/

theorem quotedScan_item_free (t : Str) (h : ∀ c ∈ t, c ≠ dquote ∧ c ≠ backslash) :
    ∀ (rest sb : Str) (out : List Str),
      quotedScan (t ++ rest) (.inItem sb) out = quotedScan rest (.inItem (sb ++ t)) out := by
  induction t with
  | nil => intro rest sb out; simp
  | cons c cs ih =>
    intro rest sb out
    obtain ⟨h1, h2⟩ := h c (by simp)
    rw [List.cons_append, quotedScan]
    simp only [h1, h2, if_false]
    rw [ih (fun d hd => h d (List.mem_cons_of_mem _ hd))]
    simp

theorem escapeCodexString_free (t : Str) (h : ∀ c ∈ t, c ≠ dquote ∧ c ≠ backslash) :
    escapeCodexString t = t := by
  unfold escapeCodexString replaceAll
  simp only
  rw [replaceAllFrom_absent backslash _ _ t (fun c hc => (h c hc).2),
    replaceAllFrom_absent dquote _ _ t (fun c hc => (h c hc).1)]

/-- A token without double quote and backslash is written as it is and read back from
between double quotes. -/
theorem parseQuotedList_escaped_free (t : Str) (h : ∀ c ∈ t, c ≠ dquote ∧ c ≠ backslash) :
    parseQuotedList ([dquote] ++ escapeCodexString t ++ [dquote]) = some [t] := by
  have hq : ¬ dquote = backslash := by decide
  have hs : ¬ dquote = ' ' ∧ ¬ dquote = '\t' ∧ ¬ dquote = ',' := by decide
  rw [escapeCodexString_free t h]
  unfold parseQuotedList
  simp only [List.singleton_append, List.append_assoc, List.cons_append, List.nil_append]
  rw [quotedScan]
  simp only [hs, or_self, if_false, if_true]
  rw [quotedScan_item_free t h]
  simp [quotedScan, hq]

/-- C22 (a defect of the code). The escaping writes a double quote as two backslashes
and a double quote and leaves a single backslash as it is, so the parser of the quoted
list does not invert it: for the token that is one double quote, and for the token that
is one backslash, the parser fails on the escaped token between double quotes; for the
token `a`, backslash, `b` it succeeds with the token `ab`. For every token without
double quote and backslash the parser does return the token. -/
theorem escapeCodexString_not_inverted :
    escapeCodexString [dquote] = [backslash, backslash, dquote] ∧
    parseQuotedList ([dquote] ++ escapeCodexString [dquote] ++ [dquote]) = none ∧
    escapeCodexString [backslash] = [backslash] ∧
    parseQuotedList ([dquote] ++ escapeCodexString [backslash] ++ [dquote]) = none ∧
    escapeCodexString tokenWithBackslash = tokenWithBackslash ∧
    parseQuotedList ([dquote] ++ escapeCodexString tokenWithBackslash ++ [dquote])
      = some ["ab".toList] ∧
    (∀ t : Str, (∀ c ∈ t, c ≠ dquote ∧ c ≠ backslash) →
      parseQuotedList ([dquote] ++ escapeCodexString t ++ [dquote]) = some [t]) :=
  ⟨by decide, by decide, by decide, by decide, by decide, by decide,
    parseQuotedList_escaped_free⟩

/-- C23 (a defect of the code). The command `[ -f x ]` has the tokens `[`, `-f`, `x` and
`]`; in the rule line written for it the pattern expression stops at the closing bracket
inside the last token, the list it captures ends inside a quoted item, and
`parseCodexRuleLine` rejects the line, with either decision. Written as an allow entry
into a new rule file, the command is missing from the lists read back. -/
theorem codexRuleLine_with_bracket_rejected :
    splitCommandPattern bracketCommand = ["[".toList, "-f".toList, "x".toList, "]".toList] ∧
    findPattern (codexRuleLine bracketCommand "allow".toList)
      = some (quoteToken "[".toList ++ ", ".toList ++ quoteToken "-f".toList ++ ", ".toList ++
          quoteToken "x".toList ++ ", ".toList ++ [dquote]) ∧
    parseCodexRuleLine (codexRuleLine bracketCommand "allow".toList) = none ∧
    parseCodexRuleLine (codexRuleLine bracketCommand "forbidden".toList) = none ∧
    (∃ fs', WriteCodexRules noJSON noFiles "default.rules".toList [bracketCommand] [] = .ok fs' ∧
      fs'.file "default.rules".toList = .present (.text (linesContent
        [codexManagedMarker, codexRuleLine bracketCommand "allow".toList])) ∧
      ReadCodexRules noJSON fs' "default.rules".toList false = .ok ([], [])) :=
  ⟨by decide, by decide, by decide, by decide, _, rfl, rfl, by decide⟩

/-! ### The decision of a written rule line -/

theorem stripLiteral_some (p : Str) : ∀ s r : Str, stripLiteral p s = some r → s = p ++ r := by
  induction p with
  | nil =>
    intro s r h
    cases s <;> simp only [stripLiteral, Option.some.injEq] at h <;> simp [h]
  | cons a ps ih =>
    intro s r h
    cases s with
    | nil => simp [stripLiteral] at h
    | cons c cs =>
      simp only [stripLiteral] at h
      by_cases hac : a = c
      · rw [if_pos hac] at h
        rw [ih cs r h, hac]
        rfl
      · rw [if_neg hac] at h
        cases h

theorem dropWhile_reSpace_cons (r : Str) (c : Char) (r2 : Str)
    (h : r.dropWhile reSpace = c :: r2) :
    ∃ ws, r = ws ++ c :: r2 ∧ ∀ x ∈ ws, reSpace x = true := by
  refine ⟨r.takeWhile reSpace, ?_, fun x hx => List.mem_takeWhile_imp hx⟩
  rw [← h, List.takeWhile_append_dropWhile]

/-- A match of the decision expression at the start of a text runs over an equals sign,
white space and a double quote that is followed by the decision word it captures. -/
theorem matchDecisionAt_some (s w : Str) (h : matchDecisionAt s = some w) :
    ∃ u y, s = u ++ dquote :: y ∧ endsAssign u ∧ matchDecisionWord y = some w := by
  unfold matchDecisionAt at h
  cases hs : stripLiteral "decision".toList s with
  | none => rw [hs] at h; cases h
  | some r1 =>
    rw [hs] at h
    simp only at h
    have hs1 := stripLiteral_some _ s r1 hs
    cases h1 : r1.dropWhile reSpace with
    | nil => rw [h1] at h; cases h
    | cons c r2 =>
      rw [h1] at h
      simp only at h
      obtain ⟨ws1, hr1, _⟩ := dropWhile_reSpace_cons r1 c r2 h1
      by_cases hc : c = '='
      · rw [if_pos hc] at h
        cases h2 : r2.dropWhile reSpace with
        | nil => rw [h2] at h; cases h
        | cons c2 r3 =>
          rw [h2] at h
          simp only at h
          obtain ⟨ws2, hr2, hws2⟩ := dropWhile_reSpace_cons r2 c2 r3 h2
          by_cases hc2 : c2 = dquote
          · rw [if_pos hc2] at h
            refine ⟨"decision".toList ++ ws1 ++ '=' :: ws2, r3, ?_,
              ⟨"decision".toList ++ ws1, ws2, rfl, hws2⟩, h⟩
            rw [hs1, hr1, hr2, hc, hc2]
            simp
          · rw [if_neg hc2] at h
            cases h
      · rw [if_neg hc] at h
        cases h

/-- The leftmost match captures `d` when some position matches with `d` and no position
matches with anything else. -/
theorem findLeftmost_unique (m : Str → Option Str) (d : Str) :
    ∀ l : Str, (∀ x s, l = x ++ s → ∀ w, m s = some w → w = d) →
      (∃ x s, l = x ++ s ∧ m s = some d) → findLeftmost m l = some d := by
  intro l
  induction l with
  | nil =>
    intro _ hex
    obtain ⟨x, s, hl, hm⟩ := hex
    have hs : s = [] := (List.append_eq_nil.1 hl.symm).2
    rw [findLeftmost, ← hs, hm]
  | cons c rest ih =>
    intro hall hex
    rw [findLeftmost]
    cases hm : m (c :: rest) with
    | some r =>
      simp only
      rw [hall [] (c :: rest) rfl r hm]
    | none =>
      simp only
      apply ih
      · intro x s hl w hw
        exact hall (c :: x) s (by rw [hl]; rfl) w hw
      · obtain ⟨x, s, hl, hs⟩ := hex
        cases x with
        | nil =>
          simp only [List.nil_append] at hl
          rw [← hl, hm] at hs
          cases hs
        | cons a x2 =>
          simp only [List.cons_append, List.cons.injEq] at hl
          exact ⟨x2, s, hl.2, hs⟩

theorem not_endsAssign_last (x : Str) (c : Char) (h1 : c ≠ '=') (h2 : reSpace c = false) :
    ¬ endsAssign (x ++ [c]) := by
  rintro ⟨x', ws, heq, hws⟩
  have hrev := congrArg List.reverse heq
  simp only [List.reverse_append, List.reverse_cons, List.reverse_nil, List.nil_append,
    List.singleton_append, List.append_assoc] at hrev
  cases hr : ws.reverse with
  | nil =>
    rw [hr] at hrev
    simp only [List.nil_append, List.cons.injEq] at hrev
    exact h1 hrev.1
  | cons a rest =>
    rw [hr] at hrev
    simp only [List.cons_append, List.cons.injEq] at hrev
    have ha : a ∈ ws := by
      rw [← List.mem_reverse, hr]
      simp
    rw [← hrev.1] at ha
    rw [hws c ha] at h2
    cases h2

theorem not_endsAssign_comma_space (x : Str) : ¬ endsAssign (x ++ [',', ' ']) := by
  rintro ⟨x', ws, heq, hws⟩
  have hrev := congrArg List.reverse heq
  simp only [List.reverse_append, List.reverse_cons, List.reverse_nil, List.nil_append,
    List.singleton_append, List.append_assoc, List.cons_append] at hrev
  cases hr : ws.reverse with
  | nil =>
    rw [hr] at hrev
    simp only [List.nil_append, List.cons.injEq] at hrev
    exact absurd hrev.1 (by decide)
  | cons a rest =>
    rw [hr] at hrev
    simp only [List.cons_append, List.cons.injEq] at hrev
    cases rest with
    | nil =>
      simp only [List.nil_append, List.cons.injEq] at hrev
      exact absurd hrev.2.1 (by decide)
    | cons b rest2 =>
      simp only [List.cons_append, List.cons.injEq] at hrev
      have hb : b ∈ ws := by
        rw [← List.mem_reverse, hr]
        simp
      rw [← hrev.2.1] at hb
      exact absurd (hws ',' hb) (by decide)

theorem quotesSafe_append (d left right a b : Str)
    (ha : quotesSafe d left (b ++ right) a) (hb : quotesSafe d (left ++ a) right b) :
    quotesSafe d left right (a ++ b) := by
  intro x y hsplit hends w hw
  rcases List.append_eq_append_iff.1 hsplit with ⟨a', hx, hb'⟩ | ⟨c', ha', hy⟩
  · apply hb a' y hb' _ w hw
    rw [List.append_assoc, ← hx]
    exact hends
  · cases c' with
    | nil =>
      simp only [List.nil_append, List.append_nil] at hy ha'
      apply hb [] y hy.symm _ w hw
      rw [List.append_nil, ha']
      exact hends
    | cons q c2 =>
      simp only [List.cons_append, List.cons.injEq] at hy
      obtain ⟨hq, hy2⟩ := hy
      subst hq
      apply ha x c2 ha' hends w
      rw [← List.append_assoc, ← hy2]
      exact hw

theorem quotesSafe_of_not_mem (d left right a : Str) (h : dquote ∉ a) :
    quotesSafe d left right a := by
  intro x y hsplit
  exact absurd (by rw [hsplit]; simp) h

theorem quotesSafe_quote_left (d left right : Str) (h : ¬ endsAssign left) :
    quotesSafe d left right [dquote] := by
  intro x y hsplit hends
  cases x with
  | nil => exact absurd (by simpa using hends) h
  | cons a x2 =>
    simp only [List.cons_append, List.cons.injEq] at hsplit
    exact absurd hsplit.2.symm (by simp)

theorem quotesSafe_quote_right (d left right : Str)
    (h : ∀ w, matchDecisionWord right = some w → w = d) :
    quotesSafe d left right [dquote] := by
  intro x y hsplit _ w hw
  cases x with
  | nil =>
    simp only [List.nil_append, List.cons.injEq, true_and] at hsplit
    rw [← hsplit] at hw
    exact h w (by simpa using hw)
  | cons a x2 =>
    simp only [List.cons_append, List.cons.injEq] at hsplit
    exact absurd hsplit.2.symm (by simp)

/-- In an escaped token every double quote comes right after a backslash. -/
theorem replaceAllFrom_quote_after_backslash (v : Str) :
    ∀ x y : Str, replaceAllFrom [dquote] [backslash, backslash, dquote] 0 v = x ++ dquote :: y →
      ∃ x', x = x' ++ [backslash] := by
  have hbq : ¬ backslash = dquote := by decide
  induction v with
  | nil =>
    intro x y h
    simp [replaceAllFrom] at h
  | cons c rest ih =>
    intro x y h
    rw [replaceAllFrom] at h
    by_cases hc : c = dquote
    · have hpre : [dquote].isPrefixOf (c :: rest) = true := by simp [List.isPrefixOf, hc]
      rw [if_pos hpre] at h
      simp only [List.length_singleton, Nat.sub_self, List.cons_append, List.nil_append] at h
      cases x with
      | nil =>
        simp only [List.nil_append, List.cons.injEq] at h
        exact absurd h.1 hbq
      | cons a1 x1 =>
        cases x1 with
        | nil =>
          simp only [List.cons_append, List.nil_append, List.cons.injEq] at h
          exact absurd h.2.1 hbq
        | cons a2 x2 =>
          cases x2 with
          | nil =>
            simp only [List.cons_append, List.nil_append, List.cons.injEq] at h
            exact ⟨[a1], by rw [← h.2.1]; rfl⟩
          | cons a3 x3 =>
            simp only [List.cons_append, List.cons.injEq] at h
            obtain ⟨x', hx'⟩ := ih x3 y h.2.2.2
            exact ⟨a1 :: a2 :: a3 :: x', by rw [hx']; rfl⟩
    · have hpre : ¬ [dquote].isPrefixOf (c :: rest) = true := by
        have : ¬ dquote = c := fun e => hc e.symm
        simp [List.isPrefixOf, this]
      rw [if_neg hpre] at h
      cases x with
      | nil =>
        simp only [List.nil_append, List.cons.injEq] at h
        exact absurd h.1 hc
      | cons a1 x1 =>
        simp only [List.cons_append, List.cons.injEq] at h
        obtain ⟨x', hx'⟩ := ih x1 y h.2
        exact ⟨a1 :: x', by rw [hx']; rfl⟩

theorem quotesSafe_escaped (d left right p : Str) :
    quotesSafe d left right (escapeCodexString p) := by
  intro x y hsplit hends
  unfold escapeCodexString replaceAll at hsplit
  obtain ⟨x', hx'⟩ := replaceAllFrom_quote_after_backslash _ x y hsplit
  rw [hx', ← List.append_assoc] at hends
  exact absurd hends (not_endsAssign_last _ backslash (by decide) (by decide))

/-- A token written between double quotes, after a text that does not end as the
decision expression requires and before a text that does not start with a decision
word. -/
theorem quotesSafe_quoted (d left right p : Str) (hl : ¬ endsAssign left)
    (hr : matchDecisionWord right = none) :
    quotesSafe d left right ([dquote] ++ escapeCodexString p ++ [dquote]) := by
  rw [List.append_assoc]
  apply quotesSafe_append
  · exact quotesSafe_quote_left d left _ hl
  · apply quotesSafe_append
    · exact quotesSafe_escaped d _ _ p
    · apply quotesSafe_quote_right
      intro w hw
      rw [hr] at hw
      cases hw

theorem quotesSafe_quotedList (d right : Str) (hr : matchDecisionWord right = none)
    (toks : List Str) :
    ∀ left : Str, ¬ endsAssign left →
      quotesSafe d left right (joinWith ", ".toList
        (toks.map (fun p => [dquote] ++ escapeCodexString p ++ [dquote]))) := by
  have hsep : ", ".toList = [',', ' '] := by decide
  induction toks with
  | nil =>
    intro left _
    exact quotesSafe_of_not_mem d left right _ (by simp [joinWith])
  | cons t rest ih =>
    intro left hl
    cases rest with
    | nil =>
      simp only [List.map_cons, List.map_nil, joinWith]
      exact quotesSafe_quoted d left right t hl hr
    | cons t2 rest2 =>
      simp only [List.map_cons, joinWith]
      rw [List.append_assoc]
      apply quotesSafe_append
      · apply quotesSafe_quoted d left _ t hl
        rw [hsep]
        exact matchDecisionWord_head _ _ (by decide)
      · apply quotesSafe_append
        · exact quotesSafe_of_not_mem d _ _ _ (by decide)
        · have := ih (left ++ ([dquote] ++ escapeCodexString t ++ [dquote]) ++ ", ".toList)
            (by rw [hsep]; exact not_endsAssign_comma_space _)
          simpa only [List.map_cons] using this

/-- The decision expression finds the decision written at the end of a rule line whose
pattern holds no double quote that could open another match. -/
theorem findDecision_line (d body : Str)
    (hbody : ∀ left right, ¬ endsAssign left → matchDecisionWord right = none →
      quotesSafe d left right body)
    (hd1 : dquote ∉ d)
    (hd2 : matchDecisionWord (d ++ ([dquote] ++ ")".toList)) = some d)
    (hd3 : matchDecisionAt ("decision=".toList ++ ([dquote] ++ (d ++ ([dquote] ++ ")".toList))))
      = some d) :
    findDecision ("prefix_rule(pattern=[".toList ++ body ++ "], decision=".toList ++ [dquote] ++
      d ++ [dquote] ++ ")".toList) = some d := by
  have hline : "prefix_rule(pattern=[".toList ++ body ++ "], decision=".toList ++ [dquote] ++
      d ++ [dquote] ++ ")".toList
      = "prefix_rule(pattern=[".toList ++ (body ++ ("], decision=".toList ++ ([dquote] ++
          (d ++ ([dquote] ++ ")".toList))))) := by
    simp only [List.append_assoc]
  have hsafe : quotesSafe d [] [] ("prefix_rule(pattern=[".toList ++ (body ++
      ("], decision=".toList ++ ([dquote] ++ (d ++ ([dquote] ++ ")".toList)))))) := by
    apply quotesSafe_append
    · exact quotesSafe_of_not_mem d _ _ _ (by decide)
    · apply quotesSafe_append
      · apply hbody
        · rw [List.nil_append]
          exact not_endsAssign_last "prefix_rule(pattern=".toList '[' (by decide) (by decide)
        · have h1 : "], decision=".toList = ']' :: ", decision=".toList := by decide
          rw [h1, List.cons_append, List.cons_append]
          exact matchDecisionWord_head _ _ (by decide)
      · apply quotesSafe_append
        · exact quotesSafe_of_not_mem d _ _ _ (by decide)
        · apply quotesSafe_append
          · apply quotesSafe_quote_right
            intro w hw
            rw [List.append_nil, hd2] at hw
            simp only [Option.some.injEq] at hw
            exact hw.symm
          · apply quotesSafe_append
            · exact quotesSafe_of_not_mem d _ _ _ hd1
            · apply quotesSafe_append
              · apply quotesSafe_quote_right
                intro w hw
                have hnone : matchDecisionWord (")".toList ++ []) = none := by decide
                rw [hnone] at hw
                cases hw
              · exact quotesSafe_of_not_mem d _ _ _ (by decide)
  rw [hline]
  unfold findDecision
  apply findLeftmost_unique
  · intro x s hl w hw
    obtain ⟨u, y, hs, ⟨u', ws, hu, hws⟩, hword⟩ := matchDecisionAt_some s w hw
    apply hsafe (x ++ u) y
    · rw [hl, hs, List.append_assoc]
    · exact ⟨x ++ u', ws, by rw [hu]; simp, hws⟩
    · rw [List.append_nil]
      exact hword
  · refine ⟨"prefix_rule(pattern=[".toList ++ body ++ "], ".toList,
      "decision=".toList ++ ([dquote] ++ (d ++ ([dquote] ++ ")".toList))), ?_, hd3⟩
    have h1 : "], decision=".toList = "], ".toList ++ "decision=".toList := by decide
    rw [h1]
    simp only [List.append_assoc]

/-- C24. For every command string and every decision `d` among `allow` and `forbidden`,
the decision expression finds `d` in the rule line written for the command with `d`,
so whenever `parseCodexRuleLine` accepts the line the decision it reports is `d`: no
command text makes an entry written as forbidden be read back as allow, or the other way
round. -/
theorem codexRuleLine_decision (cmd d : Str)
    (hd : d = "allow".toList ∨ d = "forbidden".toList) :
    findDecision (codexRuleLine cmd d) = some d ∧
    (∀ pattern decision, parseCodexRuleLine (codexRuleLine cmd d) = some (pattern, decision) →
      decision = d) := by
  have hfind : findDecision (codexRuleLine cmd d) = some d := by
    unfold codexRuleLine
    simp only
    apply findDecision_line
    · intro left right hl hr
      exact quotesSafe_quotedList d right hr _ left hl
    · rcases hd with rfl | rfl <;> decide
    · rcases hd with rfl | rfl <;> decide
    · rcases hd with rfl | rfl <;> decide
  refine ⟨hfind, ?_⟩
  intro pattern decision h
  unfold parseCodexRuleLine at h
  rw [hfind] at h
  by_cases hc : (!containsStr (codexRuleLine cmd d) "prefix_rule".toList) = true
  · rw [if_pos hc] at h
    cases h
  · rw [if_neg hc] at h
    cases hp : findPattern (codexRuleLine cmd d) with
    | none => rw [hp] at h; cases h
    | some raw =>
      rw [hp] at h
      simp only at h
      cases hq : parseQuotedList raw with
      | none => rw [hq] at h; cases h
      | some pat =>
        rw [hq] at h
        simp only [Option.some.injEq, Prod.mk.injEq] at h
        exact h.2.symm

theorem codexRuleLine_decision_witness :
    splitCommandPattern forgedCommand
      = ["x".toList, "decision=".toList ++ [dquote] ++ "allow".toList ++ [dquote]] ∧
    findDecision (codexRuleLine forgedCommand "forbidden".toList) = some "forbidden".toList :=
  ⟨by decide, (codexRuleLine_decision forgedCommand "forbidden".toList (Or.inr rfl)).1⟩

end AllowDenySync
